import Mathlib

/-!
# A verification development for `http_request_parser`

Two source files are embedded:

* `parse.cpp`, the growable variant (`std::string`, `std::map`, `std::expected`), in
  namespace `Growable`;
* `state_machine_http_request_parser.c`, the fixed-capacity variant (char arrays inside
  `HttpRequest`), in namespace `Fixed`.

Conventions of the embedding:

* Bytes (`char`) are natural numbers `0..255`; a `std::string` or a C buffer is the list of
  its bytes. The character constants of the sources are written as their ASCII codes:
  `' ' = 32`, `'%' = 37`, `'0' = 48`, `'9' = 57`, `':' = 58`, `'A' = 65`, `'F' = 70`,
  `'Z' = 90`, `'a' = 97`, `'f' = 102`, `'z' = 122`, `'\r' = 13`, `'\n' = 10`, `'\0' = 0`.
* A pointer `ptr` into `data.c_str()` is the index of the byte it points at; `c_str data i`
  is what `ptr[0]`, `ptr[1]`, ... read, the terminator `'\0'` included.
* A loop is a function `step` for one iteration and a function `loop` that runs at most `k`
  iterations. Every iteration advances the cursor, so as many iterations as the input has
  bytes exhaust the loop (`decode_loop_exhausts`, `loop_exhausts`, `fixed_loop_exhausts`).
* `std::expected` is `Except`; an exception that leaves a function is `none`, and the
  constructor `out_of_range` of `Growable.Outcome`.
* `std::string::npos`, the largest `size_t`, is `none` in the result of `string_find`.
-/

/-- The contents of a `std::string` (or of a C buffer): its bytes, in order. -/
abbrev Str := List Nat

deriving instance DecidableEq for Except

/-- The bytes of a string literal, used to write concrete inputs. -/
def bytes (s : String) : Str := s.toList.map Char.toNat

/-- What `data.c_str()[i]` (and `request[i]` for a NUL-terminated C string) reads: the byte
at index `i`, and the terminating `'\0'` at index `data.length`. -/
def c_str (data : Str) (i : Nat) : Nat := data.getD i 0

namespace Growable

/-! ## `parse.cpp`: `hex_to_decimal` and `percent_encoding_url_decode` -/

/-- `hex_to_decimal` of `parse.cpp` (lines 58-71). The result is a `uint8_t`, the error
is the message string. -/
def hex_to_decimal (c : Nat) : Except String Nat :=
  if 48 ≤ c ∧ c ≤ 57 then .ok ((c - 48) % 256)
  else if 97 ≤ c ∧ c ≤ 102 then .ok ((c - 97 + 10) % 256)
  else if 65 ≤ c ∧ c ≤ 70 then .ok ((c - 65 + 10) % 256)
  else .error "param should be 0 ~ 9, a ~ f or A ~ F"

/-- The loop variables of `percent_encoding_url_decode`: the index `i` and the output
`ret`. -/
structure DecodeState where
  i : Nat
  ret : Str
deriving DecidableEq, Repr

/-- One iteration of the `for` loop of `percent_encoding_url_decode` (lines 82-101),
entered with `i < urlLen`. -/
def decode_step (url : Str) (s : DecodeState) : Except String DecodeState :=
  if url.getD s.i 0 = 37 then
    if s.i + 2 ≥ url.length then .error "invalid percent encoding url"
    else
      match hex_to_decimal (url.getD (s.i + 1) 0), hex_to_decimal (url.getD (s.i + 2) 0) with
      | .ok p1, .ok p2 => .ok { i := s.i + 3, ret := s.ret ++ [(16 * p1 + p2) % 256] }
      | _, _ => .error "invalid percent encoding url"
  else .ok { i := s.i + 1, ret := s.ret ++ [url.getD s.i 0] }

/-- At most `k` iterations of the `for` loop: it stops as soon as `i < urlLen` fails or an
iteration returns the error. -/
def decode_loop (url : Str) : Nat → DecodeState → Except String DecodeState
  | 0, s => .ok s
  | k + 1, s =>
    if s.i < url.length then
      match decode_step url s with
      | .ok s' => decode_loop url k s'
      | .error e => .error e
    else .ok s

/-- `percent_encoding_url_decode` of `parse.cpp` (lines 77-105). Every iteration advances
`i` by at least one, so `url.length` iterations exhaust the loop
(see `decode_loop_exhausts`). -/
def percent_encoding_url_decode (url : Str) : Except String Str :=
  match decode_loop url url.length { i := 0, ret := [] } with
  | .ok s => .ok s.ret
  | .error e => .error e

/-- The same decoding, by recursion on the part of `url` from index `i` on; used for the
proofs and related to `decode_loop` by `decode_loop_eq_decode_from`. -/
def decode_from : Str → Except String Str
  | [] => .ok []
  | c :: rest =>
    if c = 37 then
      match rest with
      | h :: l :: rest' =>
        match hex_to_decimal h, hex_to_decimal l with
        | .ok p1, .ok p2 =>
          match decode_from rest' with
          | .ok r => .ok ((16 * p1 + p2) % 256 :: r)
          | .error e => .error e
        | _, _ => .error "invalid percent encoding url"
      | _ => .error "invalid percent encoding url"
    else
      match decode_from rest with
      | .ok r => .ok (c :: r)
      | .error e => .error e

/-! ## `parse.cpp`: the request parser -/

def METHOD_MAX_LEN : Nat := 32
def URL_MAX_LEN : Nat := 1024
def VERSION_MAX_LEN : Nat := 32

/-- `enum class ParseError` of `parse.cpp`. -/
inductive ParseError where
  | method_too_long
  | url_too_long
  | version_too_long
  | invalid_crlf
deriving DecidableEq, Repr

/-- `enum class ParseState` of `parse.cpp`. -/
inductive ParseState where
  | method
  | url
  | version
  | headers
  | body
deriving DecidableEq, Repr

/-- A `std::map<std::string, std::string>`, as the list of its entries. The entries are
kept in the order in which they were inserted; the key order in which a `std::map` iterates
is not modelled, the map is observed through `find` and `size`. -/
structure StdMap where
  entries : List (Str × Str)
deriving DecidableEq, Repr

/-- The value stored under `key`, if there is one. -/
def StdMap.find (m : StdMap) (key : Str) : Option Str := m.entries.lookup key

/-- The number of entries, `m.size()`. -/
def StdMap.size (m : StdMap) : Nat := m.entries.length

/-- `m.emplace(key, value)`: inserts the entry when no entry with this key exists, and
leaves the map as it is otherwise. -/
def StdMap.emplace (m : StdMap) (key value : Str) : StdMap :=
  match m.find key with
  | none => { entries := m.entries ++ [(key, value)] }
  | some _ => m

/-- `struct Request` of `parse.cpp`. -/
structure Request where
  method : Str
  url : Str
  version : Str
  headers : StdMap
  body : Str
deriving DecidableEq, Repr

/-- `str.find(pat)`: the first index at which `pat` occurs in `str`; `none` stands for
`std::string::npos`. -/
def string_find (pat : Str) : Str → Option Nat
  | [] => if pat = [] then some 0 else none
  | c :: s =>
    if pat <+: c :: s then some 0
    else
      match string_find pat s with
      | some i => some (i + 1)
      | none => none

/-- The value of `pos + 2` in `size_t` arithmetic, for the result `pos` of `find`: `npos` is
the largest `size_t`, so `npos + 2` wraps around to `1` (whatever the width of `size_t`,
here 64 bits); an index into a string is below `npos - 2` and does not wrap. -/
def pos_plus_2 : Option Nat → Nat
  | none => (2 ^ 64 - 1 + 2) % 2 ^ 64
  | some i => i + 2

/-- `str.substr(pos, count)`, `count = none` standing for the default `npos`: throws
`std::out_of_range` (here `none`) when `pos > str.size()`, and is the part of `str` from
`pos` on, cut to `count` bytes, otherwise. -/
def substr (str : Str) (pos : Nat) (count : Option Nat) : Option Str :=
  if pos > str.length then none
  else
    match count with
    | none => some (str.drop pos)
    | some n => some ((str.drop pos).take n)

/-- The segments of `views::split(s, "\r\n"s)` for a non-empty `s`, `cur` being the bytes
of the current segment read so far: the delimiter is searched from left to right, and a
delimiter at the very end is followed by a last, empty segment. -/
def split_crlf : Str → Str → List Str
  | [], cur => [cur]
  | [c], cur => [cur ++ [c]]
  | c :: d :: rest, cur =>
    if c = 13 ∧ d = 10 then cur :: split_crlf rest []
    else split_crlf (d :: rest) (cur ++ [c])

/-- `views::split(headers, "\r\n"s)`: the empty string has no segment at all. -/
def views_split (headers : Str) : List Str :=
  if headers = [] then [] else split_crlf headers []

/-- The body of the `for` loop of `parse_http_headers` (lines 111-117) for one line `str`;
`none` when `substr` throws. -/
def header_line (m : StdMap) (str : Str) : Option StdMap :=
  let pos := string_find [58, 32] str
  match substr str 0 pos, substr str (pos_plus_2 pos) none with
  | some key, some value => some (m.emplace key value)
  | _, _ => none

/-- The `for` loop of `parse_http_headers` over the lines that are left. -/
def header_lines : StdMap → List Str → Option StdMap
  | m, [] => some m
  | m, str :: lines =>
    match header_line m str with
    | some m' => header_lines m' lines
    | none => none

/-- `parse_http_headers` of `parse.cpp` (lines 107-122); `none` when the exception
`std::out_of_range` of `substr` leaves the function. The output to `std::cout` is not
modelled. -/
def parse_http_headers (headers : Str) : Option StdMap :=
  header_lines { entries := [] } (views_split headers)

/-- The variables of `parse_http_request`: the state, the cursor `ptr` (an index into
`data.c_str()`), the request under construction and the raw header block `headers`. -/
structure Machine where
  state : ParseState
  ptr : Nat
  req : Request
  headers : Str
deriving DecidableEq, Repr

/-- One iteration of the `while` loop of `parse_http_request` (lines 131-207), entered
with `*ptr != 0`. -/
def step (data : Str) (m : Machine) : Except ParseError Machine :=
  match m.state with
  | .method =>
    if c_str data m.ptr = 32 then .ok { m with state := .url, ptr := m.ptr + 1 }
    else if m.req.method.length = METHOD_MAX_LEN then .error .method_too_long
    else .ok { m with req := { m.req with method := m.req.method ++ [c_str data m.ptr] },
                      ptr := m.ptr + 1 }
  | .url =>
    if c_str data m.ptr = 32 then .ok { m with state := .version, ptr := m.ptr + 1 }
    else if m.req.url.length = URL_MAX_LEN then .error .url_too_long
    else .ok { m with req := { m.req with url := m.req.url ++ [c_str data m.ptr] },
                      ptr := m.ptr + 1 }
  | .version =>
    if c_str data m.ptr = 13 then
      if c_str data (m.ptr + 1) ≠ 10 then .error .invalid_crlf
      else .ok { m with state := .headers, ptr := m.ptr + 2 }
    else if m.req.version.length = VERSION_MAX_LEN then .error .version_too_long
    else .ok { m with req := { m.req with version := m.req.version ++ [c_str data m.ptr] },
                      ptr := m.ptr + 1 }
  | .headers =>
    if c_str data m.ptr = 13 then
      if c_str data (m.ptr + 1) ≠ 10 then .error .invalid_crlf
      else if c_str data (m.ptr + 2) = 13 ∧ c_str data (m.ptr + 3) = 10 then
        .ok { m with state := .body, ptr := m.ptr + 4 }
      else .ok { m with headers := m.headers ++ [13, 10], ptr := m.ptr + 2 }
    else .ok { m with headers := m.headers ++ [c_str data m.ptr], ptr := m.ptr + 1 }
  | .body =>
    .ok { m with req := { m.req with body := m.req.body ++ [c_str data m.ptr] },
                 ptr := m.ptr + 1 }

/-- At most `k` iterations of the `while` loop, from the machine `m`: the machine the loop
has reached after `k` iterations, or the one it ended with when `*ptr` was `0` earlier, or
the error an iteration returned. -/
def loop (data : Str) : Nat → Machine → Except ParseError Machine
  | 0, m => .ok m
  | k + 1, m =>
    if c_str data m.ptr = 0 then .ok m
    else
      match step data m with
      | .ok m' => loop data k m'
      | .error e => .error e

/-- The machine at the start of `parse_http_request` (lines 125-128). -/
def init : Machine :=
  { state := .method, ptr := 0,
    req := { method := [], url := [], version := [], headers := { entries := [] }, body := [] },
    headers := [] }

/-- What a call of `parse_http_request` ends with. -/
inductive Outcome where
  /-- the `std::expected` holds a `Request` -/
  | value (req : Request)
  /-- the `std::expected` holds a `ParseError` -/
  | unexpected (e : ParseError)
  /-- the exception `std::out_of_range`, thrown by `substr` in `parse_http_headers`,
  leaves the call -/
  | out_of_range
deriving DecidableEq, Repr

/-- `parse_http_request` of `parse.cpp` (lines 124-212). Every iteration advances `ptr` by
at least one byte and the loop ends at the first `0` byte, at the latest at the terminator
of `c_str()`, so `data.length` iterations exhaust the loop (see `loop_exhausts`). -/
def parse_http_request (data : Str) : Outcome :=
  match loop data data.length init with
  | .error e => .unexpected e
  | .ok m =>
    match parse_http_headers m.headers with
    | some h => .value { m.req with headers := h }
    | none => .out_of_range

/-- The `while` loop of `parse_http_request` by recursion on the bytes from `ptr` on (the
list ends where the terminator of `c_str()` stands): the state, the request and the header
block the loop ends with. Used for the proofs and related to `loop` by `loop_eq_scan`. -/
def scan : ParseState → Request → Str → Str → Except ParseError (ParseState × Request × Str)
  | st, req, hdrs, [] => .ok (st, req, hdrs)
  | st, req, hdrs, c :: rest =>
    if c = 0 then .ok (st, req, hdrs)
    else
      match st with
      | .method =>
        if c = 32 then scan .url req hdrs rest
        else if req.method.length = METHOD_MAX_LEN then .error .method_too_long
        else scan .method { req with method := req.method ++ [c] } hdrs rest
      | .url =>
        if c = 32 then scan .version req hdrs rest
        else if req.url.length = URL_MAX_LEN then .error .url_too_long
        else scan .url { req with url := req.url ++ [c] } hdrs rest
      | .version =>
        if c = 13 then
          match rest with
          | d :: rest1 => if d ≠ 10 then .error .invalid_crlf else scan .headers req hdrs rest1
          | [] => .error .invalid_crlf
        else if req.version.length = VERSION_MAX_LEN then .error .version_too_long
        else scan .version { req with version := req.version ++ [c] } hdrs rest
      | .headers =>
        if c = 13 then
          match rest with
          | [] => .error .invalid_crlf
          | [d] =>
            if d ≠ 10 then .error .invalid_crlf else scan .headers req (hdrs ++ [13, 10]) []
          | [d, e] =>
            if d ≠ 10 then .error .invalid_crlf else scan .headers req (hdrs ++ [13, 10]) [e]
          | d :: e :: f :: rest2 =>
            if d ≠ 10 then .error .invalid_crlf
            else if e = 13 ∧ f = 10 then scan .body req hdrs rest2
            else scan .headers req (hdrs ++ [13, 10]) (e :: f :: rest2)
        else scan .headers req (hdrs ++ [c]) rest
      | .body => scan .body { req with body := req.body ++ [c] } hdrs rest

/-- The indices of `data.c_str()` that one iteration of the `while` loop (lines 131-207)
reads, entered with `*ptr != 0`: `*ptr`, and the lookahead bytes `ptr[1]`, `ptr[2]`, `ptr[3]`
under the conditions of the source (`ptr[2]` is read only after `ptr[1] == '\n'`, and `&&`
reads `ptr[3]` only after `ptr[2] == '\r'`). -/
def step_reads (data : Str) (m : Machine) : List Nat :=
  match m.state with
  | .method => [m.ptr]
  | .url => [m.ptr]
  | .version => if c_str data m.ptr = 13 then [m.ptr, m.ptr + 1] else [m.ptr]
  | .headers =>
    if c_str data m.ptr = 13 then
      if c_str data (m.ptr + 1) ≠ 10 then [m.ptr, m.ptr + 1]
      else if c_str data (m.ptr + 2) = 13 then [m.ptr, m.ptr + 1, m.ptr + 2, m.ptr + 3]
      else [m.ptr, m.ptr + 1, m.ptr + 2]
    else [m.ptr]
  | .body => [m.ptr]

/-- What `main` of `parse.cpp` computes from its buffer (lines 222-243): the whole buffer is
percent-decoded, and the decoded buffer is parsed. The error is the message of the
decoder. -/
def main_pipeline (url : Str) : Except String Outcome :=
  match percent_encoding_url_decode url with
  | .ok decodeUrl => .ok (parse_http_request decodeUrl)
  | .error e => .error e

end Growable


namespace Fixed

/-! ## `state_machine_http_request_parser.c` -/

def MAX_HTTP_METHOD_LEN : Nat := 32
def MAX_HTTP_URL_LEN : Nat := 2048
def MAX_HTTP_VERSION_LEN : Nat := 32
def MAX_HTTP_HEADERS_LEN : Nat := 8192
def MAX_HTTP_BODY_LEN : Nat := 8192

/-- `enum HttpParseError` of the C file. -/
inductive HttpParseError where
  | HPE_SUCCESS
  | HPE_METHOD_TOO_LONG
  | HPE_URL_TOO_LONG
  | HPE_VERSION_TOO_LONG
  | HPE_HEADERS_TOO_LONG
  | HPE_BODY_TOO_LONG
  | HPE_INVALID_CRLF
deriving DecidableEq, Repr

/-- `enum HttpParseState` of the C file. -/
inductive HttpParseState where
  | HPS_METHOD
  | HPS_URL
  | HPS_VERSION
  | HPS_HEADERS
  | HPS_BODY
deriving DecidableEq, Repr

/-- The contents of a `char` array: the byte at each index. Its size is not part of the
value: the parser checks `token_index` against the `MAX_HTTP_*_LEN` limits before it
writes. -/
abbrev CharArray := Nat → Nat

/-- `struct HttpRequest` of the C file (lines 32-38): five `char` arrays of sizes
`MAX_HTTP_*_LEN + 1`. -/
structure HttpRequest where
  method : CharArray
  url : CharArray
  version : CharArray
  headers : CharArray
  body : CharArray

/-- The assignment `a[i] = v`. -/
def CharArray.write (a : CharArray) (i v : Nat) : CharArray :=
  fun j => if j = i then v else a j

/-- The C string that the first `n` bytes of the array `a`, from index `i` on, hold: the
bytes before the first `'\0'`. -/
def c_string_from (a : CharArray) : Nat → Nat → Str
  | 0, _ => []
  | n + 1, i => if a i = 0 then [] else a i :: c_string_from a n (i + 1)

/-- The C string in an array of size `size`, as `printf("%s")` prints it. -/
def c_string (a : CharArray) (size : Nat) : Str := c_string_from a size 0

/-- The variables of `parse_http_request`: the state, the cursor `ptr` (an index into
`request`), `token_index` and the record `*hr`. -/
structure Machine where
  state : HttpParseState
  ptr : Nat
  token_index : Nat
  hr : HttpRequest

/-- One iteration of the `while` loop of the C `parse_http_request` (lines 77-166),
entered with `*ptr != 0`, the final `++ptr` included. A `return` inside the loop leaves
`*hr` as the earlier iterations wrote it. -/
def step (request : Str) (m : Machine) : Except (HttpParseError × HttpRequest) Machine :=
  match m.state with
  | .HPS_METHOD =>
    if c_str request m.ptr = 32 then
      .ok { state := .HPS_URL, ptr := m.ptr + 1, token_index := 0,
            hr := { m.hr with method := m.hr.method.write m.token_index 0 } }
    else if m.token_index = MAX_HTTP_METHOD_LEN then .error (.HPE_METHOD_TOO_LONG, m.hr)
    else
      .ok { m with ptr := m.ptr + 1, token_index := m.token_index + 1,
                   hr := { m.hr with
                     method := m.hr.method.write m.token_index (c_str request m.ptr) } }
  | .HPS_URL =>
    if c_str request m.ptr = 32 then
      .ok { state := .HPS_VERSION, ptr := m.ptr + 1, token_index := 0,
            hr := { m.hr with url := m.hr.url.write m.token_index 0 } }
    else if m.token_index = MAX_HTTP_URL_LEN then .error (.HPE_URL_TOO_LONG, m.hr)
    else
      .ok { m with ptr := m.ptr + 1, token_index := m.token_index + 1,
                   hr := { m.hr with url := m.hr.url.write m.token_index (c_str request m.ptr) } }
  | .HPS_VERSION =>
    if c_str request m.ptr = 13 then
      if c_str request (m.ptr + 1) ≠ 10 then .error (.HPE_INVALID_CRLF, m.hr)
      else
        .ok { state := .HPS_HEADERS, ptr := m.ptr + 1 + 1, token_index := 0,
              hr := { m.hr with version := m.hr.version.write m.token_index 0 } }
    else if m.token_index = MAX_HTTP_VERSION_LEN then .error (.HPE_VERSION_TOO_LONG, m.hr)
    else
      .ok { m with ptr := m.ptr + 1, token_index := m.token_index + 1,
                   hr := { m.hr with
                     version := m.hr.version.write m.token_index (c_str request m.ptr) } }
  | .HPS_HEADERS =>
    if c_str request m.ptr = 13 then
      if c_str request (m.ptr + 1) ≠ 10 then .error (.HPE_INVALID_CRLF, m.hr)
      else if c_str request (m.ptr + 2) = 13 ∧ c_str request (m.ptr + 3) = 10 then
        .ok { state := .HPS_BODY, ptr := m.ptr + 3 + 1, token_index := 0,
              hr := { m.hr with headers := m.hr.headers.write m.token_index 0 } }
      else .ok { m with ptr := m.ptr + 1 }
    else if m.token_index = MAX_HTTP_HEADERS_LEN then .error (.HPE_HEADERS_TOO_LONG, m.hr)
    else
      .ok { m with ptr := m.ptr + 1, token_index := m.token_index + 1,
                   hr := { m.hr with
                     headers := m.hr.headers.write m.token_index (c_str request m.ptr) } }
  | .HPS_BODY =>
    if m.token_index = MAX_HTTP_BODY_LEN then .error (.HPE_BODY_TOO_LONG, m.hr)
    else
      .ok { m with ptr := m.ptr + 1, token_index := m.token_index + 1,
                   hr := { m.hr with body := m.hr.body.write m.token_index (c_str request m.ptr) } }

/-- At most `k` iterations of the `while` loop, from the machine `m`: the machine the loop
has reached after `k` iterations, or the one it ended with when `*ptr` was `0` earlier, or
the error code an iteration returned, with `*hr` as it is then. -/
def loop (request : Str) : Nat → Machine → Except (HttpParseError × HttpRequest) Machine
  | 0, m => .ok m
  | k + 1, m =>
    if c_str request m.ptr = 0 then .ok m
    else
      match step request m with
      | .ok m' => loop request k m'
      | .error e => .error e

/-- The machine at the start of the C `parse_http_request` (lines 72-74), `hr` being the
contents of the caller's record. -/
def init (hr : HttpRequest) : Machine :=
  { state := .HPS_METHOD, ptr := 0, token_index := 0, hr := hr }

/-- The C `parse_http_request` (lines 71-171): the returned code and the contents of
`*hr` after the call. Every iteration advances `ptr` by at least one byte, so
`request.length` iterations exhaust the loop (see `fixed_loop_exhausts`). -/
def parse_http_request (request : Str) (hr : HttpRequest) : HttpParseError × HttpRequest :=
  match loop request request.length (init hr) with
  | .error e => e
  | .ok m => (.HPE_SUCCESS, { m.hr with body := m.hr.body.write m.token_index 0 })

/-- The `while` loop of the C `parse_http_request` by recursion on the bytes from `ptr`
on: the state, `token_index` and `*hr` the loop ends with. Used for the proofs and related
to `loop` by `fixed_loop_eq_scan`. -/
def scan : HttpParseState → Nat → HttpRequest → Str →
    Except (HttpParseError × HttpRequest) (HttpParseState × Nat × HttpRequest)
  | st, ti, hr, [] => .ok (st, ti, hr)
  | st, ti, hr, c :: rest =>
    if c = 0 then .ok (st, ti, hr)
    else
      match st with
      | .HPS_METHOD =>
        if c = 32 then scan .HPS_URL 0 { hr with method := hr.method.write ti 0 } rest
        else if ti = MAX_HTTP_METHOD_LEN then .error (.HPE_METHOD_TOO_LONG, hr)
        else scan .HPS_METHOD (ti + 1) { hr with method := hr.method.write ti c } rest
      | .HPS_URL =>
        if c = 32 then scan .HPS_VERSION 0 { hr with url := hr.url.write ti 0 } rest
        else if ti = MAX_HTTP_URL_LEN then .error (.HPE_URL_TOO_LONG, hr)
        else scan .HPS_URL (ti + 1) { hr with url := hr.url.write ti c } rest
      | .HPS_VERSION =>
        if c = 13 then
          match rest with
          | d :: rest1 =>
            if d ≠ 10 then .error (.HPE_INVALID_CRLF, hr)
            else scan .HPS_HEADERS 0 { hr with version := hr.version.write ti 0 } rest1
          | [] => .error (.HPE_INVALID_CRLF, hr)
        else if ti = MAX_HTTP_VERSION_LEN then .error (.HPE_VERSION_TOO_LONG, hr)
        else scan .HPS_VERSION (ti + 1) { hr with version := hr.version.write ti c } rest
      | .HPS_HEADERS =>
        if c = 13 then
          match rest with
          | [] => .error (.HPE_INVALID_CRLF, hr)
          | [d] => if d ≠ 10 then .error (.HPE_INVALID_CRLF, hr) else scan .HPS_HEADERS ti hr [d]
          | [d, e] =>
            if d ≠ 10 then .error (.HPE_INVALID_CRLF, hr) else scan .HPS_HEADERS ti hr [d, e]
          | d :: e :: f :: rest2 =>
            if d ≠ 10 then .error (.HPE_INVALID_CRLF, hr)
            else if e = 13 ∧ f = 10 then
              scan .HPS_BODY 0 { hr with headers := hr.headers.write ti 0 } rest2
            else scan .HPS_HEADERS ti hr (d :: e :: f :: rest2)
        else if ti = MAX_HTTP_HEADERS_LEN then .error (.HPE_HEADERS_TOO_LONG, hr)
        else scan .HPS_HEADERS (ti + 1) { hr with headers := hr.headers.write ti c } rest
      | .HPS_BODY =>
        if ti = MAX_HTTP_BODY_LEN then .error (.HPE_BODY_TOO_LONG, hr)
        else scan .HPS_BODY (ti + 1) { hr with body := hr.body.write ti c } rest

/-- A record whose five arrays hold the byte `v` everywhere. -/
def HttpRequest.filled (v : Nat) : HttpRequest :=
  { method := fun _ => v, url := fun _ => v, version := fun _ => v, headers := fun _ => v,
    body := fun _ => v }

/-- The indices of `request` that one iteration of the `while` loop of the C
`parse_http_request` reads, entered with `*ptr != 0`: `*ptr`, and the lookahead bytes
`ptr[1]`, `ptr[2]`, `ptr[3]` under the conditions of the source. -/
def step_reads (request : Str) (m : Machine) : List Nat :=
  match m.state with
  | .HPS_METHOD => [m.ptr]
  | .HPS_URL => [m.ptr]
  | .HPS_VERSION => if c_str request m.ptr = 13 then [m.ptr, m.ptr + 1] else [m.ptr]
  | .HPS_HEADERS =>
    if c_str request m.ptr = 13 then
      if c_str request (m.ptr + 1) ≠ 10 then [m.ptr, m.ptr + 1]
      else if c_str request (m.ptr + 2) = 13 then [m.ptr, m.ptr + 1, m.ptr + 2, m.ptr + 3]
      else [m.ptr, m.ptr + 1, m.ptr + 2]
    else [m.ptr]
  | .HPS_BODY => [m.ptr]

/-- The five arrays of `struct HttpRequest`. -/
inductive Field where
  | method
  | url
  | version
  | headers
  | body
deriving DecidableEq, Repr

/-- The declared size of each array of `struct HttpRequest` (lines 33-37). -/
def Field.size : Field → Nat
  | .method => MAX_HTTP_METHOD_LEN + 1
  | .url => MAX_HTTP_URL_LEN + 1
  | .version => MAX_HTTP_VERSION_LEN + 1
  | .headers => MAX_HTTP_HEADERS_LEN + 1
  | .body => MAX_HTTP_BODY_LEN + 1

/-- The assignment `hr->f[i] = v`. -/
def HttpRequest.assign (hr : HttpRequest) (f : Field) (i v : Nat) : HttpRequest :=
  match f with
  | .method => { hr with method := hr.method.write i v }
  | .url => { hr with url := hr.url.write i v }
  | .version => { hr with version := hr.version.write i v }
  | .headers => { hr with headers := hr.headers.write i v }
  | .body => { hr with body := hr.body.write i v }

/-- The array write that one iteration of the `while` loop of the C `parse_http_request`
performs, as array, index and value; `none` when the iteration writes nothing (it returns
an error code, or it skips the `'\r'` of a line break). See `fixed_step_assigns`. -/
def step_write (request : Str) (m : Machine) : Option (Field × Nat × Nat) :=
  match m.state with
  | .HPS_METHOD =>
    if c_str request m.ptr = 32 then some (.method, m.token_index, 0)
    else if m.token_index = MAX_HTTP_METHOD_LEN then none
    else some (.method, m.token_index, c_str request m.ptr)
  | .HPS_URL =>
    if c_str request m.ptr = 32 then some (.url, m.token_index, 0)
    else if m.token_index = MAX_HTTP_URL_LEN then none
    else some (.url, m.token_index, c_str request m.ptr)
  | .HPS_VERSION =>
    if c_str request m.ptr = 13 then
      if c_str request (m.ptr + 1) ≠ 10 then none else some (.version, m.token_index, 0)
    else if m.token_index = MAX_HTTP_VERSION_LEN then none
    else some (.version, m.token_index, c_str request m.ptr)
  | .HPS_HEADERS =>
    if c_str request m.ptr = 13 then
      if c_str request (m.ptr + 1) ≠ 10 then none
      else if c_str request (m.ptr + 2) = 13 ∧ c_str request (m.ptr + 3) = 10 then
        some (.headers, m.token_index, 0)
      else none
    else if m.token_index = MAX_HTTP_HEADERS_LEN then none
    else some (.headers, m.token_index, c_str request m.ptr)
  | .HPS_BODY =>
    if m.token_index = MAX_HTTP_BODY_LEN then none
    else some (.body, m.token_index, c_str request m.ptr)

/-- The limit that the source compares `token_index` with in each state. -/
def limit : HttpParseState → Nat
  | .HPS_METHOD => MAX_HTTP_METHOD_LEN
  | .HPS_URL => MAX_HTTP_URL_LEN
  | .HPS_VERSION => MAX_HTTP_VERSION_LEN
  | .HPS_HEADERS => MAX_HTTP_HEADERS_LEN
  | .HPS_BODY => MAX_HTTP_BODY_LEN

/-- `hex_to_decimal` of the C file (lines 173-185); the result is an `int`, `-1` for a
character that is no digit and no letter. -/
def hex_to_decimal (c : Nat) : Int :=
  if 48 ≤ c ∧ c ≤ 57 then (c : Int) - 48
  else if 97 ≤ c ∧ c ≤ 122 then (c : Int) - 97 + 10
  else if 65 ≤ c ∧ c ≤ 90 then (c : Int) - 65 + 10
  else -1

end Fixed


/-! ## Definitions used to state and to prove the claims -/

/-- The 22 hexadecimal digit characters with the value of each, as the specification
lists them: `0`-`9`, `a`-`f`, `A`-`F`. -/
def hex_digit_table : List (Nat × Nat) :=
  (bytes "0123456789").zip (List.range 10) ++ (bytes "abcdef").zip (List.range' 10 6) ++
    (bytes "ABCDEF").zip (List.range' 10 6)

/-- The byte `c` is one of `0`-`9`, `a`-`f`, `A`-`F`. -/
def is_hex_digit (c : Nat) : Prop :=
  (48 ≤ c ∧ c ≤ 57) ∨ (97 ≤ c ∧ c ≤ 102) ∨ (65 ≤ c ∧ c ≤ 70)

instance (c : Nat) : Decidable (is_hex_digit c) := by
  unfold is_hex_digit; infer_instance

/-- The hexadecimal digit character of the nibble `n`, with a capital letter when `upper`
is set. -/
def hex_digit_char (upper : Bool) (n : Nat) : Nat :=
  if n < 10 then 48 + n else if upper then 65 + (n - 10) else 97 + (n - 10)

/-- The percent-encoding of a byte sequence: each byte `b` is written as `%` followed by
its two hexadecimal digits, the high nibble first; the two flags beside a byte choose the
letter case of its two digits. -/
def percent_encode : List (Nat × Bool × Bool) → Str
  | [] => []
  | (b, u1, u2) :: bs => 37 :: hex_digit_char u1 (b / 16) :: hex_digit_char u2 (b % 16) ::
      percent_encode bs

/-- The lines joined by `"\r\n"`. -/
def join_crlf : List Str → Str
  | [] => []
  | [l] => l
  | l :: l' :: ls => l ++ 13 :: 10 :: join_crlf (l' :: ls)

/-- The header line `name ++ ": " ++ value` of a pair `(name, value)`. -/
def header_text (p : Str × Str) : Str := p.1 ++ 58 :: 32 :: p.2

/-- The request text `m ++ " " ++ t ++ " " ++ v ++ "\r\n" ++ block ++ "\r\n\r\n" ++ b` with
the request line `m t v`, the header block `block` and the body `b`. -/
def request_text (m t v block b : Str) : Str :=
  m ++ 32 :: (t ++ 32 :: (v ++ 13 :: 10 :: (block ++ 13 :: 10 :: 13 :: 10 :: b)))

/-- What the loop keeps true: the `headers` map of the request is empty, and before the
headers state the raw header block and the body are empty too. -/
def Growable.before_headers (m : Growable.Machine) : Prop :=
  m.req.headers = { entries := [] } ∧
    (m.state = .method ∨ m.state = .url ∨ m.state = .version → m.headers = [] ∧ m.req.body = [])

/-- The lines joined by `"\n"`. -/
def join_lf : List Str → Str
  | [] => []
  | [l] => l
  | l :: l' :: ls => l ++ 10 :: join_lf (l' :: ls)

/-- The array `a` after the bytes of `s` were written to the indices `i`, `i + 1`, ... -/
def Fixed.CharArray.write_string (a : Fixed.CharArray) : Nat → Str → Fixed.CharArray
  | _, [] => a
  | i, c :: s => Fixed.CharArray.write_string (a.write i c) (i + 1) s

/-- The array `a` after the C string `s` was stored at its start: the bytes of `s` and the
terminating `'\0'`. -/
def Fixed.CharArray.store (a : Fixed.CharArray) (s : Str) : Fixed.CharArray :=
  (Fixed.CharArray.write_string a 0 s).write s.length 0

/-- The byte `c` is an ASCII letter or digit. -/
def is_ascii_alnum (c : Nat) : Prop :=
  (48 ≤ c ∧ c ≤ 57) ∨ (97 ≤ c ∧ c ≤ 122) ∨ (65 ≤ c ∧ c ≤ 90)

/-- In the string `h` every `'\r'` is immediately followed by `'\n'`. -/
def cr_followed_by_lf (h : Str) : Prop :=
  ∀ i, i < h.length → h.getD i 0 = 13 → i + 1 < h.length ∧ h.getD (i + 1) 0 = 10

/-- The bytes of `r` before its first NUL byte: what a scan that stops at `'\0'` sees of
`r`. -/
def before_nul : Str → Str
  | [] => []
  | c :: r => if c = 0 then [] else c :: before_nul r

/-- The bytes of the input that the loop of the growable `parse_http_request` has consumed
when it is in the state `st` with the request `req` and the header block `hdrs`: the
accumulators of the states passed, with the delimiters between them. -/
def Growable.consumed (st : Growable.ParseState) (req : Growable.Request) (hdrs : Str) : Str :=
  match st with
  | .method => req.method
  | .url => req.method ++ 32 :: req.url
  | .version => req.method ++ 32 :: (req.url ++ 32 :: req.version)
  | .headers => req.method ++ 32 :: (req.url ++ 32 :: (req.version ++ 13 :: 10 :: hdrs))
  | .body => request_text req.method req.url req.version hdrs req.body

/-- What the loop of the growable `parse_http_request` keeps true of its accumulators: the
method and the url hold no space, the version no `'\r'`, in the header block every `'\r'`
is followed by `'\n'`, and the accumulators of the states not yet entered are empty. -/
def Growable.well_split (st : Growable.ParseState) (req : Growable.Request) (hdrs : Str) :
    Prop :=
  (∀ c ∈ req.method, c ≠ 32) ∧ (∀ c ∈ req.url, c ≠ 32) ∧ (∀ c ∈ req.version, c ≠ 13) ∧
    cr_followed_by_lf hdrs ∧
    (st = .method → req.url = []) ∧
    (st = .method ∨ st = .url → req.version = []) ∧
    (st = .method ∨ st = .url ∨ st = .version → hdrs = []) ∧
    (st ≠ .body → req.body = [])

/-- The fields of the record `hr'` that belong to states after `st` are those of `hr`. -/
def Fixed.later_fields_kept (st : Fixed.HttpParseState) (hr hr' : Fixed.HttpRequest) : Prop :=
  match st with
  | .HPS_METHOD =>
    hr'.url = hr.url ∧ hr'.version = hr.version ∧ hr'.headers = hr.headers ∧ hr'.body = hr.body
  | .HPS_URL => hr'.version = hr.version ∧ hr'.headers = hr.headers ∧ hr'.body = hr.body
  | .HPS_VERSION => hr'.headers = hr.headers ∧ hr'.body = hr.body
  | .HPS_HEADERS => hr'.body = hr.body
  | .HPS_BODY => True

/-- The error code of the C file that stands for each `ParseError` of `parse.cpp`. -/
def Fixed.error_kind : Growable.ParseError → Fixed.HttpParseError
  | .method_too_long => .HPE_METHOD_TOO_LONG
  | .url_too_long => .HPE_URL_TOO_LONG
  | .version_too_long => .HPE_VERSION_TOO_LONG
  | .invalid_crlf => .HPE_INVALID_CRLF

/-- The state of the C file that stands for each `ParseState` of `parse.cpp`. -/
def Fixed.state_kind : Growable.ParseState → Fixed.HttpParseState
  | .method => .HPS_METHOD
  | .url => .HPS_URL
  | .version => .HPS_VERSION
  | .headers => .HPS_HEADERS
  | .body => .HPS_BODY

/-- The array `a` holds the bytes of `s`, none of them NUL, at its first indices. -/
def Fixed.CharArray.holds (a : Fixed.CharArray) (s : Str) : Prop :=
  (∀ i, i < s.length → a i = s.getD i 0) ∧ ∀ c ∈ s, c ≠ 0

/-- The variables of the C loop mirror those of the loop of `parse.cpp`: the states
correspond, the arrays of the states passed hold the accumulators of `parse.cpp` as C
strings, and the array of the current state holds its accumulator in the first
`token_index` bytes, at most 32 for the method and the version; the accumulators of the
states not yet entered are empty. The header block is left out. -/
def Fixed.mirrors (st : Growable.ParseState) (req : Growable.Request)
    (fst : Fixed.HttpParseState) (ti : Nat) (hr : Fixed.HttpRequest) : Prop :=
  fst = Fixed.state_kind st ∧
  match st with
  | .method =>
    ti = req.method.length ∧ ti ≤ Fixed.MAX_HTTP_METHOD_LEN ∧ hr.method.holds req.method ∧
      req.url = [] ∧ req.version = [] ∧ req.body = []
  | .url =>
    Fixed.c_string hr.method (Fixed.MAX_HTTP_METHOD_LEN + 1) = req.method ∧
      ti = req.url.length ∧ hr.url.holds req.url ∧ req.version = [] ∧ req.body = []
  | .version =>
    Fixed.c_string hr.method (Fixed.MAX_HTTP_METHOD_LEN + 1) = req.method ∧
      Fixed.c_string hr.url (Fixed.MAX_HTTP_URL_LEN + 1) = req.url ∧
      ti = req.version.length ∧ ti ≤ Fixed.MAX_HTTP_VERSION_LEN ∧ hr.version.holds req.version ∧
      req.body = []
  | .headers =>
    Fixed.c_string hr.method (Fixed.MAX_HTTP_METHOD_LEN + 1) = req.method ∧
      Fixed.c_string hr.url (Fixed.MAX_HTTP_URL_LEN + 1) = req.url ∧
      Fixed.c_string hr.version (Fixed.MAX_HTTP_VERSION_LEN + 1) = req.version ∧ req.body = []
  | .body =>
    Fixed.c_string hr.method (Fixed.MAX_HTTP_METHOD_LEN + 1) = req.method ∧
      Fixed.c_string hr.url (Fixed.MAX_HTTP_URL_LEN + 1) = req.url ∧
      Fixed.c_string hr.version (Fixed.MAX_HTTP_VERSION_LEN + 1) = req.version ∧
      ti = req.body.length ∧ hr.body.holds req.body

/-- The two loops end alike: both with an error, of the same kind and not `url_too_long`, or
both without one, with variables that mirror each other. -/
def Fixed.same_outcome :
    Except Growable.ParseError (Growable.ParseState × Growable.Request × Str) →
    Except (Fixed.HttpParseError × Fixed.HttpRequest)
      (Fixed.HttpParseState × Nat × Fixed.HttpRequest) → Prop
  | .error e, .error (code, _) => code = Fixed.error_kind e ∧ e ≠ .url_too_long
  | .ok (st, req, _), .ok (fst, ti, hr) => Fixed.mirrors st req fst ti hr ∧ ti ≤ 1024
  | _, _ => False

/-- The fields of the record `hr` that belong to states before `st` hold a NUL at an index
that is at most the limit of the field: each holds a C string of at most so many bytes. -/
def Fixed.earlier_fields_terminated (st : Fixed.HttpParseState) (hr : Fixed.HttpRequest) :
    Prop :=
  (st ≠ .HPS_METHOD → ∃ i, i ≤ Fixed.MAX_HTTP_METHOD_LEN ∧ hr.method i = 0) ∧
  (st ≠ .HPS_METHOD ∧ st ≠ .HPS_URL → ∃ i, i ≤ Fixed.MAX_HTTP_URL_LEN ∧ hr.url i = 0) ∧
  (st = .HPS_HEADERS ∨ st = .HPS_BODY → ∃ i, i ≤ Fixed.MAX_HTTP_VERSION_LEN ∧ hr.version i = 0) ∧
  (st = .HPS_BODY → ∃ i, i ≤ Fixed.MAX_HTTP_HEADERS_LEN ∧ hr.headers i = 0)

/-! ## Theorems -/

/-! ### General facts on buffers -/

theorem c_str_add (data : Str) (i j : Nat) : c_str data (i + j) = (data.drop i).getD j 0 := by
  simp [c_str, List.getD_eq_getElem?_getD, List.getElem?_drop]

theorem c_str_eq_head (data : Str) (i : Nat) : c_str data i = (data.drop i).getD 0 0 := by
  simpa using c_str_add data i 0

theorem c_str_eq_zero_of_le (data : Str) (i : Nat) (h : data.length ≤ i) : c_str data i = 0 := by
  simp [c_str, List.getD_eq_getElem?_getD, List.getElem?_eq_none h]

theorem lt_length_of_c_str_ne_zero (data : Str) (i : Nat) (h : c_str data i ≠ 0) :
    i < data.length := by
  by_contra hcon
  exact h (c_str_eq_zero_of_le data i (by omega))

theorem le_length_of_no_nul_before (data : Str) (i : Nat) (h : ∀ j, j < i → c_str data j ≠ 0) :
    i ≤ data.length := by
  by_contra hcon
  exact h data.length (by omega) (c_str_eq_zero_of_le data data.length le_rfl)

namespace Growable

/-! ### `hex_to_decimal` and `percent_encoding_url_decode` -/

theorem hex_to_decimal_ok_iff (c : Nat) : (∃ v, hex_to_decimal c = .ok v) ↔ is_hex_digit c := by
  unfold hex_to_decimal is_hex_digit
  split_ifs with h1 h2 h3 <;> simp <;> omega

theorem hex_to_decimal_lt (c v : Nat) (h : hex_to_decimal c = .ok v) : v < 16 := by
  unfold hex_to_decimal at h
  split_ifs at h with h1 h2 h3 <;> simp at h <;> omega

/-- The loop of `percent_encoding_url_decode` computes `decode_from` on the rest of the
input, appended to what was decoded before. -/
theorem decode_loop_eq_decode_from (url : Str) : ∀ (k : Nat) (s : DecodeState),
    url.length ≤ s.i + k →
    (match decode_loop url k s with
      | .ok s' => Except.ok s'.ret
      | .error e => .error e) =
    (match decode_from (url.drop s.i) with
      | .ok r => Except.ok (s.ret ++ r)
      | .error e => .error e) := by
  intro k
  induction k with
  | zero =>
    intro s h
    have : url.drop s.i = [] := List.drop_eq_nil_of_le (by omega)
    simp [decode_loop, this, decode_from]
  | succ k ih =>
    intro s h
    unfold decode_loop
    by_cases hi : s.i < url.length
    · simp only [hi, if_true]
      have hd : url.drop s.i = url.getD s.i 0 :: url.drop (s.i + 1) := by
        rw [List.getD_eq_getElem _ _ hi]; exact List.drop_eq_getElem_cons hi
      have h1 : url.getD (s.i + 1) 0 = (url.drop (s.i + 1)).getD 0 0 := by
        simp [List.getD_eq_getElem?_getD, List.getElem?_drop]
      have h2 : url.getD (s.i + 2) 0 = (url.drop (s.i + 1)).getD 1 0 := by
        simp [List.getD_eq_getElem?_getD, List.getElem?_drop]
      have hl : (url.drop (s.i + 1)).length = url.length - (s.i + 1) := List.length_drop _ _
      have h3 : ∀ r, (match decode_loop url k { i := s.i + 3, ret := r } with
            | .ok s' => Except.ok s'.ret
            | .error e => .error e) =
          (match decode_from ((url.drop (s.i + 1)).drop 2) with
            | .ok r' => Except.ok (r ++ r')
            | .error e => .error e) := by
        intro r
        have := ih { i := s.i + 3, ret := r } (by simp; omega)
        rw [List.drop_drop]
        simpa [show 2 + (s.i + 1) = s.i + 3 by omega] using this
      have h4 : ∀ r, (match decode_loop url k { i := s.i + 1, ret := r } with
            | .ok s' => Except.ok s'.ret
            | .error e => .error e) =
          (match decode_from (url.drop (s.i + 1)) with
            | .ok r' => Except.ok (r ++ r')
            | .error e => .error e) := by
        intro r
        exact ih { i := s.i + 1, ret := r } (by simp; omega)
      unfold decode_step
      rw [hd, h1, h2]
      generalize url.getD s.i 0 = c
      generalize url.drop (s.i + 1) = rest at hl h3 h4 ⊢
      unfold decode_from
      by_cases hc : c = 37
      · subst hc
        simp only [if_true]
        rcases rest with _ | ⟨x, _ | ⟨y, rest'⟩⟩
        · have : s.i + 2 ≥ url.length := by simp at hl; omega
          simp [this]
        · have : s.i + 2 ≥ url.length := by simp at hl; omega
          simp [this]
        · have : ¬ s.i + 2 ≥ url.length := by simp at hl; omega
          simp only [this, if_false, List.getD_cons_zero, List.getD_cons_succ]
          cases hx : hex_to_decimal x with
          | error e => simp
          | ok p1 =>
            cases hy : hex_to_decimal y with
            | error e => simp
            | ok p2 =>
              simp only
              rw [h3]
              simp only [List.drop_succ_cons, List.drop_zero]
              cases decode_from rest' <;> simp
      · simp only [hc, if_false]
        rw [h4]
        cases decode_from rest <;> simp
    · have : url.drop s.i = [] := List.drop_eq_nil_of_le (by omega)
      simp [hi, this, decode_from]

/-- `percent_encoding_url_decode` is `decode_from` on the whole input. -/
theorem percent_encoding_url_decode_eq (url : Str) :
    percent_encoding_url_decode url = decode_from url := by
  have h := decode_loop_eq_decode_from url url.length { i := 0, ret := [] } (by simp)
  unfold percent_encoding_url_decode
  simp only [List.drop_zero, List.nil_append] at h
  rw [h]
  cases decode_from url <;> rfl

/-- The loop of `percent_encoding_url_decode` is exhausted after `url.length` iterations:
the state it then returns has `i` at the end of the input. -/
theorem decode_loop_exhausts (url : Str) : ∀ (k : Nat) (s s' : DecodeState),
    url.length ≤ s.i + k → decode_loop url k s = .ok s' → url.length ≤ s'.i := by
  intro k
  induction k with
  | zero => intro s s' h hs; simp [decode_loop] at hs; subst hs; omega
  | succ k ih =>
    intro s s' h hs
    unfold decode_loop at hs
    by_cases hi : s.i < url.length
    · simp only [hi, if_true] at hs
      cases hstep : decode_step url s with
      | error e => simp [hstep] at hs
      | ok s1 =>
        simp only [hstep] at hs
        refine ih s1 s' ?_ hs
        unfold decode_step at hstep
        split_ifs at hstep
        · split at hstep
          · simp at hstep; subst hstep; simp; omega
          · simp at hstep
        · simp at hstep; subst hstep; simp; omega
    · simp [hi] at hs; subst hs; omega

/-- What the condition of claim C2 says about a string with one more byte in front. -/
theorem percent_condition_cons (c : Nat) (rest : Str) :
    (∀ i, i < (c :: rest).length → (c :: rest).getD i 0 = 37 →
      i + 2 < (c :: rest).length ∧ is_hex_digit ((c :: rest).getD (i + 1) 0) ∧
        is_hex_digit ((c :: rest).getD (i + 2) 0)) ↔
    ((c = 37 → 1 < rest.length ∧ is_hex_digit (rest.getD 0 0) ∧ is_hex_digit (rest.getD 1 0)) ∧
      ∀ i, i < rest.length → rest.getD i 0 = 37 →
        i + 2 < rest.length ∧ is_hex_digit (rest.getD (i + 1) 0) ∧
          is_hex_digit (rest.getD (i + 2) 0)) := by
  simp only [List.length_cons, List.getD_cons_succ]
  constructor
  · intro h
    refine ⟨fun hc => ?_, fun i hi h37 => ?_⟩
    · have := h 0 (by omega) (by simpa using hc)
      exact ⟨by omega, this.2⟩
    · have := h (i + 1) (by omega) (by simpa using h37)
      exact ⟨by omega, this.2⟩
  · rintro ⟨h0, hr⟩ i hi h37
    cases i with
    | zero =>
      have := h0 (by simpa using h37)
      exact ⟨by omega, this.2⟩
    | succ i =>
      have := hr i (by omega) (by simpa using h37)
      exact ⟨by omega, this.2⟩

theorem not_is_hex_digit_percent : ¬ is_hex_digit 37 := by decide

/-- Decoding from a position succeeds exactly when every `%` from there on is followed by
two hexadecimal digits; it fails with the one error message otherwise. -/
theorem decode_from_ok_iff : ∀ (n : Nat) (s : Str), s.length ≤ n →
    ((∃ out, decode_from s = .ok out) ↔
      ∀ i, i < s.length → s.getD i 0 = 37 →
        i + 2 < s.length ∧ is_hex_digit (s.getD (i + 1) 0) ∧ is_hex_digit (s.getD (i + 2) 0)) ∧
    ((∃ out, decode_from s = .ok out) ∨ decode_from s = .error "invalid percent encoding url") := by
  intro n
  induction n with
  | zero =>
    intro s hs
    have : s = [] := List.length_eq_zero.mp (by omega)
    subst this
    simp [decode_from]
  | succ n ih =>
    intro s hs
    rcases s with _ | ⟨c, rest⟩
    · simp [decode_from]
    · rw [percent_condition_cons]
      have hrest := ih rest (by simpa using hs)
      unfold decode_from
      by_cases hc : c = 37
      · subst hc
        simp only [if_true, true_implies]
        rcases rest with _ | ⟨x, _ | ⟨y, rest'⟩⟩
        · simp
        · simp
        · have hrest' := ih rest' (by simp at hs; omega)
          have hcond := (percent_condition_cons 37 (x :: y :: rest')).symm.trans
            (percent_condition_cons 37 (x :: y :: rest'))
          simp only [List.getD_cons_zero, List.getD_cons_succ, List.length_cons]
          cases hx : hex_to_decimal x with
          | error e =>
            have : ¬ is_hex_digit x := fun h => by
              obtain ⟨v, hv⟩ := (hex_to_decimal_ok_iff x).mpr h
              simp [hx] at hv
            simp [this]
          | ok p1 =>
            have hxh : is_hex_digit x := (hex_to_decimal_ok_iff x).mp ⟨p1, hx⟩
            cases hy : hex_to_decimal y with
            | error e =>
              have : ¬ is_hex_digit y := fun h => by
                obtain ⟨v, hv⟩ := (hex_to_decimal_ok_iff y).mpr h
                simp [hy] at hv
              simp [this]
            | ok p2 =>
              have hyh : is_hex_digit y := (hex_to_decimal_ok_iff y).mp ⟨p2, hy⟩
              have hx37 : x ≠ 37 := fun h => not_is_hex_digit_percent (h ▸ hxh)
              have hy37 : y ≠ 37 := fun h => not_is_hex_digit_percent (h ▸ hyh)
              have e1 := percent_condition_cons x (y :: rest')
              have e2 := percent_condition_cons y rest'
              simp only [List.getD_cons_zero, List.getD_cons_succ, List.length_cons] at e1 e2
              rw [e1, e2]
              simp only [hxh, hyh, hx37, hy37, false_implies, true_and, and_true]
              rcases hrest'.2 with ⟨out, ho⟩ | he
              · have hc' := hrest'.1.mp ⟨out, ho⟩
                simp only [ho]
                refine ⟨⟨fun _ => ⟨by omega, hc'⟩, fun _ => ⟨_, rfl⟩⟩, Or.inl ⟨_, rfl⟩⟩
              · have hc' : ¬ _ := fun h => by
                  obtain ⟨out, ho⟩ := hrest'.1.mpr h
                  simp [he] at ho
                simp only [he]
                refine ⟨⟨fun h => by simp at h, fun h => absurd h.2 hc'⟩, Or.inr (by simp)⟩
      · simp only [hc, if_false, false_implies, true_and]
        rcases hrest.2 with ⟨out, ho⟩ | he
        · simp only [ho]
          exact ⟨⟨fun _ => hrest.1.mp ⟨out, ho⟩, fun _ => ⟨_, rfl⟩⟩, Or.inl ⟨_, rfl⟩⟩
        · have hc' : ¬ _ := fun h => by
            obtain ⟨out, ho⟩ := hrest.1.mpr h
            simp [he] at ho
          simp only [he]
          exact ⟨⟨fun h => by simp at h, fun h => absurd h hc'⟩, Or.inr (by simp)⟩

theorem hex_digit_table_keys : ∀ p ∈ hex_digit_table, p.1 < 256 := by decide

set_option maxRecDepth 100000 in
theorem hex_to_decimal_table_small :
    ∀ c, c < 256 → (hex_to_decimal c).toOption = hex_digit_table.lookup c := by decide

/-- C4: `hex_to_decimal` of the growable variant returns the value of the digit for each of
the 22 hexadecimal digit characters (the entries of `hex_digit_table`) and fails for every
other character value, the letters `g`-`z` and `G`-`Z` among them. -/
theorem hex_to_decimal_exact (c : Nat) :
    (hex_to_decimal c).toOption = hex_digit_table.lookup c ∧
    (is_hex_digit c ↔ ∃ v, hex_digit_table.lookup c = some v) ∧
    ((103 ≤ c ∧ c ≤ 122) ∨ (71 ≤ c ∧ c ≤ 90) →
      hex_to_decimal c = .error "param should be 0 ~ 9, a ~ f or A ~ F") := by
  have key : (hex_to_decimal c).toOption = hex_digit_table.lookup c := by
    by_cases hc : c < 256
    · exact hex_to_decimal_table_small c hc
    · have h1 : hex_digit_table.lookup c = none := by
        rw [List.lookup_eq_none_iff]
        intro p hp
        have := hex_digit_table_keys p hp
        simp only [bne_iff_ne, ne_eq]
        omega
      rw [h1]
      unfold hex_to_decimal
      split_ifs <;> first | omega | rfl
  refine ⟨key, ?_, ?_⟩
  · rw [← key, ← hex_to_decimal_ok_iff]
    cases hex_to_decimal c <;> simp [Except.toOption]
  · intro h
    unfold hex_to_decimal
    split_ifs <;> first | omega | rfl

/-- C2: `percent_encoding_url_decode s` succeeds if and only if every `%` of `s`, at any
index `i`, is followed by at least two more characters and `s[i+1]`, `s[i+2]` are both
hexadecimal digits; otherwise it returns the error (and no output). In particular `"%4"`
and `"%gg"` fail. -/
theorem percent_decode_succeeds_iff (s : Str) :
    ((∃ out, percent_encoding_url_decode s = .ok out) ↔
      ∀ i, i < s.length → s.getD i 0 = 37 →
        i + 2 < s.length ∧ is_hex_digit (s.getD (i + 1) 0) ∧ is_hex_digit (s.getD (i + 2) 0)) ∧
    ((¬ ∃ out, percent_encoding_url_decode s = .ok out) →
      percent_encoding_url_decode s = .error "invalid percent encoding url") ∧
    percent_encoding_url_decode (bytes "%4") = .error "invalid percent encoding url" ∧
    percent_encoding_url_decode (bytes "%gg") = .error "invalid percent encoding url" := by
  have h := decode_from_ok_iff s.length s le_rfl
  rw [percent_encoding_url_decode_eq]
  refine ⟨h.1, fun hn => ?_, by decide, by decide⟩
  rcases h.2 with hok | he
  · exact absurd hok hn
  · exact he

theorem hex_to_decimal_hex_digit_char (u : Bool) (n : Nat) (h : n < 16) :
    hex_to_decimal (hex_digit_char u n) = .ok n := by
  unfold hex_to_decimal hex_digit_char
  by_cases h10 : n < 10
  · have h1 : 48 ≤ 48 + n ∧ 48 + n ≤ 57 := by omega
    simp only [h10, if_true, h1, and_self]
    congr 1
    omega
  · cases u
    · have h1 : ¬ (48 ≤ 97 + (n - 10) ∧ 97 + (n - 10) ≤ 57) := by omega
      have h2 : 97 ≤ 97 + (n - 10) ∧ 97 + (n - 10) ≤ 102 := by omega
      simp only [h10, if_false, h1, h2, and_self, if_true, Bool.false_eq_true]
      congr 1
      omega
    · have h1 : ¬ (48 ≤ 65 + (n - 10) ∧ 65 + (n - 10) ≤ 57) := by omega
      have h2 : ¬ (97 ≤ 65 + (n - 10) ∧ 65 + (n - 10) ≤ 102) := by omega
      have h3 : 65 ≤ 65 + (n - 10) ∧ 65 + (n - 10) ≤ 70 := by omega
      simp only [h10, if_false, h1, h2, h3, and_self, if_true]
      congr 1
      omega

/-- C3: decoding undoes percent-encoding. For every byte sequence, the decoding of the
string that writes each byte as `%` and its two hexadecimal digits (high nibble first,
either letter case for each digit) succeeds and returns the byte sequence; each triplet
`%`, `x`, `y` of digits with values `hi` and `lo` yields the byte `16 * hi + lo`; and
`"%41%42"` decodes to `"AB"`. -/
theorem percent_decode_encode (bs : List (Nat × Bool × Bool)) (hb : ∀ x ∈ bs, x.1 < 256) :
    percent_encoding_url_decode (percent_encode bs) = .ok (bs.map (fun x => x.1)) ∧
    (∀ x y hi lo, hex_to_decimal x = .ok hi → hex_to_decimal y = .ok lo →
      percent_encoding_url_decode [37, x, y] = .ok [16 * hi + lo]) ∧
    percent_encoding_url_decode (bytes "%41%42") = .ok (bytes "AB") := by
  refine ⟨?_, ?_, by decide⟩
  · rw [percent_encoding_url_decode_eq]
    induction bs with
    | nil => simp [percent_encode, decode_from]
    | cons x bs ih =>
      obtain ⟨b, u1, u2⟩ := x
      have hb1 : b < 256 := hb (b, u1, u2) (by simp)
      have ih1 := ih (fun x hx => hb x (by simp [hx]))
      unfold percent_encode decode_from
      simp only [if_true]
      rw [hex_to_decimal_hex_digit_char u1 (b / 16) (by omega),
        hex_to_decimal_hex_digit_char u2 (b % 16) (Nat.mod_lt _ (by norm_num))]
      simp only [ih1, List.map_cons]
      congr 2
      omega
  · intro x y hi lo hx hy
    rw [percent_encoding_url_decode_eq]
    have h1 := hex_to_decimal_lt x hi hx
    have h2 := hex_to_decimal_lt y lo hy
    simp only [decode_from, if_true, hx, hy]
    congr 2
    omega

/-- C3 at the bytes `A` and `B`, the first written with a capital and a small digit. -/
theorem percent_decode_encode_witness :
    (∀ x ∈ [(65, true, false), (66, false, true)], x.1 < 256) ∧
    percent_encoding_url_decode (percent_encode [(65, true, false), (66, false, true)]) =
      .ok [65, 66] :=
  ⟨by decide, (percent_decode_encode [(65, true, false), (66, false, true)] (by decide)).1⟩

/-! ### The loop of `parse_http_request` -/

theorem step_ptr_lt (data : Str) (m m' : Machine) (h : step data m = .ok m') :
    m.ptr < m'.ptr := by
  unfold step at h
  split at h <;> (try split_ifs at h) <;> simp at h <;> subst h <;> simp

theorem loop_terminal (data : Str) (k : Nat) (m : Machine) (h : c_str data m.ptr = 0) :
    loop data k m = .ok m := by
  cases k <;> simp [loop, h]

theorem loop_add (data : Str) (j k : Nat) : ∀ m : Machine,
    loop data (j + k) m =
      match loop data j m with
      | .ok m' => loop data k m'
      | .error e => .error e := by
  induction j with
  | zero => intro m; simp [loop]
  | succ j ih =>
    intro m
    rw [Nat.add_right_comm]
    simp only [loop]
    split_ifs with h0
    · exact (loop_terminal data k m h0).symm
    · cases step data m with
      | ok m' => exact ih m'
      | error e => rfl

theorem loop_progress (data : Str) (k : Nat) : ∀ m0 m : Machine, loop data k m0 = .ok m →
    c_str data m.ptr = 0 ∨ m0.ptr + k ≤ m.ptr := by
  induction k with
  | zero => intro m0 m h; simp [loop] at h; subst h; right; omega
  | succ k ih =>
    intro m0 m h
    simp only [loop] at h
    split_ifs at h with h0
    · simp at h; subst h; left; exact h0
    · cases hs : step data m0 with
      | error e => simp [hs] at h
      | ok m1 =>
        simp only [hs] at h
        have := step_ptr_lt data m0 m1 hs
        rcases ih m1 m h with h' | h'
        · left; exact h'
        · right; omega

/-- After `data.length` iterations the loop of `parse_http_request` has ended: the machine
it returns stands on a `0` byte. -/
theorem loop_exhausts (data : Str) (k : Nat) (m0 m : Machine) (hk : data.length ≤ m0.ptr + k)
    (h : loop data k m0 = .ok m) : c_str data m.ptr = 0 := by
  rcases loop_progress data k m0 m h with h' | h'
  · exact h'
  · exact c_str_eq_zero_of_le data m.ptr (by omega)

/-- A machine on which the loop has ended after some number of iterations is the machine
that every sufficient number of iterations returns. -/
theorem loop_of_terminal (data : Str) (k : Nat) : ∀ (m0 m : Machine), loop data k m0 = .ok m →
    c_str data m.ptr = 0 → ∀ j, data.length ≤ m0.ptr + j → loop data j m0 = .ok m := by
  induction k with
  | zero =>
    intro m0 m h hz j _
    simp [loop] at h; subst h
    exact loop_terminal data j m0 hz
  | succ k ih =>
    intro m0 m h hz j hj
    simp only [loop] at h
    split_ifs at h with h0
    · simp at h; subst h
      exact loop_terminal data j m0 hz
    · cases hs : step data m0 with
      | error e => simp [hs] at h
      | ok m1 =>
        simp only [hs] at h
        have hlt := step_ptr_lt data m0 m1 hs
        have hp : m0.ptr < data.length := by
          by_contra hcon
          exact h0 (c_str_eq_zero_of_le data m0.ptr (by omega))
        obtain ⟨j', rfl⟩ : ∃ j', j = j' + 1 := ⟨j - 1, by omega⟩
        simp only [loop, h0, if_false, hs]
        exact ih m1 m h hz j' (by omega)

theorem step_before_headers (data : Str) (m m' : Machine) (h : step data m = .ok m')
    (hi : before_headers m) : before_headers m' := by
  unfold before_headers at hi ⊢
  unfold step at h
  split at h <;> (try split_ifs at h) <;> simp at h <;> subst h <;> simp_all

theorem loop_before_headers (data : Str) (k : Nat) : ∀ m0 m : Machine,
    loop data k m0 = .ok m → before_headers m0 → before_headers m := by
  induction k with
  | zero => intro m0 m h hi; simp [loop] at h; subst h; exact hi
  | succ k ih =>
    intro m0 m h hi
    simp only [loop] at h
    split_ifs at h with h0
    · simp at h; subst h; exact hi
    · cases hs : step data m0 with
      | error e => simp [hs] at h
      | ok m1 =>
        simp only [hs] at h
        exact ih m1 m h (step_before_headers data m0 m1 hs hi)

theorem parse_http_headers_nil : parse_http_headers [] = some { entries := [] } := by
  simp [parse_http_headers, views_split, header_lines]

/-- End of input before the headers state: the growable `parse_http_request` returns the
request built so far. -/
theorem parse_of_exhausted_early (data : Str) (k : Nat) (m : Machine)
    (h : loop data k init = .ok m) (hz : c_str data m.ptr = 0)
    (hs : m.state = .method ∨ m.state = .url ∨ m.state = .version) :
    parse_http_request data = .value m.req ∧ m.req.headers.size = 0 ∧ m.req.body = [] := by
  have hfin := loop_of_terminal data k init m h hz data.length (by simp [init])
  have hinv := loop_before_headers data k init m h (by simp [before_headers, init])
  obtain ⟨hh, hrest⟩ := hinv
  obtain ⟨hhd, hbody⟩ := hrest hs
  refine ⟨?_, by simp [hh, StdMap.size], hbody⟩
  unfold parse_http_request
  simp only [hfin, hhd, parse_http_headers_nil]
  rw [← hh]

/-- A lone `'\r'` met in the version or the headers state: the growable
`parse_http_request` returns `invalid_crlf`. -/
theorem parse_of_lone_cr (data : Str) (k : Nat) (m : Machine)
    (h : loop data k init = .ok m) (hs : m.state = .version ∨ m.state = .headers)
    (hcr : c_str data m.ptr = 13) (hlf : c_str data (m.ptr + 1) ≠ 10) :
    parse_http_request data = .unexpected .invalid_crlf := by
  have h0 : c_str data m.ptr ≠ 0 := by omega
  have hk : k ≤ m.ptr := by
    rcases loop_progress data k init m h with h' | h'
    · exact absurd h' h0
    · simpa [init] using h'
  have hp : m.ptr < data.length := by
    by_contra hcon
    exact h0 (c_str_eq_zero_of_le data m.ptr (by omega))
  obtain ⟨j, hj⟩ : ∃ j, data.length = k + (j + 1) := ⟨data.length - k - 1, by omega⟩
  have hstep : step data m = .error .invalid_crlf := by
    unfold step
    rcases hs with hs | hs <;> simp [hs, hcr, hlf]
  unfold parse_http_request
  rw [hj, loop_add, h]
  simp [loop, h0, hstep]

/-- The `while` loop of `parse_http_request` computes `scan` on the bytes from `ptr` on. -/
theorem loop_eq_scan (data : Str) : ∀ (k : Nat) (m : Machine), data.length ≤ m.ptr + k →
    (match loop data k m with
      | .ok m' => Except.ok (m'.state, m'.req, m'.headers)
      | .error e => .error e) =
    scan m.state m.req m.headers (data.drop m.ptr) := by
  intro k
  induction k with
  | zero =>
    intro m h
    have : data.drop m.ptr = [] := List.drop_eq_nil_of_le (by omega)
    simp [loop, this, scan]
  | succ k ih =>
    intro m h
    obtain ⟨st, ptr, req, hdrs⟩ := m
    simp only at h
    have e0 : c_str data ptr = (data.drop ptr).getD 0 0 := c_str_eq_head data ptr
    have e1 : c_str data (ptr + 1) = (data.drop ptr).getD 1 0 := c_str_add data ptr 1
    have e2 : c_str data (ptr + 2) = (data.drop ptr).getD 2 0 := c_str_add data ptr 2
    have e3 : c_str data (ptr + 3) = (data.drop ptr).getD 3 0 := c_str_add data ptr 3
    have d1 : ∀ st req hdrs,
        (match loop data k ⟨st, ptr + 1, req, hdrs⟩ with
          | .ok m' => Except.ok (m'.state, m'.req, m'.headers)
          | .error e => .error e) = scan st req hdrs ((data.drop ptr).drop 1) := by
      intro st req hdrs
      have := ih ⟨st, ptr + 1, req, hdrs⟩ (by simp only; omega)
      rw [List.drop_drop]; exact this
    have d2 : ∀ st req hdrs,
        (match loop data k ⟨st, ptr + 2, req, hdrs⟩ with
          | .ok m' => Except.ok (m'.state, m'.req, m'.headers)
          | .error e => .error e) = scan st req hdrs ((data.drop ptr).drop 2) := by
      intro st req hdrs
      have := ih ⟨st, ptr + 2, req, hdrs⟩ (by simp only; omega)
      rw [List.drop_drop]; exact this
    have d4 : ∀ st req hdrs,
        (match loop data k ⟨st, ptr + 4, req, hdrs⟩ with
          | .ok m' => Except.ok (m'.state, m'.req, m'.headers)
          | .error e => .error e) = scan st req hdrs ((data.drop ptr).drop 4) := by
      intro st req hdrs
      have := ih ⟨st, ptr + 4, req, hdrs⟩ (by simp only; omega)
      rw [List.drop_drop]; exact this
    unfold loop
    simp only [step, e0, e1, e2, e3]
    generalize data.drop ptr = suf at d1 d2 d4 ⊢
    rcases suf with _ | ⟨c, rest⟩
    · simp [scan]
    · simp only [List.getD_cons_zero, List.getD_cons_succ, List.drop_succ_cons, List.drop_zero]
        at d1 d2 d4 ⊢
      by_cases hc : c = 0
      · rw [scan.eq_def]; simp [hc]
      · cases st
        · rw [scan.eq_def]
          simp only [hc, if_false]
          split_ifs <;> first | rfl | exact d1 _ _ _
        · rw [scan.eq_def]
          simp only [hc, if_false]
          split_ifs <;> first | rfl | exact d1 _ _ _
        · rcases rest with _ | ⟨d, rest1⟩
          · rw [scan.eq_def]
            simp only [hc, if_false, List.getD_nil]
            split_ifs <;> first | rfl | exact d1 _ _ _ | omega
          · rw [scan.eq_def]
            simp only [hc, if_false, List.getD_cons_zero, List.drop_succ_cons, List.drop_zero]
              at d1 d2 ⊢
            split_ifs <;> first | rfl | exact d1 _ _ _ | exact d2 _ _ _
        · rcases rest with _ | ⟨d, _ | ⟨e, _ | ⟨f, rest2⟩⟩⟩
          · rw [scan.eq_def]
            simp only [hc, if_false, List.getD_nil]
            split_ifs <;> first | rfl | exact d1 _ _ _ | omega
          · rw [scan.eq_def]
            simp only [hc, if_false, List.getD_cons_zero, List.getD_cons_succ, List.getD_nil,
              List.drop_succ_cons, List.drop_zero, List.drop_nil] at d1 d2 d4 ⊢
            split_ifs <;> first
              | rfl | exact d1 _ _ _ | exact d2 _ _ _ | omega | (rename_i hh; exact hh.2.elim)
          · rw [scan.eq_def]
            simp only [hc, if_false, List.getD_cons_zero, List.getD_cons_succ, List.getD_nil,
              List.drop_succ_cons, List.drop_zero, List.drop_nil] at d1 d2 d4 ⊢
            split_ifs <;> first
              | rfl | exact d1 _ _ _ | exact d2 _ _ _ | omega | (rename_i hh; exact hh.2.elim)
          · rw [scan.eq_def]
            simp only [hc, if_false, List.getD_cons_zero, List.getD_cons_succ, List.getD_nil,
              List.drop_succ_cons, List.drop_zero, List.drop_nil] at d1 d2 d4 ⊢
            split_ifs <;> first | rfl | exact d1 _ _ _ | exact d2 _ _ _ | exact d4 _ _ _
        · rw [scan.eq_def]
          simp only [hc, if_false]
          exact d1 _ _ _

/-- What `parse_http_request` returns, from the result of `scan` on the whole input. -/
theorem parse_http_request_eq_scan (data : Str) :
    parse_http_request data =
      match scan .method init.req [] data with
      | .error e => .unexpected e
      | .ok (_, req, hdrs) =>
        match parse_http_headers hdrs with
        | some h => .value { req with headers := h }
        | none => .out_of_range := by
  have h := loop_eq_scan data data.length init (by simp [init])
  simp only [init, List.drop_zero] at h
  unfold parse_http_request
  simp only [init]
  rw [← h]
  cases loop data data.length
      { state := .method, ptr := 0,
        req := { method := [], url := [], version := [], headers := { entries := [] },
                 body := [] },
        headers := [] } <;> rfl

/-! ### The phases of the loop on a well-formed request -/

theorem scan_method_token (ms rest : Str) (hms : ∀ c ∈ ms, c ≠ 0 ∧ c ≠ 32) :
    ∀ (req : Request) (hdrs : Str), req.method.length + ms.length ≤ METHOD_MAX_LEN →
    scan .method req hdrs (ms ++ 32 :: rest) =
      scan .url { req with method := req.method ++ ms } hdrs rest := by
  induction ms with
  | nil => intro req hdrs _; simp [scan]
  | cons c ms ih =>
    intro req hdrs hlen
    have hc := hms c (by simp)
    have hne : req.method.length ≠ METHOD_MAX_LEN := by simp at hlen; omega
    rw [List.cons_append, scan.eq_def]
    simp only [hc.1, hc.2, hne, if_false]
    rw [ih (fun x hx => hms x (by simp [hx])) _ hdrs (by simp at hlen ⊢; omega)]
    simp

theorem scan_url_token (ts rest : Str) (hts : ∀ c ∈ ts, c ≠ 0 ∧ c ≠ 32) :
    ∀ (req : Request) (hdrs : Str), req.url.length + ts.length ≤ URL_MAX_LEN →
    scan .url req hdrs (ts ++ 32 :: rest) =
      scan .version { req with url := req.url ++ ts } hdrs rest := by
  induction ts with
  | nil => intro req hdrs _; simp [scan]
  | cons c ts ih =>
    intro req hdrs hlen
    have hc := hts c (by simp)
    have hne : req.url.length ≠ URL_MAX_LEN := by simp at hlen; omega
    rw [List.cons_append, scan.eq_def]
    simp only [hc.1, hc.2, hne, if_false]
    rw [ih (fun x hx => hts x (by simp [hx])) _ hdrs (by simp at hlen ⊢; omega)]
    simp

theorem scan_version_token (vs rest : Str) (hvs : ∀ c ∈ vs, c ≠ 0 ∧ c ≠ 13) :
    ∀ (req : Request) (hdrs : Str), req.version.length + vs.length ≤ VERSION_MAX_LEN →
    scan .version req hdrs (vs ++ 13 :: 10 :: rest) =
      scan .headers { req with version := req.version ++ vs } hdrs rest := by
  induction vs with
  | nil => intro req hdrs _; simp [scan]
  | cons c vs ih =>
    intro req hdrs hlen
    have hc := hvs c (by simp)
    have hne : req.version.length ≠ VERSION_MAX_LEN := by simp at hlen; omega
    rw [List.cons_append, scan.eq_def]
    simp only [hc.1, hc.2, hne, if_false]
    rw [ih (fun x hx => hvs x (by simp [hx])) _ hdrs (by simp at hlen ⊢; omega)]
    simp

theorem scan_headers_line (line rest : Str) (hl : ∀ c ∈ line, c ≠ 0 ∧ c ≠ 13) :
    ∀ (req : Request) (hdrs : Str),
    scan .headers req hdrs (line ++ rest) = scan .headers req (hdrs ++ line) rest := by
  induction line with
  | nil => intro req hdrs; simp
  | cons c line ih =>
    intro req hdrs
    have hc := hl c (by simp)
    rw [List.cons_append, scan.eq_def]
    simp only [hc.1, hc.2, if_false]
    rw [ih (fun x hx => hl x (by simp [hx]))]
    simp

theorem scan_headers_end (req : Request) (hdrs rest : Str) :
    scan .headers req hdrs (13 :: 10 :: 13 :: 10 :: rest) = scan .body req hdrs rest := by
  simp [scan]

theorem scan_headers_crlf (req : Request) (hdrs rest : Str) (c : Nat) (hc : c ≠ 13) :
    scan .headers req hdrs (13 :: 10 :: c :: rest) =
      scan .headers req (hdrs ++ [13, 10]) (c :: rest) := by
  rcases rest with _ | ⟨f, rest⟩ <;> simp [scan, hc]

theorem scan_body (b : Str) (hb : ∀ c ∈ b, c ≠ 0) : ∀ (req : Request) (hdrs : Str),
    scan .body req hdrs b = .ok (.body, { req with body := req.body ++ b }, hdrs) := by
  induction b with
  | nil => intro req hdrs; simp [scan]
  | cons c b ih =>
    intro req hdrs
    have hc := hb c (by simp)
    rw [scan.eq_def]
    simp only [hc, if_false]
    rw [ih (fun x hx => hb x (by simp [hx]))]
    simp

/-- The header block of a request whose lines hold no `'\r'` and no NUL and, the first
apart, are not empty: the loop copies the lines, joined by `"\r\n"`, and reaches the body
at the blank line. -/
theorem scan_headers_block (rest : Str) : ∀ (lines : List Str) (l : Str),
    (∀ x ∈ l :: lines, ∀ c ∈ x, c ≠ 0 ∧ c ≠ 13) → (∀ x ∈ lines, x ≠ []) →
    ∀ (req : Request) (hdrs : Str),
    scan .headers req hdrs (join_crlf (l :: lines) ++ 13 :: 10 :: 13 :: 10 :: rest) =
      scan .body req (hdrs ++ join_crlf (l :: lines)) rest := by
  intro lines
  induction lines with
  | nil =>
    intro l hl _ req hdrs
    simp only [join_crlf]
    rw [scan_headers_line l _ (hl l (by simp)), scan_headers_end]
  | cons l' lines ih =>
    intro l hl hne req hdrs
    have hl' : l' ≠ [] := hne l' (by simp)
    obtain ⟨c, tl, rfl⟩ := List.exists_cons_of_ne_nil hl'
    have hc : c ≠ 13 := (hl (c :: tl) (by simp) c (by simp)).2
    have hj : ∃ tl', join_crlf ((c :: tl) :: lines) = c :: tl' := by
      cases lines <;> simp [join_crlf]
    obtain ⟨tl', htl'⟩ := hj
    have step1 := ih (c :: tl) (fun x hx => hl x (by simp at hx ⊢; tauto))
      (fun x hx => hne x (by simp [hx])) req (hdrs ++ l ++ [13, 10])
    simp only [join_crlf, List.append_assoc, List.cons_append]
    rw [scan_headers_line l _ (hl l (by simp))]
    rw [htl'] at step1 ⊢
    rw [List.cons_append, scan_headers_crlf _ _ _ _ hc]
    rw [List.cons_append] at step1
    rw [step1]
    simp

/-! ### `parse_http_headers` -/

theorem string_find_header_text (name value : Str) (hn : ¬ [58, 32] <:+: name) :
    string_find [58, 32] (name ++ 58 :: 32 :: value) = some name.length := by
  induction name with
  | nil => simp [string_find]
  | cons c name ih =>
    have hn' : ¬ [58, 32] <:+: name := fun h => hn (List.IsInfix.trans h (List.infix_cons (List.infix_refl _)))
    have hp : ¬ [58, 32] <+: c :: (name ++ 58 :: 32 :: value) := by
      intro hp
      rw [List.cons_prefix_cons] at hp
      obtain ⟨hc, hp⟩ := hp
      rcases name with _ | ⟨d, name⟩
      · simp at hp
      · rw [List.cons_append, List.cons_prefix_cons] at hp
        apply hn
        refine ⟨[], name, ?_⟩
        simp [← hc, ← hp.1]
    rw [List.cons_append, string_find]
    simp only [hp, if_false, ih hn', List.length_cons]

theorem header_line_header_text (m : StdMap) (name value : Str) (hn : ¬ [58, 32] <:+: name) :
    header_line m (header_text (name, value)) = some (m.emplace name value) := by
  unfold header_line header_text
  simp only [string_find_header_text name value hn, pos_plus_2, substr]
  have h1 : ¬ 0 > (name ++ 58 :: 32 :: value).length := by omega
  have h2 : ¬ name.length + 2 > (name ++ 58 :: 32 :: value).length := by simp
  simp only [h1, h2, if_false, List.drop_zero]
  have h3 : (name ++ 58 :: 32 :: value).take name.length = name := List.take_left' rfl
  have h4 : (name ++ 58 :: 32 :: value).drop (name.length + 2) = value := by
    rw [← List.drop_drop, List.drop_left' rfl]
    rfl
  rw [h3, h4]

theorem split_crlf_line (line : Str) (h13 : ∀ c ∈ line, c ≠ 13) : ∀ cur : Str,
    split_crlf line cur = [cur ++ line] := by
  induction line with
  | nil => intro cur; simp [split_crlf]
  | cons c line ih =>
    intro cur
    have hc := h13 c (by simp)
    rcases line with _ | ⟨d, line⟩
    · simp [split_crlf]
    · rw [split_crlf]
      simp only [hc, false_and, if_false]
      rw [ih (fun x hx => h13 x (by simp at hx ⊢; tauto))]
      simp

theorem split_crlf_line_crlf (line rest : Str) (h13 : ∀ c ∈ line, c ≠ 13) : ∀ cur : Str,
    split_crlf (line ++ 13 :: 10 :: rest) cur = (cur ++ line) :: split_crlf rest [] := by
  induction line with
  | nil => intro cur; simp [split_crlf]
  | cons c line ih =>
    intro cur
    have hc := h13 c (by simp)
    obtain ⟨d, tl, htl⟩ : ∃ d tl, line ++ 13 :: 10 :: rest = d :: tl := by
      cases line <;> simp
    have := ih (fun x hx => h13 x (by simp [hx])) (cur ++ [c])
    rw [List.cons_append, htl, split_crlf]
    rw [htl] at this
    simp only [hc, false_and, if_false, this]
    simp

theorem split_crlf_join (lines : List Str) : ∀ (l cur : Str),
    (∀ x ∈ l :: lines, ∀ c ∈ x, c ≠ 13) →
    split_crlf (join_crlf (l :: lines)) cur = (cur ++ l) :: lines := by
  induction lines with
  | nil => intro l cur h; simpa [join_crlf] using split_crlf_line l (h l (by simp)) cur
  | cons l' lines ih =>
    intro l cur h
    simp only [join_crlf]
    rw [split_crlf_line_crlf l _ (h l (by simp)), ih l' [] (fun x hx => h x (by simp at hx ⊢; tauto))]
    simp

theorem views_split_join (lines : List Str) (h13 : ∀ x ∈ lines, ∀ c ∈ x, c ≠ 13)
    (hne : ∀ x ∈ lines, x ≠ []) : views_split (join_crlf lines) = lines := by
  rcases lines with _ | ⟨l, lines⟩
  · simp [join_crlf, views_split]
  · have hl : l ≠ [] := hne l (by simp)
    have hj : join_crlf (l :: lines) ≠ [] := by
      cases lines <;> simp [join_crlf, hl]
    unfold views_split
    simp only [hj, if_false]
    rw [split_crlf_join lines l [] h13]
    simp

theorem header_lines_header_text (ps : List (Str × Str))
    (hn : ∀ p ∈ ps, ¬ [58, 32] <:+: p.1) : ∀ m : StdMap,
    header_lines m (ps.map header_text) =
      some (ps.foldl (fun m p => m.emplace p.1 p.2) m) := by
  induction ps with
  | nil => intro m; simp [header_lines]
  | cons p ps ih =>
    intro m
    obtain ⟨name, value⟩ := p
    simp only [List.map_cons, header_lines,
      header_line_header_text m name value (hn (name, value) (by simp)), List.foldl_cons]
    exact ih (fun p hp => hn p (by simp [hp])) _

theorem find_emplace (m : StdMap) (key value k : Str) :
    (m.emplace key value).find k =
      match m.find k with
      | some v => some v
      | none => if k = key then some value else none := by
  unfold StdMap.emplace
  cases hk : m.find key with
  | none =>
    simp only [StdMap.find] at hk ⊢
    rw [List.lookup_append]
    cases hk' : List.lookup k m.entries with
    | some v => simp
    | none =>
      by_cases h : k = key
      · simp [List.lookup, h]
      · have hb : (k == key) = false := beq_eq_false_iff_ne.mpr h
        simp [List.lookup, h, hb]
  | some v =>
    simp only
    cases hk' : m.find k with
    | some v' => rfl
    | none =>
      have : k ≠ key := fun h => by rw [h] at hk'; simp [hk] at hk'
      simp [this]

/-- First occurrence wins: after the lines of `ps` were emplaced into `m`, a key is
associated with what `m` held for it, and else with the value of the first pair of `ps`
with this key. -/
theorem find_foldl_emplace (ps : List (Str × Str)) : ∀ (m : StdMap) (k : Str),
    (ps.foldl (fun m p => m.emplace p.1 p.2) m).find k =
      match m.find k with
      | some v => some v
      | none => ps.lookup k := by
  induction ps with
  | nil => intro m k; cases h : m.find k <;> simp [h]
  | cons p ps ih =>
    intro m k
    obtain ⟨key, value⟩ := p
    rw [List.foldl_cons, ih, find_emplace]
    cases m.find k with
    | some v => rfl
    | none =>
      by_cases h : k = key
      · simp [h]
      · have hb : (k == key) = false := beq_eq_false_iff_ne.mpr h
        simp [h, hb, List.lookup]

theorem foldl_emplace_entries (ps : List (Str × Str)) : ∀ (m : StdMap),
    (ps.map (fun p => p.1)).Nodup → (∀ p ∈ ps, m.find p.1 = none) →
    (ps.foldl (fun m p => m.emplace p.1 p.2) m).entries = m.entries ++ ps := by
  induction ps with
  | nil => intro m _ _; simp
  | cons p ps ih =>
    intro m hnd hm
    obtain ⟨key, value⟩ := p
    simp only [List.map_cons, List.nodup_cons] at hnd
    have hk : m.find key = none := hm (key, value) (by simp)
    rw [List.foldl_cons, ih _ hnd.2]
    · simp [StdMap.emplace, hk]
    · intro p hp
      rw [find_emplace, hm p (by simp [hp])]
      have : p.1 ≠ key := fun h => hnd.1 (by rw [← h]; exact List.mem_map_of_mem _ hp)
      simp [this]

theorem lookup_of_mem_nodup (ps : List (Str × Str)) (hnd : (ps.map (fun p => p.1)).Nodup) :
    ∀ p ∈ ps, ps.lookup p.1 = some p.2 := by
  induction ps with
  | nil => intro p hp; simp at hp
  | cons q ps ih =>
    intro p hp
    obtain ⟨key, value⟩ := q
    simp only [List.map_cons, List.nodup_cons] at hnd
    rcases List.mem_cons.mp hp with rfl | hp'
    · simp
    · have hne : p.1 ≠ key := fun h => hnd.1 (by rw [← h]; exact List.mem_map_of_mem _ hp')
      have hb : (p.1 == key) = false := beq_eq_false_iff_ne.mpr hne
      simp only [List.lookup, hb]
      exact ih hnd.2 p hp'

/-- `parse_http_headers` on header lines `name ++ ": " ++ value` joined by `"\r\n"`: every
line is emplaced, in order. -/
theorem parse_http_headers_join (ps : List (Str × Str))
    (hsep : ∀ p ∈ ps, ¬ [58, 32] <:+: p.1)
    (hlines : ∀ p ∈ ps, ∀ c ∈ header_text p, c ≠ 0 ∧ c ≠ 13) :
    parse_http_headers (join_crlf (ps.map header_text)) =
      some (ps.foldl (fun m p => m.emplace p.1 p.2) { entries := [] }) := by
  unfold parse_http_headers
  rw [views_split_join]
  · exact header_lines_header_text ps hsep _
  · intro x hx c hc
    obtain ⟨p, hp, rfl⟩ := List.mem_map.mp hx
    exact (hlines p hp c hc).2
  · intro x hx
    obtain ⟨p, _, rfl⟩ := List.mem_map.mp hx
    simp [header_text]

theorem scan_method_overflow (ms rest : Str) (hms : ∀ c ∈ ms, c ≠ 0 ∧ c ≠ 32) :
    ∀ (req : Request) (hdrs : Str), req.method.length ≤ METHOD_MAX_LEN →
    METHOD_MAX_LEN < req.method.length + ms.length →
    scan .method req hdrs (ms ++ rest) = .error .method_too_long := by
  induction ms with
  | nil => intro req hdrs h1 h2; simp at h2; omega
  | cons c ms ih =>
    intro req hdrs h1 h2
    have hc := hms c (by simp)
    rw [List.cons_append, scan.eq_def]
    simp only [hc.1, hc.2, if_false]
    by_cases hfull : req.method.length = METHOD_MAX_LEN
    · simp [hfull]
    · simp only [hfull, if_false]
      exact ih (fun x hx => hms x (by simp [hx])) _ hdrs (by simp; omega)
        (by simp at h2 ⊢; omega)

theorem scan_ne_method_too_long : ∀ (n : Nat) (s : Str), s.length ≤ n →
    ∀ (st : ParseState) (req : Request) (hdrs : Str), st ≠ .method →
    scan st req hdrs s ≠ .error .method_too_long := by
  intro n
  induction n with
  | zero =>
    intro s hs st req hdrs _
    have : s = [] := List.length_eq_zero.mp (by omega)
    subst this
    simp [scan]
  | succ n ih =>
    intro s hs st req hdrs hst
    rcases s with _ | ⟨c, rest⟩
    · simp [scan]
    · have hr : rest.length ≤ n := by simpa using hs
      by_cases h0 : c = 0
      · rw [scan.eq_def]; simp [h0]
      · cases st with
        | method => exact absurd rfl hst
        | url =>
          rw [scan.eq_def]
          simp only [h0, if_false]
          split_ifs <;> first | exact ih rest hr _ _ _ (by simp) | simp
        | version =>
          rcases rest with _ | ⟨d, rest1⟩
          · rw [scan.eq_def]
            simp only [h0, if_false]
            split_ifs <;> first | exact ih [] hr _ _ _ (by simp) | simp
          · rw [scan.eq_def]
            simp only [h0, if_false]
            split_ifs <;> first
              | exact ih (d :: rest1) hr _ _ _ (by simp)
              | exact ih rest1 (by simp at hr; omega) _ _ _ (by simp)
              | simp
        | headers =>
          rcases rest with _ | ⟨d, _ | ⟨e, _ | ⟨f, rest2⟩⟩⟩
          · rw [scan.eq_def]
            simp only [h0, if_false]
            split_ifs <;> first | exact ih [] hr _ _ _ (by simp) | simp
          · rw [scan.eq_def]
            simp only [h0, if_false]
            split_ifs <;> first
              | exact ih [d] hr _ _ _ (by simp)
              | exact ih [] (by simp) _ _ _ (by simp)
              | simp
          · rw [scan.eq_def]
            simp only [h0, if_false]
            split_ifs <;> first
              | exact ih [d, e] hr _ _ _ (by simp)
              | exact ih [e] (by simp at hr ⊢; omega) _ _ _ (by simp)
              | simp
          · rw [scan.eq_def]
            simp only [h0, if_false]
            split_ifs <;> first
              | exact ih (d :: e :: f :: rest2) hr _ _ _ (by simp)
              | exact ih (e :: f :: rest2) (by simp at hr ⊢; omega) _ _ _ (by simp)
              | exact ih rest2 (by simp at hr; omega) _ _ _ (by simp)
              | simp
        | body =>
          rw [scan.eq_def]
          simp only [h0, if_false]
          exact ih rest hr _ _ _ (by simp)

theorem parse_http_headers_leading_crlf (x : Str) : parse_http_headers (13 :: 10 :: x) = none := by
  simp [parse_http_headers, views_split, split_crlf, header_lines, header_line, string_find,
    substr, pos_plus_2]

theorem string_find_le (pat : Str) : ∀ (s : Str) (i : Nat), string_find pat s = some i →
    i + pat.length ≤ s.length := by
  intro s
  induction s with
  | nil =>
    intro i h
    simp only [string_find] at h
    split_ifs at h with hp
    simp at h; subst h; simp [hp]
  | cons c s ih =>
    intro i h
    simp only [string_find] at h
    split_ifs at h with hp
    · simp at h; subst h
      simpa using hp.length_le
    · cases hf : string_find pat s with
      | none => simp [hf] at h
      | some j =>
        simp [hf] at h; subst h
        have := ih j hf
        simp; omega

theorem header_line_of_ne_nil (m : StdMap) (str : Str) (h : str ≠ []) :
    ∃ m', header_line m str = some m' := by
  unfold header_line
  have hlen : 0 < str.length := List.length_pos.mpr h
  cases hf : string_find [58, 32] str with
  | none =>
    have h1 : ¬ (1 > str.length) := by omega
    simp [substr, pos_plus_2, h1]
  | some i =>
    have := string_find_le _ _ _ hf
    have h1 : ¬ (i + 2 > str.length) := by simpa using this
    simp [substr, pos_plus_2, h1]

theorem header_lines_of_ne_nil (lines : List Str) (h : ∀ x ∈ lines, x ≠ []) : ∀ m : StdMap,
    ∃ m', header_lines m lines = some m' := by
  induction lines with
  | nil => intro m; exact ⟨m, rfl⟩
  | cons l lines ih =>
    intro m
    obtain ⟨m1, h1⟩ := header_line_of_ne_nil m l (h l (by simp))
    simp only [header_lines, h1]
    exact ih (fun x hx => h x (by simp [hx])) m1

/-- The loop on a well-formed request: it ends in the body state with the three tokens of
the request line, the header lines joined by `"\r\n"` as the header block, and the body. -/
theorem scan_request_text (m t v b : Str) (lines : List Str)
    (hm : m.length ≤ 32 ∧ ∀ c ∈ m, c ≠ 0 ∧ c ≠ 32)
    (ht : t.length ≤ 1024 ∧ ∀ c ∈ t, c ≠ 0 ∧ c ≠ 32)
    (hv : v.length ≤ 32 ∧ ∀ c ∈ v, c ≠ 0 ∧ c ≠ 13)
    (hlines : ∀ x ∈ lines, x ≠ [] ∧ ∀ c ∈ x, c ≠ 0 ∧ c ≠ 13)
    (hb : ∀ c ∈ b, c ≠ 0) :
    scan .method init.req [] (request_text m t v (join_crlf lines) b) =
      .ok (.body, { method := m, url := t, version := v, headers := { entries := [] },
                    body := b }, join_crlf lines) := by
  unfold request_text
  rw [scan_method_token m _ hm.2 _ _ (by simp [init, METHOD_MAX_LEN]; exact hm.1),
    scan_url_token t _ ht.2 _ _ (by simp [init, URL_MAX_LEN]; exact ht.1),
    scan_version_token v _ hv.2 _ _ (by simp [init, VERSION_MAX_LEN]; exact hv.1)]
  rcases lines with _ | ⟨l, lines⟩
  · simp only [join_crlf, List.nil_append]
    rw [scan_headers_end, scan_body b hb]
    simp [init]
  · rw [scan_headers_block b lines l (fun x hx => (hlines x hx).2)
      (fun x hx => (hlines x (by simp [hx])).1), scan_body b hb]
    simp [init]

/-- C1: for a method `m` (no space, no NUL, at most 32 bytes), a target `t` (no space, no
NUL, at most 1024 bytes), a version `v` (no `'\r'`, no NUL, at most 32 bytes), header lines
`name ++ ": " ++ value` of pairs `ps` with pairwise distinct names (no name contains
`": "`, no line contains `'\r'` or NUL) and a NUL-free body `b`, the growable
`parse_http_request` applied to
`m ++ " " ++ t ++ " " ++ v ++ "\r\n" ++ lines joined by "\r\n" ++ "\r\n\r\n" ++ b` returns a
`Request` with method `m`, url `t`, version `v`, body `b` and, as headers, exactly the
mapping of each name to its value: as many entries as lines, each name is found with its
value and no other key is found. (The number of lines may also be zero.) -/
theorem parse_well_formed_request (m t v b : Str) (ps : List (Str × Str))
    (hm : m.length ≤ 32 ∧ ∀ c ∈ m, c ≠ 0 ∧ c ≠ 32)
    (ht : t.length ≤ 1024 ∧ ∀ c ∈ t, c ≠ 0 ∧ c ≠ 32)
    (hv : v.length ≤ 32 ∧ ∀ c ∈ v, c ≠ 0 ∧ c ≠ 13)
    (hnames : (ps.map (fun p => p.1)).Nodup)
    (hsep : ∀ p ∈ ps, ¬ [58, 32] <:+: p.1)
    (hlines : ∀ p ∈ ps, ∀ c ∈ header_text p, c ≠ 0 ∧ c ≠ 13)
    (hb : ∀ c ∈ b, c ≠ 0) :
    ∃ r, parse_http_request (request_text m t v (join_crlf (ps.map header_text)) b) = .value r ∧
      r.method = m ∧ r.url = t ∧ r.version = v ∧ r.body = b ∧
      r.headers.size = ps.length ∧
      (∀ p ∈ ps, r.headers.find p.1 = some p.2) ∧
      (∀ k, (∀ p ∈ ps, p.1 ≠ k) → r.headers.find k = none) := by
  have hscan := scan_request_text m t v b (ps.map header_text) hm ht hv
    (by
      intro x hx
      obtain ⟨p, hp, rfl⟩ := List.mem_map.mp hx
      exact ⟨by simp [header_text], hlines p hp⟩) hb
  have hh := parse_http_headers_join ps hsep hlines
  have he := foldl_emplace_entries ps { entries := [] } hnames (by intro p _; rfl)
  simp only [List.nil_append] at he
  refine ⟨{ method := m, url := t, version := v, headers := { entries := ps }, body := b },
    ?_, rfl, rfl, rfl, rfl, rfl, ?_, ?_⟩
  · rw [parse_http_request_eq_scan, hscan]
    simp only [hh]
    congr 2
    have hext : ∀ x : StdMap, x.entries = ps → x = { entries := ps } := by
      rintro ⟨e⟩ h
      simp only at h
      rw [h]
    exact hext _ he
  · intro p hp
    exact lookup_of_mem_nodup ps hnames p hp
  · intro k hk
    simp only [StdMap.find, List.lookup_eq_none_iff, bne_iff_ne, ne_eq]
    intro p hp h
    exact hk p hp h.symm

/-- C1 at the request of the specification,
`"GET /path HTTP/1.1\r\nHost: example.com\r\n\r\nbody"`. -/
theorem parse_well_formed_request_witness :
    ∃ r, parse_http_request (request_text (bytes "GET") (bytes "/path") (bytes "HTTP/1.1")
        (join_crlf ([(bytes "Host", bytes "example.com")].map header_text)) (bytes "body")) =
        .value r ∧
      r.method = bytes "GET" ∧ r.url = bytes "/path" ∧ r.version = bytes "HTTP/1.1" ∧
      r.body = bytes "body" ∧ r.headers.size = [(bytes "Host", bytes "example.com")].length ∧
      (∀ p ∈ [(bytes "Host", bytes "example.com")], r.headers.find p.1 = some p.2) ∧
      (∀ k, (∀ p ∈ [(bytes "Host", bytes "example.com")], p.1 ≠ k) → r.headers.find k = none) :=
  parse_well_formed_request (bytes "GET") (bytes "/path") (bytes "HTTP/1.1") (bytes "body")
    [(bytes "Host", bytes "example.com")] (by decide) (by decide) (by decide) (by decide)
    (by decide) (by decide) (by decide)

/-- C7, on the code: a request line followed at once by the blank line. The growable
`parse_http_request` takes the `"\r\n"` after the request line as the end of the version
and the next `"\r\n"` as a line break inside the header block, so the loop ends in the
headers state with the block `"\r\n" ++ b`; its first line is empty, `find` returns `npos`
and `substr(npos + 2)`, that is `substr(1)`, throws `std::out_of_range` on the empty line.
No `Request` is returned (here for a body without `'\r'` and NUL). -/
theorem parse_without_header_lines (m t v b : Str)
    (hm : m.length ≤ 32 ∧ ∀ c ∈ m, c ≠ 0 ∧ c ≠ 32)
    (ht : t.length ≤ 1024 ∧ ∀ c ∈ t, c ≠ 0 ∧ c ≠ 32)
    (hv : v.length ≤ 32 ∧ ∀ c ∈ v, c ≠ 0 ∧ c ≠ 13)
    (hb : ∀ c ∈ b, c ≠ 0 ∧ c ≠ 13) :
    parse_http_request (m ++ 32 :: (t ++ 32 :: (v ++ 13 :: 10 :: 13 :: 10 :: b))) =
      .out_of_range := by
  rw [parse_http_request_eq_scan,
    scan_method_token m _ hm.2 _ _ (by simp [init, METHOD_MAX_LEN]; exact hm.1),
    scan_url_token t _ ht.2 _ _ (by simp [init, URL_MAX_LEN]; exact ht.1),
    scan_version_token v _ hv.2 _ _ (by simp [init, VERSION_MAX_LEN]; exact hv.1)]
  have h1 : ∀ (req : Request), scan .headers req [] (13 :: 10 :: b) =
      .ok (.headers, req, 13 :: 10 :: b) := by
    intro req
    rcases b with _ | ⟨c, b'⟩
    · simp [scan]
    · have hc := hb c (by simp)
      rw [scan_headers_crlf _ _ _ _ hc.2]
      have := scan_headers_line (c :: b') [] hb req ([] ++ [13, 10])
      simp only [List.append_nil] at this
      rw [this]
      simp [scan]
  rw [h1]
  simp only [parse_http_headers_leading_crlf]

/-- C7 at `"GET / HTTP/1.1\r\n\r\nbody"`: the exception leaves the call. -/
theorem parse_without_header_lines_witness :
    parse_http_request (bytes "GET / HTTP/1.1\r\n\r\nbody") = .out_of_range :=
  parse_without_header_lines (bytes "GET") (bytes "/") (bytes "HTTP/1.1") (bytes "body")
    (by decide) (by decide) (by decide) (by decide)

/-- C8: first occurrence wins. For header lines `name ++ ": " ++ value` of the pairs `ps`,
in which a name may occur several times (no name contains `": "`, no line contains `'\r'`
or NUL), `parse_http_headers` returns a mapping that associates every name with the value
of the first line with this name; `emplace` on a name that is present changes nothing; and
`parse_http_request` on a request with these header lines returns this mapping. -/
theorem first_header_occurrence_wins (ps : List (Str × Str))
    (hsep : ∀ p ∈ ps, ¬ [58, 32] <:+: p.1)
    (hlines : ∀ p ∈ ps, ∀ c ∈ header_text p, c ≠ 0 ∧ c ≠ 13) :
    (∃ h, parse_http_headers (join_crlf (ps.map header_text)) = some h ∧
      (∀ pre post name value, ps = pre ++ (name, value) :: post → (∀ p ∈ pre, p.1 ≠ name) →
        h.find name = some value) ∧
      (∀ m t v b : Str, (m.length ≤ 32 ∧ ∀ c ∈ m, c ≠ 0 ∧ c ≠ 32) →
        (t.length ≤ 1024 ∧ ∀ c ∈ t, c ≠ 0 ∧ c ≠ 32) →
        (v.length ≤ 32 ∧ ∀ c ∈ v, c ≠ 0 ∧ c ≠ 13) → (∀ c ∈ b, c ≠ 0) →
        parse_http_request (request_text m t v (join_crlf (ps.map header_text)) b) =
          .value { method := m, url := t, version := v, headers := h, body := b })) ∧
    (∀ (h : StdMap) (name value old : Str), h.find name = some old →
      h.emplace name value = h) := by
  refine ⟨⟨_, parse_http_headers_join ps hsep hlines, ?_, ?_⟩, ?_⟩
  · intro pre post name value hps hpre
    rw [find_foldl_emplace]
    have : StdMap.find { entries := [] } name = none := rfl
    simp only [this]
    rw [List.lookup_eq_some_iff]
    exact ⟨pre, post, hps, fun p hp => by simpa using (hpre p hp).symm⟩
  · intro m t v b hm ht hv hb
    have hscan := scan_request_text m t v b (ps.map header_text) hm ht hv
      (by
        intro x hx
        obtain ⟨p, hp, rfl⟩ := List.mem_map.mp hx
        exact ⟨by simp [header_text], hlines p hp⟩) hb
    rw [parse_http_request_eq_scan, hscan]
    simp only [parse_http_headers_join ps hsep hlines]
  · intro h name value old hold
    simp [StdMap.emplace, hold]

/-- C8 at the lines `Host: a` and `Host: b`: `headers["Host"]` is `a`. -/
theorem first_header_occurrence_wins_witness :
    ∃ h, parse_http_headers (bytes "Host: a\r\nHost: b") = some h ∧
      h.find (bytes "Host") = some (bytes "a") ∧ h.size = 1 := by
  obtain ⟨⟨h, hh, hfirst, _⟩, _⟩ := first_header_occurrence_wins
    [(bytes "Host", bytes "a"), (bytes "Host", bytes "b")] (by decide) (by decide)
  refine ⟨h, hh, hfirst [] [(bytes "Host", bytes "b")] (bytes "Host") (bytes "a") rfl
    (by simp), ?_⟩
  have hd : parse_http_headers (bytes "Host: a\r\nHost: b") =
      some { entries := [(bytes "Host", bytes "a")] } := by decide
  have he : join_crlf ([(bytes "Host", bytes "a"), (bytes "Host", bytes "b")].map header_text) =
      bytes "Host: a\r\nHost: b" := by decide
  rw [he, hd] at hh
  cases hh
  rfl

/-- C9, what the code does: a header line without `": "` is accepted. On the request
`"GET / HTTP/1.1\r\nabc\r\n\r\nbody"`, whose only header line `abc` has no separator,
`parse_http_request` returns a `Request`, and the line has become the mapping entry
`abc -> bc`. -/
theorem header_line_without_separator_counterexample :
    parse_http_request (bytes "GET / HTTP/1.1\r\nabc\r\n\r\nbody") =
      .value { method := bytes "GET", url := bytes "/", version := bytes "HTTP/1.1",
               headers := { entries := [(bytes "abc", bytes "bc")] }, body := bytes "body" } := by
  decide

/-- C9, amended: a request whose header block consists of non-empty lines (without `'\r'`
and NUL), one of which has no `": "` separator, is not rejected: `parse_http_request`
reports no error for the line (`ParseError` has no such kind) and returns a `Request` with
the method, target, version and body of the request. -/
theorem header_line_without_separator_accepted (m t v b : Str) (lines : List Str)
    (hm : m.length ≤ 32 ∧ ∀ c ∈ m, c ≠ 0 ∧ c ≠ 32)
    (ht : t.length ≤ 1024 ∧ ∀ c ∈ t, c ≠ 0 ∧ c ≠ 32)
    (hv : v.length ≤ 32 ∧ ∀ c ∈ v, c ≠ 0 ∧ c ≠ 13)
    (hlines : ∀ x ∈ lines, x ≠ [] ∧ ∀ c ∈ x, c ≠ 0 ∧ c ≠ 13)
    (_hbad : ∃ x ∈ lines, ¬ [58, 32] <:+: x)
    (hb : ∀ c ∈ b, c ≠ 0) :
    ∃ r, parse_http_request (request_text m t v (join_crlf lines) b) = .value r ∧
      r.method = m ∧ r.url = t ∧ r.version = v ∧ r.body = b := by
  have hscan := scan_request_text m t v b lines hm ht hv hlines hb
  obtain ⟨h, hh⟩ : ∃ h, parse_http_headers (join_crlf lines) = some h := by
    unfold parse_http_headers
    rw [views_split_join lines (fun x hx c hc => ((hlines x hx).2 c hc).2)
      (fun x hx => (hlines x hx).1)]
    exact header_lines_of_ne_nil lines (fun x hx => (hlines x hx).1) _
  refine ⟨{ method := m, url := t, version := v, headers := h, body := b }, ?_, rfl, rfl, rfl,
    rfl⟩
  rw [parse_http_request_eq_scan, hscan]
  simp only [hh]

/-- C9, amended, at `"GET / HTTP/1.1\r\nabc\r\n\r\nbody"`. -/
theorem header_line_without_separator_accepted_witness :
    ∃ r, parse_http_request (request_text (bytes "GET") (bytes "/") (bytes "HTTP/1.1")
        (join_crlf [bytes "abc"]) (bytes "body")) = .value r ∧
      r.method = bytes "GET" ∧ r.url = bytes "/" ∧ r.version = bytes "HTTP/1.1" ∧
      r.body = bytes "body" :=
  header_line_without_separator_accepted (bytes "GET") (bytes "/") (bytes "HTTP/1.1")
    (bytes "body") [bytes "abc"] (by decide) (by decide) (by decide) (by decide)
    ⟨bytes "abc", by decide, by decide⟩ (by decide)

/-! ### Properties of the decoder and of the loop as functions of the input -/

theorem decode_from_append : ∀ (n : Nat) (a : Str), a.length ≤ n → ∀ (a' b : Str),
    decode_from a = .ok a' →
    decode_from (a ++ b) =
      match decode_from b with
      | .ok b' => .ok (a' ++ b')
      | .error e => .error e := by
  intro n
  induction n with
  | zero =>
    intro a ha a' b h
    have : a = [] := List.length_eq_zero.mp (by omega)
    subst this
    simp [decode_from] at h
    subst h
    cases hb : decode_from b <;> simp [hb]
  | succ n ih =>
    intro a ha a' b h
    rcases a with _ | ⟨c, rest⟩
    · simp [decode_from] at h
      subst h
      cases hb : decode_from b <;> simp [hb]
    · by_cases hc : c = 37
      · subst hc
        rcases rest with _ | ⟨x, _ | ⟨y, rest'⟩⟩
        · simp [decode_from] at h
        · simp [decode_from] at h
        · rw [decode_from.eq_def] at h
          simp only [if_true] at h
          rw [List.cons_append, List.cons_append, List.cons_append, decode_from.eq_def]
          simp only [if_true]
          cases hx : hex_to_decimal x with
          | error e => simp [hx] at h
          | ok p1 =>
            cases hy : hex_to_decimal y with
            | error e => simp [hx, hy] at h
            | ok p2 =>
              simp only [hx, hy] at h ⊢
              cases hr : decode_from rest' with
              | error e => simp [hr] at h
              | ok r =>
                simp only [hr, Except.ok.injEq] at h
                subst h
                rw [ih rest' (by simp at ha; omega) r b hr]
                cases decode_from b <;> simp
      · rw [decode_from.eq_def] at h
        simp only [hc, if_false] at h
        rw [List.cons_append, decode_from.eq_def]
        simp only [hc, if_false]
        cases hr : decode_from rest with
        | error e => simp [hr] at h
        | ok r =>
          simp only [hr, Except.ok.injEq] at h
          subst h
          rw [ih rest (by simpa using ha) r b hr]
          cases decode_from b <;> simp

theorem decode_from_no_percent (s : Str) (h : ∀ c ∈ s, c ≠ 37) : decode_from s = .ok s := by
  induction s with
  | nil => simp [decode_from]
  | cons c s ih =>
    rw [decode_from.eq_def]
    simp only [h c (by simp), if_false, ih (fun x hx => h x (by simp [hx]))]

/-- C20: `percent_encoding_url_decode` distributes over concatenation after a successful
first part. When the decoding of `a` succeeds with `a'`, the decoding of `a ++ b` fails
exactly when the decoding of `b` fails, and otherwise it is `a' ++ b'` for the decoding `b'`
of `b`. In particular a string without `%` decodes to itself. -/
theorem percent_decode_append (a b a' : Str) (ha : percent_encoding_url_decode a = .ok a') :
    ((∃ e, percent_encoding_url_decode (a ++ b) = .error e) ↔
      ∃ e, percent_encoding_url_decode b = .error e) ∧
    (∀ b', percent_encoding_url_decode b = .ok b' →
      percent_encoding_url_decode (a ++ b) = .ok (a' ++ b')) ∧
    (∀ s : Str, (∀ c ∈ s, c ≠ 37) → percent_encoding_url_decode s = .ok s) := by
  simp only [percent_encoding_url_decode_eq] at ha ⊢
  have h := decode_from_append a.length a le_rfl a' b ha
  refine ⟨?_, ?_, decode_from_no_percent⟩
  · rw [h]
    cases decode_from b <;> simp
  · intro b' hb
    rw [h, hb]

/-- C20 at `a = "%41"` and `b = "b%4a"`. -/
theorem percent_decode_append_witness :
    percent_encoding_url_decode (bytes "%41" ++ bytes "b%4a") = .ok (bytes "A" ++ bytes "bJ") :=
  (percent_decode_append (bytes "%41") (bytes "b%4a") (bytes "A") (by decide)).2.1 (bytes "bJ")
    (by decide)

theorem before_nul_of_no_nul (b : Str) (hb : ∀ c ∈ b, c ≠ 0) : before_nul b = b := by
  induction b with
  | nil => rfl
  | cons c b ih => simp [before_nul, hb c (by simp), ih (fun x hx => hb x (by simp [hx]))]

/-- The body state copies the bytes up to the first NUL byte, and the loop ends there. -/
theorem scan_body_before_nul (r : Str) : ∀ (req : Request) (hdrs : Str),
    scan .body req hdrs r = .ok (.body, { req with body := req.body ++ before_nul r }, hdrs) := by
  induction r with
  | nil => intro req hdrs; simp [scan, before_nul]
  | cons c r ih =>
    intro req hdrs
    rw [scan.eq_def]
    by_cases hc : c = 0
    · simp [hc, before_nul]
    · simp only [hc, if_false, before_nul]
      rw [ih]
      simp

/-- From the result of `scan` on the whole input to the machine the loop ends with. -/
theorem loop_of_scan (data : Str) (st : ParseState) (req : Request) (hdrs : Str)
    (h : scan .method init.req [] data = .ok (st, req, hdrs)) :
    ∃ m, loop data data.length init = .ok m ∧ m.state = st ∧ m.req = req ∧ m.headers = hdrs := by
  have hb := loop_eq_scan data data.length init (by simp [init])
  have e1 : init.state = ParseState.method := rfl
  have e2 : init.headers = [] := rfl
  have e3 : init.ptr = 0 := rfl
  rw [e1, e2, e3, List.drop_zero, h] at hb
  cases hl : loop data data.length init with
  | error e => rw [hl] at hb; simp at hb
  | ok m =>
    rw [hl] at hb
    simp only [Except.ok.injEq, Prod.mk.injEq] at hb
    exact ⟨m, rfl, hb.1, hb.2.1, hb.2.2⟩

/-- The loop up to the body state on a request whose header lines hold no `'\r'` and no NUL
and, the first apart, are not empty; the bytes `r` after the blank line are arbitrary. -/
theorem scan_request_head (m t v r : Str) (lines : List Str)
    (hm : m.length ≤ 32 ∧ ∀ c ∈ m, c ≠ 0 ∧ c ≠ 32)
    (ht : t.length ≤ 1024 ∧ ∀ c ∈ t, c ≠ 0 ∧ c ≠ 32)
    (hv : v.length ≤ 32 ∧ ∀ c ∈ v, c ≠ 0 ∧ c ≠ 13)
    (hlines : ∀ x ∈ lines, ∀ c ∈ x, c ≠ 0 ∧ c ≠ 13)
    (hne : ∀ x ∈ lines.tail, x ≠ []) :
    scan .method init.req [] (request_text m t v (join_crlf lines) r) =
      .ok (.body, { method := m, url := t, version := v, headers := { entries := [] },
                    body := before_nul r }, join_crlf lines) := by
  unfold request_text
  rw [scan_method_token m _ hm.2 _ _ (by simp [init, METHOD_MAX_LEN]; exact hm.1),
    scan_url_token t _ ht.2 _ _ (by simp [init, URL_MAX_LEN]; exact ht.1),
    scan_version_token v _ hv.2 _ _ (by simp [init, VERSION_MAX_LEN]; exact hv.1)]
  rcases lines with _ | ⟨l, lines⟩
  · simp only [join_crlf, List.nil_append]
    rw [scan_headers_end, scan_body_before_nul]
    simp [init]
  · rw [scan_headers_block r lines l hlines (by simpa using hne), scan_body_before_nul]
    simp [init]

/-- The request returned for a request line, header lines of the pairs `ps`, the blank line
and arbitrary remaining bytes `r`. -/
theorem parse_request_head (m t v r : Str) (ps : List (Str × Str))
    (hm : m.length ≤ 32 ∧ ∀ c ∈ m, c ≠ 0 ∧ c ≠ 32)
    (ht : t.length ≤ 1024 ∧ ∀ c ∈ t, c ≠ 0 ∧ c ≠ 32)
    (hv : v.length ≤ 32 ∧ ∀ c ∈ v, c ≠ 0 ∧ c ≠ 13)
    (hsep : ∀ p ∈ ps, ¬ [58, 32] <:+: p.1)
    (hlines : ∀ p ∈ ps, ∀ c ∈ header_text p, c ≠ 0 ∧ c ≠ 13) :
    parse_http_request (request_text m t v (join_crlf (ps.map header_text)) r) =
      .value { method := m, url := t, version := v,
               headers := ps.foldl (fun m p => m.emplace p.1 p.2) { entries := [] },
               body := before_nul r } := by
  have hscan := scan_request_head m t v r (ps.map header_text) hm ht hv
    (by
      intro x hx
      obtain ⟨p, hp, rfl⟩ := List.mem_map.mp hx
      exact hlines p hp)
    (by
      intro x hx
      obtain ⟨p, _, rfl⟩ := List.mem_map.mp (List.mem_of_mem_tail hx)
      simp [header_text])
  have hh := parse_http_headers_join ps hsep hlines
  rw [parse_http_request_eq_scan, hscan]
  simp only [hh]

/-- C12, what the code does: a NUL byte ends the body and the parse. On a request whose
bytes after the blank line are `a`, `b`, NUL, `c`, `d`, `parse_http_request` returns the
body `ab`. -/
theorem body_with_nul_counterexample :
    parse_http_request (bytes "GET / HTTP/1.1\r\nHost: x\r\n\r\nab" ++ 0 :: bytes "cd") =
      .value { method := bytes "GET", url := bytes "/", version := bytes "HTTP/1.1",
               headers := { entries := [(bytes "Host", bytes "x")] }, body := bytes "ab" } := by
  decide

/-- C12, amended: for a well-formed request line and header block (header lines of the
pairs `ps`), the blank line and arbitrary remaining bytes `r`, `parse_http_request` returns
as body the bytes of `r` before its first NUL byte, copied verbatim; that is all of `r`
when `r` holds no NUL byte. -/
theorem body_up_to_first_nul (m t v r : Str) (ps : List (Str × Str))
    (hm : m.length ≤ 32 ∧ ∀ c ∈ m, c ≠ 0 ∧ c ≠ 32)
    (ht : t.length ≤ 1024 ∧ ∀ c ∈ t, c ≠ 0 ∧ c ≠ 32)
    (hv : v.length ≤ 32 ∧ ∀ c ∈ v, c ≠ 0 ∧ c ≠ 13)
    (hsep : ∀ p ∈ ps, ¬ [58, 32] <:+: p.1)
    (hlines : ∀ p ∈ ps, ∀ c ∈ header_text p, c ≠ 0 ∧ c ≠ 13) :
    (∃ q, parse_http_request (request_text m t v (join_crlf (ps.map header_text)) r) = .value q ∧
      q.method = m ∧ q.url = t ∧ q.version = v ∧ q.body = before_nul r) ∧
    ((∀ c ∈ r, c ≠ 0) → before_nul r = r) := by
  exact ⟨⟨_, parse_request_head m t v r ps hm ht hv hsep hlines, rfl, rfl, rfl, rfl⟩,
    before_nul_of_no_nul r⟩

/-- C12, amended, at the remaining bytes `a`, `b`, NUL, `c`, `d`. -/
theorem body_up_to_first_nul_witness :
    ∃ q, parse_http_request (request_text (bytes "GET") (bytes "/") (bytes "HTTP/1.1")
        (join_crlf ([(bytes "Host", bytes "x")].map header_text)) (bytes "ab" ++ 0 :: bytes "cd")) =
        .value q ∧
      q.method = bytes "GET" ∧ q.url = bytes "/" ∧ q.version = bytes "HTTP/1.1" ∧
      q.body = before_nul (bytes "ab" ++ 0 :: bytes "cd") :=
  (body_up_to_first_nul (bytes "GET") (bytes "/") (bytes "HTTP/1.1")
    (bytes "ab" ++ 0 :: bytes "cd") [(bytes "Host", bytes "x")] (by decide) (by decide)
    (by decide) (by decide) (by decide)).1

/-- The header block in the growable variant, for a request with the header lines
`l :: lines` (no line contains `'\r'` or NUL, no line after the first is empty) terminated
by the blank line: the loop reaches the body state and the raw header block, which is then
passed to `parse_http_headers`, is the lines joined by `"\r\n"`. -/
theorem loop_header_block (m t v b l : Str) (lines : List Str)
    (hm : m.length ≤ 32 ∧ ∀ c ∈ m, c ≠ 0 ∧ c ≠ 32)
    (ht : t.length ≤ 1024 ∧ ∀ c ∈ t, c ≠ 0 ∧ c ≠ 32)
    (hv : v.length ≤ 32 ∧ ∀ c ∈ v, c ≠ 0 ∧ c ≠ 13)
    (hlines : ∀ x ∈ l :: lines, ∀ c ∈ x, c ≠ 0 ∧ c ≠ 13)
    (hne : ∀ x ∈ lines, x ≠ []) :
    ∃ mach, loop (request_text m t v (join_crlf (l :: lines)) b)
        (request_text m t v (join_crlf (l :: lines)) b).length init = .ok mach ∧
      mach.state = .body ∧ mach.headers = join_crlf (l :: lines) := by
  have hscan := scan_request_head m t v b (l :: lines) hm ht hv hlines (by simpa using hne)
  obtain ⟨mach, h1, h2, _, h4⟩ := loop_of_scan _ _ _ _ hscan
  exact ⟨mach, h1, h2, h4⟩

theorem cr_followed_by_lf_append (h x : Str) (hh : cr_followed_by_lf h)
    (hx : cr_followed_by_lf x) : cr_followed_by_lf (h ++ x) := by
  intro i hi h13
  by_cases hlt : i < h.length
  · rw [List.getD_append _ _ _ _ hlt] at h13
    obtain ⟨h1, h2⟩ := hh i hlt h13
    exact ⟨by simp; omega, by rw [List.getD_append _ _ _ _ h1]; exact h2⟩
  · rw [List.getD_append_right _ _ _ _ (by omega)] at h13
    have hi' : i - h.length < x.length := by simp at hi; omega
    obtain ⟨h1, h2⟩ := hx (i - h.length) hi' h13
    refine ⟨by simp; omega, ?_⟩
    rw [List.getD_append_right _ _ _ _ (by omega)]
    rw [show i + 1 - h.length = i - h.length + 1 by omega]
    exact h2

theorem cr_followed_by_lf_char (c : Nat) (hc : c ≠ 13) : cr_followed_by_lf [c] := by
  intro i hi h13
  have : i = 0 := by simpa using hi
  subst this
  simp at h13
  exact absurd h13 hc

theorem cr_followed_by_lf_crlf : cr_followed_by_lf [13, 10] := by
  intro i hi h13
  have : i = 0 ∨ i = 1 := by simp at hi; omega
  rcases this with rfl | rfl <;> simp at h13 ⊢

theorem cr_followed_by_lf_nil : cr_followed_by_lf [] := by
  intro i hi; simp at hi

/-- The loop of the growable `parse_http_request` on a NUL-free input neither drops nor
adds a byte: what was consumed before, followed by the bytes still to be read, is what has
been consumed at the end. -/
theorem scan_consumed : ∀ (n : Nat) (s : Str), s.length ≤ n → (∀ c ∈ s, c ≠ 0) →
    ∀ (st : ParseState) (req : Request) (hdrs : Str) (st' : ParseState) (req' : Request)
      (hdrs' : Str),
    scan st req hdrs s = .ok (st', req', hdrs') → well_split st req hdrs →
    consumed st req hdrs ++ s = consumed st' req' hdrs' ∧ well_split st' req' hdrs' := by
  intro n
  induction n with
  | zero =>
    intro s hs _ st req hdrs st' req' hdrs' h hw
    have : s = [] := List.length_eq_zero.mp (by omega)
    subst this
    simp only [scan, Except.ok.injEq, Prod.mk.injEq] at h
    obtain ⟨rfl, rfl, rfl⟩ := h
    exact ⟨by simp, hw⟩
  | succ n ih =>
    intro s hs hnul st req hdrs st' req' hdrs' h hw
    rcases s with _ | ⟨c, rest⟩
    · simp only [scan, Except.ok.injEq, Prod.mk.injEq] at h
      obtain ⟨rfl, rfl, rfl⟩ := h
      exact ⟨by simp, hw⟩
    · have hr : rest.length ≤ n := by simpa using hs
      have h0 : c ≠ 0 := hnul c (by simp)
      have hnr : ∀ x ∈ rest, x ≠ 0 := fun x hx => hnul x (by simp [hx])
      obtain ⟨w1, w2, w3, w4, w5, w6, w7, w8⟩ := hw
      cases st with
      | method =>
        rw [scan.eq_def] at h
        simp only [h0, if_false] at h
        split_ifs at h with h32 hfull
        · subst h32
          have := ih rest hr hnr _ _ _ _ _ _ h
            ⟨w1, w2, w3, w4, by simp, by simp [w6], by simp [w7], by simp [w8]⟩
          refine ⟨?_, this.2⟩
          rw [← this.1]
          simp [consumed, w5 rfl]
        · have := ih rest hr hnr _ _ _ _ _ _ h
            ⟨by
              intro x hx
              rcases List.mem_append.mp hx with hx | hx
              · exact w1 x hx
              · simp at hx; omega,
             w2, w3, w4, by simp [w5], by simp [w6], by simp [w7], by simp [w8]⟩
          refine ⟨?_, this.2⟩
          rw [← this.1]
          simp [consumed]
      | url =>
        rw [scan.eq_def] at h
        simp only [h0, if_false] at h
        split_ifs at h with h32 hfull
        · subst h32
          have := ih rest hr hnr _ _ _ _ _ _ h
            ⟨w1, w2, w3, w4, by simp, by simp, by simp [w7], by simp [w8]⟩
          refine ⟨?_, this.2⟩
          rw [← this.1]
          simp [consumed, w6 (Or.inr rfl)]
        · have := ih rest hr hnr _ _ _ _ _ _ h
            ⟨w1, by
              intro x hx
              rcases List.mem_append.mp hx with hx | hx
              · exact w2 x hx
              · simp at hx; omega,
             w3, w4, by simp, by simp [w6], by simp [w7], by simp [w8]⟩
          refine ⟨?_, this.2⟩
          rw [← this.1]
          simp [consumed]
      | version =>
        rw [scan.eq_def] at h
        simp only [h0, if_false] at h
        split_ifs at h with h13 hfull
        · subst h13
          rcases rest with _ | ⟨d, rest1⟩
          · simp at h
          · simp only at h
            split_ifs at h with hd
            have hd' : d = 10 := by simpa using hd
            subst hd'
            have := ih rest1 (by simp at hr; omega) (fun x hx => hnr x (by simp [hx]))
              _ _ _ _ _ _ h ⟨w1, w2, w3, w4, by simp, by simp, by simp, by simp [w8]⟩
            refine ⟨?_, this.2⟩
            rw [← this.1]
            simp [consumed, w7 (Or.inr (Or.inr rfl))]
        · have := ih rest hr hnr _ _ _ _ _ _ h
            ⟨w1, w2, by
              intro x hx
              rcases List.mem_append.mp hx with hx | hx
              · exact w3 x hx
              · simp at hx; omega,
             w4, by simp, by simp, by simp [w7], by simp [w8]⟩
          refine ⟨?_, this.2⟩
          rw [← this.1]
          simp [consumed]
      | headers =>
        have wcrlf : well_split .headers req (hdrs ++ [13, 10]) :=
          ⟨w1, w2, w3, cr_followed_by_lf_append _ _ w4 cr_followed_by_lf_crlf, by simp, by simp,
            by simp, by simp [w8]⟩
        by_cases h13 : c = 13
        · subst h13
          rcases rest with _ | ⟨d, _ | ⟨e, _ | ⟨f, rest2⟩⟩⟩
          · simp [scan] at h
          · rw [scan.eq_def] at h
            simp only [h0, if_false, if_true] at h
            split_ifs at h with hd
            have hd' : d = 10 := by simpa using hd
            subst hd'
            have := ih [] (by simp) (by simp) _ _ _ _ _ _ h wcrlf
            refine ⟨?_, this.2⟩
            rw [← this.1]
            simp [consumed]
          · rw [scan.eq_def] at h
            simp only [h0, if_false, if_true] at h
            split_ifs at h with hd
            have hd' : d = 10 := by simpa using hd
            subst hd'
            have := ih [e] (by simp at hr ⊢; omega) (fun x hx => hnr x (by simp at hx ⊢; simp [hx]))
              _ _ _ _ _ _ h wcrlf
            refine ⟨?_, this.2⟩
            rw [← this.1]
            simp [consumed]
          · rw [scan.eq_def] at h
            simp only [h0, if_false, if_true] at h
            split_ifs at h with hd hterm
            · have hd' : d = 10 := by simpa using hd
              subst hd'
              obtain ⟨rfl, rfl⟩ := hterm
              have := ih rest2 (by simp at hr; omega) (fun x hx => hnr x (by simp [hx]))
                _ _ _ _ _ _ h ⟨w1, w2, w3, w4, by simp, by simp, by simp, by simp⟩
              refine ⟨?_, this.2⟩
              rw [← this.1]
              simp [consumed, request_text, w8 (by simp)]
            · have hd' : d = 10 := by simpa using hd
              subst hd'
              have := ih (e :: f :: rest2) (by simp at hr ⊢; omega)
                (fun x hx => hnr x (by simp at hx ⊢; tauto)) _ _ _ _ _ _ h wcrlf
              refine ⟨?_, this.2⟩
              rw [← this.1]
              simp [consumed]
        · rw [scan.eq_def] at h
          simp only [h0, h13, if_false] at h
          have := ih rest hr hnr _ _ _ _ _ _ h
            ⟨w1, w2, w3, cr_followed_by_lf_append _ _ w4 (cr_followed_by_lf_char c h13),
              by simp, by simp, by simp, by simp [w8]⟩
          refine ⟨?_, this.2⟩
          rw [← this.1]
          simp [consumed]
      | body =>
        rw [scan.eq_def] at h
        simp only [h0, if_false] at h
        have := ih rest hr hnr _ _ _ _ _ _ h
          ⟨w1, w2, w3, w4, by simp, by simp, by simp, by simp⟩
        refine ⟨?_, this.2⟩
        rw [← this.1]
        simp [consumed, request_text]

/-- C19: reconstruction. For a NUL-free input `s` on which the growable
`parse_http_request` returns a `Request` `r` with a non-empty body there is a header block
`H`, in which every `'\r'` is immediately followed by `'\n'`, with
`s = method ++ " " ++ url ++ " " ++ version ++ "\r\n" ++ H ++ "\r\n\r\n" ++ body`; the
method and the url hold no space and the version holds no `'\r'`. -/
theorem request_reconstruction (s : Str) (r : Request) (hs : ∀ c ∈ s, c ≠ 0)
    (hp : parse_http_request s = .value r) (hb : r.body ≠ []) :
    ∃ H, cr_followed_by_lf H ∧ s = request_text r.method r.url r.version H r.body ∧
      (∀ c ∈ r.method, c ≠ 32) ∧ (∀ c ∈ r.url, c ≠ 32) ∧ (∀ c ∈ r.version, c ≠ 13) := by
  rw [parse_http_request_eq_scan] at hp
  cases hscan : scan .method init.req [] s with
  | error e => simp [hscan] at hp
  | ok x =>
    obtain ⟨st, req, hdrs⟩ := x
    simp only [hscan] at hp
    cases hh : parse_http_headers hdrs with
    | none => simp [hh] at hp
    | some h =>
      simp only [hh, Outcome.value.injEq] at hp
      subst hp
      simp only at hb ⊢
      have hw0 : well_split .method init.req [] :=
        ⟨by simp [init], by simp [init], by simp [init], cr_followed_by_lf_nil,
          by simp [init], by simp [init], by simp, by simp [init]⟩
      obtain ⟨heq, w1, w2, w3, w4, _, _, _, w8⟩ :=
        scan_consumed s.length s le_rfl hs _ _ _ _ _ _ hscan hw0
      have hst : st = .body := by
        by_contra hne
        exact hb (w8 hne)
      subst hst
      refine ⟨hdrs, w4, ?_, w1, w2, w3⟩
      simpa [consumed, init] using heq

/-- C19 at a request with two header lines. -/
theorem request_reconstruction_witness :
    ∃ H, cr_followed_by_lf H ∧
      bytes "GET /path HTTP/1.1\r\nHost: example.com\r\nA: b\r\n\r\nbody" =
        request_text (bytes "GET") (bytes "/path") (bytes "HTTP/1.1") H (bytes "body") ∧
      (∀ c ∈ bytes "GET", c ≠ 32) ∧ (∀ c ∈ bytes "/path", c ≠ 32) ∧
      (∀ c ∈ bytes "HTTP/1.1", c ≠ 13) :=
  request_reconstruction (bytes "GET /path HTTP/1.1\r\nHost: example.com\r\nA: b\r\n\r\nbody")
    { method := bytes "GET", url := bytes "/path", version := bytes "HTTP/1.1",
      headers := { entries := [(bytes "Host", bytes "example.com"), (bytes "A", bytes "b")] },
      body := bytes "body" } (by decide) (by decide) (by decide)

/-! ### What every reachable machine satisfies -/

theorem step_lengths (data : Str) (m m' : Machine) (h : step data m = .ok m')
    (hi : m.req.method.length ≤ 32 ∧ m.req.url.length ≤ 1024 ∧ m.req.version.length ≤ 32) :
    m'.req.method.length ≤ 32 ∧ m'.req.url.length ≤ 1024 ∧ m'.req.version.length ≤ 32 := by
  unfold step at h
  simp only [METHOD_MAX_LEN, URL_MAX_LEN, VERSION_MAX_LEN] at h
  split at h <;> (try split_ifs at h) <;> simp at h <;> subst h <;> simp <;> omega

/-- A property that the start machine has and every iteration keeps holds of every machine
the loop reaches. -/
theorem loop_invariant (data : Str) (P : Machine → Prop)
    (hstep : ∀ m m', c_str data m.ptr ≠ 0 → step data m = .ok m' → P m → P m') :
    ∀ (k : Nat) (m0 m : Machine), loop data k m0 = .ok m → P m0 → P m := by
  intro k
  induction k with
  | zero => intro m0 m h hp; simp [loop] at h; subst h; exact hp
  | succ k ih =>
    intro m0 m h hp
    simp only [loop] at h
    split_ifs at h with h0
    · simp at h; subst h; exact hp
    · cases hs : step data m0 with
      | error e => simp [hs] at h
      | ok m1 =>
        simp only [hs] at h
        exact ih m1 m h (hstep m0 m1 h0 hs hp)

theorem loop_lengths (data : Str) (k : Nat) (m : Machine) (h : loop data k init = .ok m) :
    m.req.method.length ≤ 32 ∧ m.req.url.length ≤ 1024 ∧ m.req.version.length ≤ 32 :=
  loop_invariant data _ (fun m m' _ hs hi => step_lengths data m m' hs hi) k init m h
    (by simp [init])

theorem step_ptr_le (data : Str) (m m' : Machine) (h0 : c_str data m.ptr ≠ 0)
    (h : step data m = .ok m') :
    m'.ptr ≤ data.length ∧ (m'.ptr = m.ptr + 1 ∨ m'.ptr = m.ptr + 2 ∨ m'.ptr = m.ptr + 4) := by
  have hp := lt_length_of_c_str_ne_zero data m.ptr h0
  unfold step at h
  split at h <;> (try split_ifs at h) <;> simp at h <;> subst h <;> simp
  all_goals first
    | omega
    | (have hlt := lt_length_of_c_str_ne_zero data (m.ptr + 1) (by omega); omega)
    | (have hlt := lt_length_of_c_str_ne_zero data (m.ptr + 3) (by omega); omega)

theorem step_reads_le (data : Str) (m : Machine) (h0 : c_str data m.ptr ≠ 0) :
    ∀ i ∈ step_reads data m, i ≤ data.length := by
  have hp := lt_length_of_c_str_ne_zero data m.ptr h0
  intro i hi
  unfold step_reads at hi
  split at hi <;> (try split_ifs at hi) <;> simp at hi
  all_goals first
    | omega
    | (have hlt := lt_length_of_c_str_ne_zero data (m.ptr + 1) (by omega)
       have := lt_length_of_c_str_ne_zero data (m.ptr + 2) (by omega); omega)
    | (have hlt := lt_length_of_c_str_ne_zero data (m.ptr + 1) (by omega); omega)

/-- An iteration depends on the input only through the bytes at the indices of
`step_reads`. -/
theorem step_reads_suffice (data data' : Str) (m : Machine)
    (h : ∀ i ∈ step_reads data m, c_str data i = c_str data' i) :
    step data m = step data' m := by
  unfold step_reads at h
  unfold step
  split at h <;> rename_i hst <;> simp only [hst]
  · simp [← h]
  · simp [← h]
  · split_ifs at h with h1 <;> simp at h <;> simp [← h, h1]
  · split_ifs at h <;> simp at h <;> simp_all
  · simp [← h]

theorem loop_ptr_le (data : Str) (k : Nat) (m : Machine) (h : loop data k init = .ok m) :
    m.ptr ≤ data.length :=
  loop_invariant data (fun m => m.ptr ≤ data.length)
    (fun m m' h0 hs _ => (step_ptr_le data m m' h0 hs).1) k init m h (by simp [init])

theorem step_no_nul_before (data : Str) (m m' : Machine) (h0 : c_str data m.ptr ≠ 0)
    (h : step data m = .ok m') (hi : ∀ j, j < m.ptr → c_str data j ≠ 0) :
    ∀ j, j < m'.ptr → c_str data j ≠ 0 := by
  intro j hj
  by_cases hlt : j < m.ptr
  · exact hi j hlt
  · unfold step at h
    split at h <;> (try split_ifs at h) <;> simp at h <;> subst h <;> simp at hj
    all_goals first
      | (have : j = m.ptr := by omega
         subst this; exact h0)
      | (have : j = m.ptr ∨ j = m.ptr + 1 := by omega
         rcases this with rfl | rfl <;> omega)
      | (have : j = m.ptr ∨ j = m.ptr + 1 ∨ j = m.ptr + 2 ∨ j = m.ptr + 3 := by omega
         rcases this with rfl | rfl | rfl | rfl <;> omega)

theorem step_reads_no_nul_before (data : Str) (m : Machine) (h0 : c_str data m.ptr ≠ 0)
    (hi : ∀ j, j < m.ptr → c_str data j ≠ 0) :
    ∀ i ∈ step_reads data m, ∀ j, j < i → c_str data j ≠ 0 := by
  intro i hmem j hj
  by_cases hlt : j < m.ptr
  · exact hi j hlt
  · unfold step_reads at hmem
    split at hmem <;> (try split_ifs at hmem) <;> simp at hmem
    all_goals first
      | omega
      | (have : j = m.ptr := by omega
         subst this; exact h0)
      | (have : j = m.ptr ∨ j = m.ptr + 1 := by omega
         rcases this with rfl | rfl <;> omega)
      | (have : j = m.ptr ∨ j = m.ptr + 1 ∨ j = m.ptr + 2 := by omega
         rcases this with rfl | rfl | rfl <;> omega)

theorem loop_no_nul_before (data : Str) (k : Nat) (m : Machine)
    (h : loop data k init = .ok m) : ∀ j, j < m.ptr → c_str data j ≠ 0 :=
  loop_invariant data (fun m => ∀ j, j < m.ptr → c_str data j ≠ 0)
    (fun m m' h0 hs hi => step_no_nul_before data m m' h0 hs hi) k init m h
    (by simp [init])

/-! ### `main`: decoding before parsing -/

/-- The decoder on a request text: only the target changes when no other part holds a
`%`. -/
theorem decode_request_text (m t t' v block b : Str) (hm : ∀ c ∈ m, c ≠ 37)
    (hv : ∀ c ∈ v, c ≠ 37) (hblock : ∀ c ∈ block, c ≠ 37) (hb : ∀ c ∈ b, c ≠ 37)
    (ht : percent_encoding_url_decode t = .ok t') :
    percent_encoding_url_decode (request_text m t v block b) =
      .ok (request_text m t' v block b) := by
  simp only [percent_encoding_url_decode_eq] at ht ⊢
  have hrest : decode_from (32 :: (v ++ 13 :: 10 :: (block ++ 13 :: 10 :: 13 :: 10 :: b))) =
      .ok (32 :: (v ++ 13 :: 10 :: (block ++ 13 :: 10 :: 13 :: 10 :: b))) := by
    apply decode_from_no_percent
    intro c hc
    simp only [List.mem_cons, List.mem_append] at hc
    rcases hc with rfl | hc | rfl | rfl | hc | rfl | rfl | rfl | rfl | hc
    · decide
    · exact hv c hc
    · decide
    · decide
    · exact hblock c hc
    · decide
    · decide
    · decide
    · decide
    · exact hb c hc
  have h1 := decode_from_append t.length t le_rfl t'
    (32 :: (v ++ 13 :: 10 :: (block ++ 13 :: 10 :: 13 :: 10 :: b))) ht
  rw [hrest] at h1
  have hm1 : decode_from (m ++ [32]) = .ok (m ++ [32]) := by
    apply decode_from_no_percent
    intro c hc
    simp only [List.mem_append, List.mem_singleton] at hc
    rcases hc with hc | rfl
    · exact hm c hc
    · decide
  have h2 := decode_from_append (m ++ [32]).length (m ++ [32]) le_rfl (m ++ [32])
    (t ++ 32 :: (v ++ 13 :: 10 :: (block ++ 13 :: 10 :: 13 :: 10 :: b))) hm1
  rw [h1] at h2
  simp only [List.append_assoc, List.singleton_append] at h2
  unfold request_text
  exact h2

/-- C11, on the code: `main` percent-decodes the whole buffer before it parses it. For a
request whose target `t` decodes to `t'` and whose other parts hold no `%`, the pipeline
returns what `parse_http_request` returns for the request with `t'` in the place of `t`.
The url of the result is `t'` when `t'` holds no space and no NUL and at most 1024 bytes;
a space that an escape decodes to is taken for the delimiter after the target, and the url
is the part of `t'` before it (see the instance `/a%20b` below). -/
theorem main_pipeline_decodes_whole_buffer (m t t' v b : Str) (ps : List (Str × Str))
    (hm : ∀ c ∈ m, c ≠ 37) (hv : ∀ c ∈ v, c ≠ 37)
    (hps : ∀ c ∈ join_crlf (ps.map header_text), c ≠ 37) (hb : ∀ c ∈ b, c ≠ 37)
    (ht : percent_encoding_url_decode t = .ok t') :
    main_pipeline (request_text m t v (join_crlf (ps.map header_text)) b) =
      .ok (parse_http_request (request_text m t' v (join_crlf (ps.map header_text)) b)) ∧
    ((m.length ≤ 32 ∧ ∀ c ∈ m, c ≠ 0 ∧ c ≠ 32) → (t'.length ≤ 1024 ∧ ∀ c ∈ t', c ≠ 0 ∧ c ≠ 32) →
      (v.length ≤ 32 ∧ ∀ c ∈ v, c ≠ 0 ∧ c ≠ 13) → (∀ p ∈ ps, ¬ [58, 32] <:+: p.1) →
      (∀ p ∈ ps, ∀ c ∈ header_text p, c ≠ 0 ∧ c ≠ 13) →
      ∃ q, main_pipeline (request_text m t v (join_crlf (ps.map header_text)) b) =
          .ok (.value q) ∧
        q.method = m ∧ q.url = t' ∧ q.version = v ∧ q.body = before_nul b) := by
  have h : main_pipeline (request_text m t v (join_crlf (ps.map header_text)) b) =
      .ok (parse_http_request (request_text m t' v (join_crlf (ps.map header_text)) b)) := by
    unfold main_pipeline
    rw [decode_request_text m t t' v _ b hm hv hps hb ht]
  refine ⟨h, fun wm wt wv wsep wlines => ?_⟩
  rw [h, parse_request_head m t' v b ps wm wt wv wsep wlines]
  exact ⟨_, rfl, rfl, rfl, rfl, rfl⟩

/-- C11 at `"GET /a%20b HTTP/1.1\r\nHost: x\r\n\r\nbody"`: the target `/a%20b` decodes to
`/a b`, and the url of the result is `/a`, the version `b HTTP/1.1`. -/
theorem main_pipeline_decodes_whole_buffer_witness :
    percent_encoding_url_decode (bytes "/a%20b") = .ok (bytes "/a b") ∧
    main_pipeline (request_text (bytes "GET") (bytes "/a%20b") (bytes "HTTP/1.1")
        (join_crlf ([(bytes "Host", bytes "x")].map header_text)) (bytes "body")) =
      .ok (parse_http_request (request_text (bytes "GET") (bytes "/a b") (bytes "HTTP/1.1")
        (join_crlf ([(bytes "Host", bytes "x")].map header_text)) (bytes "body"))) ∧
    parse_http_request (request_text (bytes "GET") (bytes "/a b") (bytes "HTTP/1.1")
        (join_crlf ([(bytes "Host", bytes "x")].map header_text)) (bytes "body")) =
      .value { method := bytes "GET", url := bytes "/a", version := bytes "b HTTP/1.1",
               headers := { entries := [(bytes "Host", bytes "x")] }, body := bytes "body" } :=
  ⟨by decide,
   (main_pipeline_decodes_whole_buffer (bytes "GET") (bytes "/a%20b") (bytes "/a b")
      (bytes "HTTP/1.1") (bytes "body") [(bytes "Host", bytes "x")] (by decide) (by decide)
      (by decide) (by decide) (by decide)).1,
   by decide⟩

end Growable

namespace Fixed

/-! ### The loop of the C `parse_http_request` -/

theorem fixed_step_ptr_lt (request : Str) (m m' : Machine) (h : step request m = .ok m') :
    m.ptr < m'.ptr := by
  unfold step at h
  split at h <;> (try split_ifs at h) <;> simp at h <;> subst h <;> simp <;> omega

theorem fixed_loop_terminal (request : Str) (k : Nat) (m : Machine)
    (h : c_str request m.ptr = 0) : loop request k m = .ok m := by
  cases k <;> simp [loop, h]

theorem fixed_loop_add (request : Str) (j k : Nat) : ∀ m : Machine,
    loop request (j + k) m =
      match loop request j m with
      | .ok m' => loop request k m'
      | .error e => .error e := by
  induction j with
  | zero => intro m; simp [loop]
  | succ j ih =>
    intro m
    rw [Nat.add_right_comm]
    simp only [loop]
    split_ifs with h0
    · exact (fixed_loop_terminal request k m h0).symm
    · cases step request m with
      | ok m' => exact ih m'
      | error e => rfl

theorem fixed_loop_progress (request : Str) (k : Nat) : ∀ m0 m : Machine,
    loop request k m0 = .ok m → c_str request m.ptr = 0 ∨ m0.ptr + k ≤ m.ptr := by
  induction k with
  | zero => intro m0 m h; simp [loop] at h; subst h; right; omega
  | succ k ih =>
    intro m0 m h
    simp only [loop] at h
    split_ifs at h with h0
    · simp at h; subst h; left; exact h0
    · cases hs : step request m0 with
      | error e => simp [hs] at h
      | ok m1 =>
        simp only [hs] at h
        have := fixed_step_ptr_lt request m0 m1 hs
        rcases ih m1 m h with h' | h'
        · left; exact h'
        · right; omega

/-- After `request.length` iterations the loop of the C `parse_http_request` has ended: the
machine it returns stands on a `0` byte. -/
theorem fixed_loop_exhausts (request : Str) (k : Nat) (m0 m : Machine)
    (hk : request.length ≤ m0.ptr + k) (h : loop request k m0 = .ok m) :
    c_str request m.ptr = 0 := by
  rcases fixed_loop_progress request k m0 m h with h' | h'
  · exact h'
  · exact c_str_eq_zero_of_le request m.ptr (by omega)

theorem fixed_loop_of_terminal (request : Str) (k : Nat) : ∀ (m0 m : Machine),
    loop request k m0 = .ok m → c_str request m.ptr = 0 →
    ∀ j, request.length ≤ m0.ptr + j → loop request j m0 = .ok m := by
  induction k with
  | zero =>
    intro m0 m h hz j _
    simp [loop] at h; subst h
    exact fixed_loop_terminal request j m0 hz
  | succ k ih =>
    intro m0 m h hz j hj
    simp only [loop] at h
    split_ifs at h with h0
    · simp at h; subst h
      exact fixed_loop_terminal request j m0 hz
    · cases hs : step request m0 with
      | error e => simp [hs] at h
      | ok m1 =>
        simp only [hs] at h
        have hlt := fixed_step_ptr_lt request m0 m1 hs
        have hp : m0.ptr < request.length := by
          by_contra hcon
          exact h0 (c_str_eq_zero_of_le request m0.ptr (by omega))
        obtain ⟨j', rfl⟩ : ∃ j', j = j' + 1 := ⟨j - 1, by omega⟩
        simp only [loop, h0, if_false, hs]
        exact ih m1 m h hz j' (by omega)

/-- End of input in any state: the C `parse_http_request` returns `HPE_SUCCESS`. -/
theorem fixed_parse_of_exhausted (request : Str) (hr : HttpRequest) (k : Nat) (m : Machine)
    (h : loop request k (init hr) = .ok m) (hz : c_str request m.ptr = 0) :
    (parse_http_request request hr).1 = .HPE_SUCCESS := by
  have hfin := fixed_loop_of_terminal request k (init hr) m h hz request.length (by simp [init])
  unfold parse_http_request
  simp only [hfin]

/-- A lone `'\r'` met in the version or the headers state: the C `parse_http_request`
returns `HPE_INVALID_CRLF`. -/
theorem fixed_parse_of_lone_cr (request : Str) (hr : HttpRequest) (k : Nat) (m : Machine)
    (h : loop request k (init hr) = .ok m)
    (hs : m.state = .HPS_VERSION ∨ m.state = .HPS_HEADERS)
    (hcr : c_str request m.ptr = 13) (hlf : c_str request (m.ptr + 1) ≠ 10) :
    (parse_http_request request hr).1 = .HPE_INVALID_CRLF := by
  have h0 : c_str request m.ptr ≠ 0 := by omega
  have hk : k ≤ m.ptr := by
    rcases fixed_loop_progress request k (init hr) m h with h' | h'
    · exact absurd h' h0
    · simpa [init] using h'
  have hp : m.ptr < request.length := by
    by_contra hcon
    exact h0 (c_str_eq_zero_of_le request m.ptr (by omega))
  obtain ⟨j, hj⟩ : ∃ j, request.length = k + (j + 1) := ⟨request.length - k - 1, by omega⟩
  have hstep : step request m = .error (.HPE_INVALID_CRLF, m.hr) := by
    unfold step
    rcases hs with hs | hs <;> simp [hs, hcr, hlf]
  unfold parse_http_request
  rw [hj, fixed_loop_add, h]
  simp [loop, h0, hstep]

/-- The `while` loop of the C `parse_http_request` computes `scan` on the bytes from `ptr`
on. -/
theorem fixed_loop_eq_scan (request : Str) : ∀ (k : Nat) (m : Machine),
    request.length ≤ m.ptr + k →
    (match loop request k m with
      | .ok m' => Except.ok (m'.state, m'.token_index, m'.hr)
      | .error e => .error e) =
    scan m.state m.token_index m.hr (request.drop m.ptr) := by
  intro k
  induction k with
  | zero =>
    intro m h
    have : request.drop m.ptr = [] := List.drop_eq_nil_of_le (by omega)
    simp [loop, this, scan]
  | succ k ih =>
    intro m h
    obtain ⟨st, ptr, ti, hr⟩ := m
    simp only at h
    have e0 : c_str request ptr = (request.drop ptr).getD 0 0 := c_str_eq_head request ptr
    have e1 : c_str request (ptr + 1) = (request.drop ptr).getD 1 0 := c_str_add request ptr 1
    have e2 : c_str request (ptr + 2) = (request.drop ptr).getD 2 0 := c_str_add request ptr 2
    have e3 : c_str request (ptr + 3) = (request.drop ptr).getD 3 0 := c_str_add request ptr 3
    have d1 : ∀ st ti hr,
        (match loop request k ⟨st, ptr + 1, ti, hr⟩ with
          | .ok m' => Except.ok (m'.state, m'.token_index, m'.hr)
          | .error e => .error e) = scan st ti hr ((request.drop ptr).drop 1) := by
      intro st ti hr
      have := ih ⟨st, ptr + 1, ti, hr⟩ (by simp only; omega)
      rw [List.drop_drop]; exact this
    have d2 : ∀ st ti hr,
        (match loop request k ⟨st, ptr + 1 + 1, ti, hr⟩ with
          | .ok m' => Except.ok (m'.state, m'.token_index, m'.hr)
          | .error e => .error e) = scan st ti hr ((request.drop ptr).drop 2) := by
      intro st ti hr
      have := ih ⟨st, ptr + 1 + 1, ti, hr⟩ (by simp only; omega)
      rw [List.drop_drop]; exact this
    have d4 : ∀ st ti hr,
        (match loop request k ⟨st, ptr + 3 + 1, ti, hr⟩ with
          | .ok m' => Except.ok (m'.state, m'.token_index, m'.hr)
          | .error e => .error e) = scan st ti hr ((request.drop ptr).drop 4) := by
      intro st ti hr
      have := ih ⟨st, ptr + 3 + 1, ti, hr⟩ (by simp only; omega)
      rw [List.drop_drop]; exact this
    unfold loop
    simp only [step, e0, e1, e2, e3]
    generalize request.drop ptr = suf at d1 d2 d4 ⊢
    rcases suf with _ | ⟨c, rest⟩
    · simp [scan]
    · simp only [List.getD_cons_zero, List.getD_cons_succ, List.drop_succ_cons, List.drop_zero]
        at d1 d2 d4 ⊢
      by_cases hc : c = 0
      · rw [scan.eq_def]; simp [hc]
      · cases st
        · rw [scan.eq_def]
          simp only [hc, if_false]
          split_ifs <;> first | rfl | exact d1 _ _ _
        · rw [scan.eq_def]
          simp only [hc, if_false]
          split_ifs <;> first | rfl | exact d1 _ _ _
        · rcases rest with _ | ⟨d, rest1⟩
          · rw [scan.eq_def]
            simp only [hc, if_false, List.getD_nil]
            split_ifs <;> first | rfl | exact d1 _ _ _ | omega
          · rw [scan.eq_def]
            simp only [hc, if_false, List.getD_cons_zero, List.drop_succ_cons, List.drop_zero]
              at d1 d2 ⊢
            split_ifs <;> first | rfl | exact d1 _ _ _ | exact d2 _ _ _
        · rcases rest with _ | ⟨d, _ | ⟨e, _ | ⟨f, rest2⟩⟩⟩
          · rw [scan.eq_def]
            simp only [hc, if_false, List.getD_nil]
            split_ifs <;> first | rfl | exact d1 _ _ _ | omega
          · rw [scan.eq_def]
            simp only [hc, if_false, List.getD_cons_zero, List.getD_cons_succ, List.getD_nil,
              List.drop_succ_cons, List.drop_zero, List.drop_nil] at d1 d2 d4 ⊢
            split_ifs <;> first
              | rfl | exact d1 _ _ _ | exact d2 _ _ _ | omega | (rename_i hh; exact hh.2.elim)
          · rw [scan.eq_def]
            simp only [hc, if_false, List.getD_cons_zero, List.getD_cons_succ, List.getD_nil,
              List.drop_succ_cons, List.drop_zero, List.drop_nil] at d1 d2 d4 ⊢
            split_ifs <;> first
              | rfl | exact d1 _ _ _ | exact d2 _ _ _ | omega | (rename_i hh; exact hh.2.elim)
          · rw [scan.eq_def]
            simp only [hc, if_false, List.getD_cons_zero, List.getD_cons_succ, List.getD_nil,
              List.drop_succ_cons, List.drop_zero, List.drop_nil] at d1 d2 d4 ⊢
            split_ifs <;> first
              | rfl | exact d1 _ _ _ | exact d2 _ _ _ | exact d4 _ _ _
        · rw [scan.eq_def]
          simp only [hc, if_false]
          split_ifs <;> first | rfl | exact d1 _ _ _

/-- What the C `parse_http_request` returns, from the result of `scan` on the whole
input. -/
theorem fixed_parse_eq_scan (request : Str) (hr : HttpRequest) :
    parse_http_request request hr =
      match scan .HPS_METHOD 0 hr request with
      | .error e => e
      | .ok (_, ti, hr') => (.HPE_SUCCESS, { hr' with body := hr'.body.write ti 0 }) := by
  have h := fixed_loop_eq_scan request request.length (init hr) (by simp [init])
  simp only [init, List.drop_zero] at h
  unfold parse_http_request
  simp only [init]
  rw [← h]
  cases loop request request.length
      { state := .HPS_METHOD, ptr := 0, token_index := 0, hr := hr } <;> rfl

/-! ### The phases of the C loop on a well-formed request -/

theorem write_string_append (s1 s2 : Str) : ∀ (a : CharArray) (i : Nat),
    CharArray.write_string a i (s1 ++ s2) =
      CharArray.write_string (CharArray.write_string a i s1) (i + s1.length) s2 := by
  induction s1 with
  | nil => intro a i; simp [CharArray.write_string]
  | cons c s1 ih =>
    intro a i
    rw [List.cons_append, CharArray.write_string, ih, CharArray.write_string, List.length_cons,
      show i + 1 + s1.length = i + (s1.length + 1) by omega]

theorem write_string_below (s : Str) : ∀ (a : CharArray) (i j : Nat), j < i →
    CharArray.write_string a i s j = a j := by
  induction s with
  | nil => intro a i j _; rfl
  | cons c s ih =>
    intro a i j hj
    simp only [CharArray.write_string]
    rw [ih _ _ _ (by omega)]
    simp [CharArray.write]
    omega

/-- Reading back a stored C string: the bytes up to the terminator are the string. -/
theorem c_string_from_store (s : Str) (hs : ∀ c ∈ s, c ≠ 0) : ∀ (a : CharArray) (i n : Nat),
    s.length < n →
    c_string_from ((CharArray.write_string a i s).write (i + s.length) 0) n i = s := by
  induction s with
  | nil =>
    intro a i n hn
    obtain ⟨n', rfl⟩ : ∃ n', n = n' + 1 := ⟨n - 1, by simp at hn; omega⟩
    simp [c_string_from, CharArray.write_string, CharArray.write]
  | cons c s ih =>
    intro a i n hn
    obtain ⟨n', rfl⟩ : ∃ n', n = n' + 1 := ⟨n - 1, by simp at hn; omega⟩
    have hc : c ≠ 0 := hs c (by simp)
    have hread : ((CharArray.write_string a i (c :: s)).write (i + (c :: s).length) 0) i = c := by
      simp only [CharArray.write, CharArray.write_string, List.length_cons]
      have : ¬ (i = i + (s.length + 1)) := by omega
      simp only [this, if_false]
      rw [write_string_below s _ (i + 1) i (by omega)]
      simp [CharArray.write]
    simp only [c_string_from, hread, hc, if_false]
    congr 1
    have := ih (fun x hx => hs x (by simp [hx])) (a.write i c) (i + 1) n' (by simp at hn; omega)
    simp only [CharArray.write_string, List.length_cons]
    rw [show i + (s.length + 1) = i + 1 + s.length by omega]
    exact this

theorem c_string_store (a : CharArray) (s : Str) (n : Nat) (hs : ∀ c ∈ s, c ≠ 0)
    (hn : s.length < n) : c_string (a.store s) n = s := by
  have := c_string_from_store s hs a 0 n hn
  simpa [c_string, CharArray.store] using this

theorem fixed_scan_method_token (ms rest : Str) (hms : ∀ c ∈ ms, c ≠ 0 ∧ c ≠ 32) :
    ∀ (ti : Nat) (hr : HttpRequest), ti + ms.length ≤ MAX_HTTP_METHOD_LEN →
    scan .HPS_METHOD ti hr (ms ++ 32 :: rest) =
      scan .HPS_URL 0
        { hr with method := (CharArray.write_string hr.method ti ms).write (ti + ms.length) 0 }
        rest := by
  induction ms with
  | nil => intro ti hr _; simp [scan, CharArray.write_string]
  | cons c ms ih =>
    intro ti hr hlen
    have hc := hms c (by simp)
    have hne : ti ≠ MAX_HTTP_METHOD_LEN := by simp at hlen; omega
    rw [List.cons_append, scan.eq_def]
    simp only [hc.1, hc.2, hne, if_false]
    rw [ih (fun x hx => hms x (by simp [hx])) _ _ (by simp at hlen ⊢; omega)]
    simp only [CharArray.write_string, List.length_cons]
    rw [show ti + 1 + ms.length = ti + (ms.length + 1) by omega]

theorem fixed_scan_url_token (ts rest : Str) (hts : ∀ c ∈ ts, c ≠ 0 ∧ c ≠ 32) :
    ∀ (ti : Nat) (hr : HttpRequest), ti + ts.length ≤ MAX_HTTP_URL_LEN →
    scan .HPS_URL ti hr (ts ++ 32 :: rest) =
      scan .HPS_VERSION 0
        { hr with url := (CharArray.write_string hr.url ti ts).write (ti + ts.length) 0 }
        rest := by
  induction ts with
  | nil => intro ti hr _; simp [scan, CharArray.write_string]
  | cons c ts ih =>
    intro ti hr hlen
    have hc := hts c (by simp)
    have hne : ti ≠ MAX_HTTP_URL_LEN := by simp at hlen; omega
    rw [List.cons_append, scan.eq_def]
    simp only [hc.1, hc.2, hne, if_false]
    rw [ih (fun x hx => hts x (by simp [hx])) _ _ (by simp at hlen ⊢; omega)]
    simp only [CharArray.write_string, List.length_cons]
    rw [show ti + 1 + ts.length = ti + (ts.length + 1) by omega]

theorem fixed_scan_version_token (vs rest : Str) (hvs : ∀ c ∈ vs, c ≠ 0 ∧ c ≠ 13) :
    ∀ (ti : Nat) (hr : HttpRequest), ti + vs.length ≤ MAX_HTTP_VERSION_LEN →
    scan .HPS_VERSION ti hr (vs ++ 13 :: 10 :: rest) =
      scan .HPS_HEADERS 0
        { hr with version := (CharArray.write_string hr.version ti vs).write (ti + vs.length) 0 }
        rest := by
  induction vs with
  | nil => intro ti hr _; simp [scan, CharArray.write_string]
  | cons c vs ih =>
    intro ti hr hlen
    have hc := hvs c (by simp)
    have hne : ti ≠ MAX_HTTP_VERSION_LEN := by simp at hlen; omega
    rw [List.cons_append, scan.eq_def]
    simp only [hc.1, hc.2, hne, if_false]
    rw [ih (fun x hx => hvs x (by simp [hx])) _ _ (by simp at hlen ⊢; omega)]
    simp only [CharArray.write_string, List.length_cons]
    rw [show ti + 1 + vs.length = ti + (vs.length + 1) by omega]

theorem fixed_scan_headers_line (line rest : Str) (hl : ∀ c ∈ line, c ≠ 0 ∧ c ≠ 13) :
    ∀ (ti : Nat) (hr : HttpRequest), ti + line.length ≤ MAX_HTTP_HEADERS_LEN →
    scan .HPS_HEADERS ti hr (line ++ rest) =
      scan .HPS_HEADERS (ti + line.length)
        { hr with headers := CharArray.write_string hr.headers ti line } rest := by
  induction line with
  | nil => intro ti hr _; simp [CharArray.write_string]
  | cons c line ih =>
    intro ti hr hlen
    have hc := hl c (by simp)
    have hne : ti ≠ MAX_HTTP_HEADERS_LEN := by simp at hlen; omega
    rw [List.cons_append, scan.eq_def]
    simp only [hc.1, hc.2, hne, if_false]
    rw [ih (fun x hx => hl x (by simp [hx])) _ _ (by simp at hlen ⊢; omega)]
    simp only [CharArray.write_string, List.length_cons]
    rw [show ti + 1 + line.length = ti + (line.length + 1) by omega]

theorem fixed_scan_headers_end (ti : Nat) (hr : HttpRequest) (rest : Str) :
    scan .HPS_HEADERS ti hr (13 :: 10 :: 13 :: 10 :: rest) =
      scan .HPS_BODY 0 { hr with headers := hr.headers.write ti 0 } rest := by
  simp [scan]

theorem fixed_scan_headers_crlf (ti : Nat) (hr : HttpRequest) (rest : Str) (c : Nat)
    (hc : c ≠ 13) (hti : ti < MAX_HTTP_HEADERS_LEN) :
    scan .HPS_HEADERS ti hr (13 :: 10 :: c :: rest) =
      scan .HPS_HEADERS (ti + 1) { hr with headers := hr.headers.write ti 10 } (c :: rest) := by
  have hne : ti ≠ MAX_HTTP_HEADERS_LEN := by omega
  rcases rest with _ | ⟨f, rest⟩
  · rw [scan.eq_def]
    simp only [if_true, if_false, ne_eq, not_true_eq_false, OfNat.ofNat_ne_zero]
    rw [scan.eq_def]
    simp [hne]
  · rw [scan.eq_def]
    simp only [if_true, if_false, ne_eq, not_true_eq_false, OfNat.ofNat_ne_zero, hc, false_and]
    rw [scan.eq_def]
    simp [hne]

theorem fixed_scan_body (b : Str) (hb : ∀ c ∈ b, c ≠ 0) : ∀ (ti : Nat) (hr : HttpRequest),
    ti + b.length ≤ MAX_HTTP_BODY_LEN →
    scan .HPS_BODY ti hr b =
      .ok (.HPS_BODY, ti + b.length, { hr with body := CharArray.write_string hr.body ti b }) := by
  induction b with
  | nil => intro ti hr _; simp [scan, CharArray.write_string]
  | cons c b ih =>
    intro ti hr hlen
    have hc := hb c (by simp)
    have hne : ti ≠ MAX_HTTP_BODY_LEN := by simp at hlen; omega
    rw [scan.eq_def]
    simp only [hc, hne, if_false]
    rw [ih (fun x hx => hb x (by simp [hx])) _ _ (by simp at hlen ⊢; omega)]
    simp only [CharArray.write_string, List.length_cons]
    rw [show ti + 1 + b.length = ti + (b.length + 1) by omega]

/-- The header block in the C variant: the `'\r'` of a line break is skipped and its `'\n'`
is copied, so the array receives the lines joined by `"\n"`. -/
theorem fixed_scan_headers_block (rest : Str) : ∀ (lines : List Str) (l : Str),
    (∀ x ∈ l :: lines, ∀ c ∈ x, c ≠ 0 ∧ c ≠ 13) → (∀ x ∈ lines, x ≠ []) →
    ∀ (ti : Nat) (hr : HttpRequest),
    ti + (join_lf (l :: lines)).length ≤ MAX_HTTP_HEADERS_LEN →
    scan .HPS_HEADERS ti hr (join_crlf (l :: lines) ++ 13 :: 10 :: 13 :: 10 :: rest) =
      scan .HPS_BODY 0
        { hr with
          headers := CharArray.write (CharArray.write_string hr.headers ti (join_lf (l :: lines)))
            (ti + (join_lf (l :: lines)).length) 0 } rest := by
  intro lines
  induction lines with
  | nil =>
    intro l hl _ ti hr hlen
    simp only [join_crlf, join_lf] at hlen ⊢
    rw [fixed_scan_headers_line l _ (hl l (by simp)) _ _ hlen, fixed_scan_headers_end]
  | cons l' lines ih =>
    intro l hl hne ti hr hlen
    have hl' : l' ≠ [] := hne l' (by simp)
    obtain ⟨c, tl, rfl⟩ := List.exists_cons_of_ne_nil hl'
    have hc : c ≠ 13 := (hl (c :: tl) (by simp) c (by simp)).2
    obtain ⟨tl', htl'⟩ : ∃ tl', join_crlf ((c :: tl) :: lines) = c :: tl' := by
      cases lines <;> simp [join_crlf]
    simp only [join_lf, List.length_append, List.length_cons] at hlen
    have step1 := ih (c :: tl) (fun x hx => hl x (by simp at hx ⊢; tauto))
      (fun x hx => hne x (by simp [hx])) (ti + l.length + 1)
      { hr with headers := (CharArray.write_string hr.headers ti l).write (ti + l.length) 10 }
      (by omega)
    simp only [join_crlf, join_lf, List.append_assoc, List.cons_append]
    rw [fixed_scan_headers_line l _ (hl l (by simp)) _ _ (by omega)]
    rw [htl'] at step1 ⊢
    rw [List.cons_append, fixed_scan_headers_crlf _ _ _ _ hc (by omega)]
    rw [List.cons_append] at step1
    rw [step1]
    simp only [write_string_append, CharArray.write_string, List.length_append,
      List.length_cons]
    rw [show ti + l.length + 1 + (join_lf ((c :: tl) :: lines)).length =
      ti + (l.length + ((join_lf ((c :: tl) :: lines)).length + 1)) by omega]

/-- The C loop on a well-formed request within the capacities: it returns `HPE_SUCCESS`
and has stored the method, the target, the version, the header lines joined by `"\n"` and
the body as C strings. -/
theorem fixed_parse_request_text (m t v b : Str) (lines : List Str) (hr : HttpRequest)
    (hm : m.length ≤ 32 ∧ ∀ c ∈ m, c ≠ 0 ∧ c ≠ 32)
    (ht : t.length ≤ 2048 ∧ ∀ c ∈ t, c ≠ 0 ∧ c ≠ 32)
    (hv : v.length ≤ 32 ∧ ∀ c ∈ v, c ≠ 0 ∧ c ≠ 13)
    (hlines : ∀ x ∈ lines, x ≠ [] ∧ ∀ c ∈ x, c ≠ 0 ∧ c ≠ 13)
    (hblock : (join_lf lines).length ≤ 8192)
    (hb : b.length ≤ 8192 ∧ ∀ c ∈ b, c ≠ 0) :
    parse_http_request (request_text m t v (join_crlf lines) b) hr =
      (.HPE_SUCCESS,
        { method := hr.method.store m, url := hr.url.store t, version := hr.version.store v,
          headers := hr.headers.store (join_lf lines), body := hr.body.store b }) := by
  rw [fixed_parse_eq_scan]
  unfold request_text
  rw [fixed_scan_method_token m _ hm.2 _ _ (by simp [MAX_HTTP_METHOD_LEN]; exact hm.1),
    fixed_scan_url_token t _ ht.2 _ _ (by simp [MAX_HTTP_URL_LEN]; exact ht.1),
    fixed_scan_version_token v _ hv.2 _ _ (by simp [MAX_HTTP_VERSION_LEN]; exact hv.1)]
  rcases lines with _ | ⟨l, lines⟩
  · simp only [join_crlf, List.nil_append]
    rw [fixed_scan_headers_end,
      fixed_scan_body b hb.2 _ _ (by simp [MAX_HTTP_BODY_LEN]; exact hb.1)]
    simp [CharArray.store, join_lf, CharArray.write_string]
  · rw [fixed_scan_headers_block b lines l (fun x hx => (hlines x hx).2)
        (fun x hx => (hlines x (by simp [hx])).1) _ _
        (by simp [MAX_HTTP_HEADERS_LEN]; exact hblock),
      fixed_scan_body b hb.2 _ _ (by simp [MAX_HTTP_BODY_LEN]; exact hb.1)]
    simp [CharArray.store]

theorem fixed_scan_method_overflow (ms rest : Str) (hms : ∀ c ∈ ms, c ≠ 0 ∧ c ≠ 32) :
    ∀ (ti : Nat) (hr : HttpRequest), ti ≤ MAX_HTTP_METHOD_LEN →
    MAX_HTTP_METHOD_LEN < ti + ms.length →
    ∃ hr', scan .HPS_METHOD ti hr (ms ++ rest) = .error (.HPE_METHOD_TOO_LONG, hr') := by
  induction ms with
  | nil => intro ti hr h1 h2; simp at h2; omega
  | cons c ms ih =>
    intro ti hr h1 h2
    have hc := hms c (by simp)
    rw [List.cons_append, scan.eq_def]
    simp only [hc.1, hc.2, if_false]
    by_cases hfull : ti = MAX_HTTP_METHOD_LEN
    · exact ⟨hr, by simp [hfull]⟩
    · simp only [hfull, if_false]
      exact ih (fun x hx => hms x (by simp [hx])) _ _ (by omega) (by simp at h2 ⊢; omega)

theorem fixed_scan_ne_method_too_long : ∀ (n : Nat) (s : Str), s.length ≤ n →
    ∀ (st : HttpParseState) (ti : Nat) (hr hr' : HttpRequest), st ≠ .HPS_METHOD →
    scan st ti hr s ≠ .error (.HPE_METHOD_TOO_LONG, hr') := by
  intro n
  induction n with
  | zero =>
    intro s hs st ti hr hr' _
    have : s = [] := List.length_eq_zero.mp (by omega)
    subst this
    simp [scan]
  | succ n ih =>
    intro s hs st ti hr hr' hst
    rcases s with _ | ⟨c, rest⟩
    · simp [scan]
    · have hr : rest.length ≤ n := by simpa using hs
      by_cases h0 : c = 0
      · rw [scan.eq_def]; simp [h0]
      · cases st with
        | HPS_METHOD => exact absurd rfl hst
        | HPS_URL =>
          rw [scan.eq_def]
          simp only [h0, if_false]
          split_ifs <;> first | exact ih rest hr _ _ _ _ (by simp) | simp
        | HPS_VERSION =>
          rcases rest with _ | ⟨d, rest1⟩
          · rw [scan.eq_def]
            simp only [h0, if_false]
            split_ifs <;> first | exact ih [] hr _ _ _ _ (by simp) | simp
          · rw [scan.eq_def]
            simp only [h0, if_false]
            split_ifs <;> first
              | exact ih (d :: rest1) hr _ _ _ _ (by simp)
              | exact ih rest1 (by simp at hr; omega) _ _ _ _ (by simp)
              | simp
        | HPS_HEADERS =>
          rcases rest with _ | ⟨d, _ | ⟨e, _ | ⟨f, rest2⟩⟩⟩
          · rw [scan.eq_def]
            simp only [h0, if_false]
            split_ifs <;> first | exact ih [] hr _ _ _ _ (by simp) | simp
          · rw [scan.eq_def]
            simp only [h0, if_false]
            split_ifs <;> first
              | exact ih [d] hr _ _ _ _ (by simp)
              | simp
          · rw [scan.eq_def]
            simp only [h0, if_false]
            split_ifs <;> first
              | exact ih [d, e] hr _ _ _ _ (by simp)
              | simp
          · rw [scan.eq_def]
            simp only [h0, if_false]
            split_ifs <;> first
              | exact ih (d :: e :: f :: rest2) hr _ _ _ _ (by simp)
              | exact ih rest2 (by simp at hr; omega) _ _ _ _ (by simp)
              | simp
        | HPS_BODY =>
          rw [scan.eq_def]
          simp only [h0, if_false]
          split_ifs <;> first | exact ih rest hr _ _ _ _ (by simp) | simp

/-! ### What every reachable machine of the C loop satisfies -/

/-- A property that the start machine has and every iteration keeps holds of every machine
the C loop reaches. -/
theorem fixed_loop_invariant (request : Str) (P : Machine → Prop)
    (hstep : ∀ m m', c_str request m.ptr ≠ 0 → step request m = .ok m' → P m → P m') :
    ∀ (k : Nat) (m0 m : Machine), loop request k m0 = .ok m → P m0 → P m := by
  intro k
  induction k with
  | zero => intro m0 m h hp; simp [loop] at h; subst h; exact hp
  | succ k ih =>
    intro m0 m h hp
    simp only [loop] at h
    split_ifs at h with h0
    · simp at h; subst h; exact hp
    · cases hs : step request m0 with
      | error e => simp [hs] at h
      | ok m1 =>
        simp only [hs] at h
        exact ih m1 m h (hstep m0 m1 h0 hs hp)

theorem fixed_step_limit (request : Str) (m m' : Machine) (h : step request m = .ok m')
    (hi : m.token_index ≤ limit m.state) : m'.token_index ≤ limit m'.state := by
  unfold step at h
  split at h <;> rename_i hst <;> simp only [hst, limit] at hi <;>
    (try split_ifs at h) <;> simp at h <;> subst h <;> simp [limit, hst] <;> omega

theorem fixed_loop_limit (request : Str) (hr : HttpRequest) (k : Nat) (m : Machine)
    (h : loop request k (init hr) = .ok m) : m.token_index ≤ limit m.state :=
  fixed_loop_invariant request _ (fun m m' _ hs hi => fixed_step_limit request m m' hs hi)
    k (init hr) m h (by simp [init, limit])

/-- The record after an iteration is the record before it with the one array write of
`step_write` performed. -/
theorem fixed_step_assigns (request : Str) (m m' : Machine) (h : step request m = .ok m') :
    m'.hr =
      match step_write request m with
      | some (f, i, v) => m.hr.assign f i v
      | none => m.hr := by
  cases hst : m.state <;> simp only [step, hst] at h <;> simp only [step_write, hst] <;>
    (try split_ifs at h ⊢) <;> (simp only [Except.ok.injEq] at h; subst h; rfl)

theorem fixed_step_write_index (request : Str) (m : Machine) (f : Field) (i v : Nat)
    (h : step_write request m = some (f, i, v)) (hi : m.token_index ≤ limit m.state) :
    i < f.size := by
  unfold step_write at h
  split at h <;> rename_i hst <;> simp only [hst, limit] at hi <;>
    (try split_ifs at h) <;> simp at h <;> obtain ⟨rfl, rfl, _⟩ := h <;>
    simp [Field.size] <;> omega

theorem fixed_limit_le (st : HttpParseState) : limit st ≤ MAX_HTTP_BODY_LEN := by
  cases st <;> simp [limit, MAX_HTTP_BODY_LEN, MAX_HTTP_METHOD_LEN, MAX_HTTP_URL_LEN,
    MAX_HTTP_VERSION_LEN, MAX_HTTP_HEADERS_LEN]

theorem fixed_step_ptr_le (request : Str) (m m' : Machine) (h0 : c_str request m.ptr ≠ 0)
    (h : step request m = .ok m') :
    m'.ptr ≤ request.length ∧
      (m'.ptr = m.ptr + 1 ∨ m'.ptr = m.ptr + 2 ∨ m'.ptr = m.ptr + 4) := by
  have hp := lt_length_of_c_str_ne_zero request m.ptr h0
  unfold step at h
  split at h <;> (try split_ifs at h) <;> simp at h <;> subst h <;> simp
  all_goals first
    | omega
    | (have hlt := lt_length_of_c_str_ne_zero request (m.ptr + 1) (by omega); omega)
    | (have hlt := lt_length_of_c_str_ne_zero request (m.ptr + 3) (by omega); omega)

theorem fixed_step_reads_le (request : Str) (m : Machine) (h0 : c_str request m.ptr ≠ 0) :
    ∀ i ∈ step_reads request m, i ≤ request.length := by
  have hp := lt_length_of_c_str_ne_zero request m.ptr h0
  intro i hi
  unfold step_reads at hi
  split at hi <;> (try split_ifs at hi) <;> simp at hi
  all_goals first
    | omega
    | (have hlt := lt_length_of_c_str_ne_zero request (m.ptr + 1) (by omega)
       have := lt_length_of_c_str_ne_zero request (m.ptr + 2) (by omega); omega)
    | (have hlt := lt_length_of_c_str_ne_zero request (m.ptr + 1) (by omega); omega)

/-- An iteration of the C loop depends on the input only through the bytes at the indices
of `step_reads`. -/
theorem fixed_step_reads_suffice (request request' : Str) (m : Machine)
    (h : ∀ i ∈ step_reads request m, c_str request i = c_str request' i) :
    step request m = step request' m := by
  unfold step_reads at h
  unfold step
  split at h <;> rename_i hst <;> simp only [hst]
  · simp [← h]
  · simp [← h]
  · split_ifs at h with h1 <;> simp at h <;> simp [← h, h1]
  · split_ifs at h <;> simp at h <;> simp_all
  · simp [← h]

theorem fixed_loop_ptr_le (request : Str) (hr : HttpRequest) (k : Nat) (m : Machine)
    (h : loop request k (init hr) = .ok m) : m.ptr ≤ request.length :=
  fixed_loop_invariant request (fun m => m.ptr ≤ request.length)
    (fun m m' h0 hs _ => (fixed_step_ptr_le request m m' h0 hs).1) k (init hr) m h
    (by simp [init])

theorem fixed_step_later_fields (request : Str) (hr : HttpRequest) (m m' : Machine)
    (h : step request m = .ok m') (hi : later_fields_kept m.state hr m.hr) :
    later_fields_kept m'.state hr m'.hr := by
  unfold step at h
  split at h <;> rename_i hst <;> simp only [hst, later_fields_kept] at hi <;>
    (try split_ifs at h) <;> simp at h <;> subst h <;> simp_all [later_fields_kept]

theorem fixed_loop_later_fields (request : Str) (hr : HttpRequest) (k : Nat) (m : Machine)
    (h : loop request k (init hr) = .ok m) : later_fields_kept m.state hr m.hr :=
  fixed_loop_invariant request _
    (fun m m' _ hs hi => fixed_step_later_fields request hr m m' hs hi) k (init hr) m h
    (by simp [init, later_fields_kept])

theorem fixed_step_terminated (request : Str) (m m' : Machine) (h : step request m = .ok m')
    (hi : m.token_index ≤ limit m.state ∧ earlier_fields_terminated m.state m.hr) :
    m'.token_index ≤ limit m'.state ∧ earlier_fields_terminated m'.state m'.hr := by
  refine ⟨fixed_step_limit request m m' h hi.1, ?_⟩
  obtain ⟨hl, h1, h2, h3, h4⟩ := hi
  unfold step at h
  split at h <;> rename_i hst <;> simp only [hst, limit] at hl h1 h2 h3 h4 <;>
    (try split_ifs at h) <;> simp at h <;> subst h <;>
    simp_all [earlier_fields_terminated, CharArray.write] <;>
    exact ⟨m.token_index, hl, by simp⟩

theorem fixed_loop_terminated (request : Str) (hr : HttpRequest) (k : Nat) (m : Machine)
    (h : loop request k (init hr) = .ok m) : earlier_fields_terminated m.state m.hr :=
  (fixed_loop_invariant request _
    (fun m m' _ hs hi => fixed_step_terminated request m m' hs hi) k (init hr) m h
    (by simp [init, limit, earlier_fields_terminated])).2

/-- An error that the C loop returns is returned by an iteration, on a machine that the
loop has reached. -/
theorem fixed_loop_error (request : Str) (x : HttpParseError × HttpRequest) :
    ∀ (n : Nat) (m0 : Machine), loop request n m0 = .error x →
    ∃ k m, loop request k m0 = .ok m ∧ c_str request m.ptr ≠ 0 ∧ step request m = .error x := by
  intro n
  induction n with
  | zero => intro m0 h; simp [loop] at h
  | succ n ih =>
    intro m0 h
    simp only [loop] at h
    split_ifs at h with h0
    cases hs : step request m0 with
    | error e =>
      simp only [hs, Except.error.injEq] at h
      subst h
      exact ⟨0, m0, rfl, h0, hs⟩
    | ok m1 =>
      simp only [hs] at h
      obtain ⟨k, m, hk, hz, hstep⟩ := ih m1 h
      exact ⟨k + 1, m, by simp [loop, h0, hs, hk], hz, hstep⟩

theorem fixed_step_error_hr (request : Str) (m : Machine) (e : HttpParseError)
    (hr' : HttpRequest) (h : step request m = .error (e, hr')) :
    hr' = m.hr ∧ e ≠ .HPE_SUCCESS := by
  unfold step at h
  split at h <;> (try split_ifs at h) <;> simp at h <;> obtain ⟨rfl, rfl⟩ := h <;> simp

theorem fixed_step_no_nul_before (request : Str) (m m' : Machine)
    (h0 : c_str request m.ptr ≠ 0) (h : step request m = .ok m')
    (hi : ∀ j, j < m.ptr → c_str request j ≠ 0) :
    ∀ j, j < m'.ptr → c_str request j ≠ 0 := by
  intro j hj
  by_cases hlt : j < m.ptr
  · exact hi j hlt
  · unfold step at h
    split at h <;> (try split_ifs at h) <;> simp at h <;> subst h <;> simp at hj
    all_goals first
      | (have : j = m.ptr := by omega
         subst this; exact h0)
      | (have : j = m.ptr ∨ j = m.ptr + 1 := by omega
         rcases this with rfl | rfl <;> omega)
      | (have : j = m.ptr ∨ j = m.ptr + 1 ∨ j = m.ptr + 2 ∨ j = m.ptr + 3 := by omega
         rcases this with rfl | rfl | rfl | rfl <;> omega)

theorem fixed_step_reads_no_nul_before (request : Str) (m : Machine)
    (h0 : c_str request m.ptr ≠ 0) (hi : ∀ j, j < m.ptr → c_str request j ≠ 0) :
    ∀ i ∈ step_reads request m, ∀ j, j < i → c_str request j ≠ 0 := by
  intro i hmem j hj
  by_cases hlt : j < m.ptr
  · exact hi j hlt
  · unfold step_reads at hmem
    split at hmem <;> (try split_ifs at hmem) <;> simp at hmem
    all_goals first
      | omega
      | (have : j = m.ptr := by omega
         subst this; exact h0)
      | (have : j = m.ptr ∨ j = m.ptr + 1 := by omega
         rcases this with rfl | rfl <;> omega)
      | (have : j = m.ptr ∨ j = m.ptr + 1 ∨ j = m.ptr + 2 := by omega
         rcases this with rfl | rfl | rfl <;> omega)

theorem fixed_loop_no_nul_before (request : Str) (hr : HttpRequest) (k : Nat) (m : Machine)
    (h : loop request k (init hr) = .ok m) : ∀ j, j < m.ptr → c_str request j ≠ 0 :=
  fixed_loop_invariant request (fun m => ∀ j, j < m.ptr → c_str request j ≠ 0)
    (fun m m' h0 hs hi => fixed_step_no_nul_before request m m' h0 hs hi) k (init hr) m h
    (by simp [init])

/-! ### The C `hex_to_decimal` -/

/-- C17: the two `hex_to_decimal` variants agree except on the letters that are no
hexadecimal digits. On a digit, on `a`-`f`, on `A`-`F` and on every character that is no
ASCII letter or digit, the C variant returns what the growable one returns, `-1` standing
for its failure; on `g`-`z` (on `G`-`Z`) the C variant does not fail but returns
`c - 'a' + 10` (`c - 'A' + 10`), a value from 16 to 35, and the growable variant fails. -/
theorem hex_to_decimal_variants (c : Nat) :
    (is_hex_digit c ∨ ¬ is_ascii_alnum c →
      hex_to_decimal c =
        match Growable.hex_to_decimal c with
        | .ok v => (v : Int)
        | .error _ => -1) ∧
    (103 ≤ c ∧ c ≤ 122 →
      hex_to_decimal c = (c : Int) - 97 + 10 ∧ 16 ≤ hex_to_decimal c ∧ hex_to_decimal c ≤ 35 ∧
        Growable.hex_to_decimal c = .error "param should be 0 ~ 9, a ~ f or A ~ F") ∧
    (71 ≤ c ∧ c ≤ 90 →
      hex_to_decimal c = (c : Int) - 65 + 10 ∧ 16 ≤ hex_to_decimal c ∧ hex_to_decimal c ≤ 35 ∧
        Growable.hex_to_decimal c = .error "param should be 0 ~ 9, a ~ f or A ~ F") := by
  refine ⟨?_, ?_, ?_⟩
  · intro h
    unfold is_hex_digit is_ascii_alnum at h
    unfold hex_to_decimal Growable.hex_to_decimal
    by_cases h1 : 48 ≤ c ∧ c ≤ 57
    · have e : (c - 48) % 256 = c - 48 := by omega
      simp only [h1, and_self, if_true, e]
      omega
    · by_cases h2 : 97 ≤ c ∧ c ≤ 102
      · have e : (c - 97 + 10) % 256 = c - 87 := by omega
        have h2' : 97 ≤ c ∧ c ≤ 122 := by omega
        simp only [h1, h2, h2', and_self, if_true, if_false, e]
        omega
      · by_cases h3 : 65 ≤ c ∧ c ≤ 70
        · have e : (c - 65 + 10) % 256 = c - 55 := by omega
          have h2' : ¬ (97 ≤ c ∧ c ≤ 122) := by omega
          have h3' : 65 ≤ c ∧ c ≤ 90 := by omega
          simp only [h1, h2, h3, h2', h3', and_self, if_true, if_false, e]
          omega
        · have h2' : ¬ (97 ≤ c ∧ c ≤ 122) := by omega
          have h3' : ¬ (65 ≤ c ∧ c ≤ 90) := by omega
          simp only [h1, h2, h3, h2', h3', if_false]
  · intro h
    unfold hex_to_decimal Growable.hex_to_decimal
    split_ifs <;> simp <;> omega
  · intro h
    unfold hex_to_decimal Growable.hex_to_decimal
    split_ifs <;> simp <;> omega

/-! ### The C loop beside the loop of `parse.cpp` -/

theorem holds_nil (a : CharArray) : a.holds [] :=
  ⟨fun i hi => by simp at hi, by simp⟩

theorem holds_snoc (a : CharArray) (s : Str) (c : Nat) (h : a.holds s) (hc : c ≠ 0) :
    (a.write s.length c).holds (s ++ [c]) := by
  refine ⟨fun i hi => ?_, ?_⟩
  · simp only [CharArray.write]
    by_cases hi' : i = s.length
    · subst hi'
      simp [List.getD_append_right]
    · have hlt : i < s.length := by simp at hi; omega
      rw [if_neg hi', h.1 i hlt, List.getD_append _ _ _ _ hlt]
  · intro x hx
    simp only [List.mem_append, List.mem_singleton] at hx
    rcases hx with hx | rfl
    · exact h.2 x hx
    · exact hc

theorem c_string_from_holds : ∀ (s : Str) (a : CharArray) (i n : Nat),
    (∀ j, j < s.length → a (i + j) = s.getD j 0) → a (i + s.length) = 0 →
    (∀ c ∈ s, c ≠ 0) → s.length < n → c_string_from a n i = s := by
  intro s
  induction s with
  | nil =>
    intro a i n _ h0 _ hn
    obtain ⟨n', rfl⟩ : ∃ n', n = n' + 1 := ⟨n - 1, by simp at hn; omega⟩
    simp only [List.length_nil, Nat.add_zero] at h0
    simp [c_string_from, h0]
  | cons c s ih =>
    intro a i n hp h0 hs hn
    obtain ⟨n', rfl⟩ : ∃ n', n = n' + 1 := ⟨n - 1, by simp at hn; omega⟩
    have hc : c ≠ 0 := hs c (by simp)
    have hread : a i = c := by simpa using hp 0 (by simp)
    rw [c_string_from, hread, if_neg hc]
    congr 1
    apply ih
    · intro j hj
      have := hp (j + 1) (by simpa using hj)
      simpa [Nat.add_assoc, Nat.add_comm 1 j] using this
    · simpa [Nat.add_assoc, Nat.add_comm 1] using h0
    · intro x hx; exact hs x (by simp [hx])
    · simp at hn; omega

/-- Writing the terminator after the bytes held makes the array a C string. -/
theorem c_string_terminated (a : CharArray) (s : Str) (n : Nat) (h : a.holds s)
    (hn : s.length < n) : c_string (a.write s.length 0) n = s := by
  unfold c_string
  apply c_string_from_holds
  · intro j hj
    simp only [Nat.zero_add, CharArray.write]
    rw [if_neg (by omega)]
    exact h.1 j hj
  · simp [CharArray.write]
  · exact h.2
  · exact hn

/-- The two loops, run on the same bytes from variables that mirror each other, end alike,
as long as the bytes written to the current array and the bytes left are at most 1024. -/
theorem scan_mirrors : ∀ (n : Nat) (rest : Str), rest.length ≤ n →
    ∀ (st : Growable.ParseState) (req : Growable.Request) (hdrs : Str) (fst : HttpParseState)
      (ti : Nat) (hr : HttpRequest),
    mirrors st req fst ti hr → ti + rest.length ≤ 1024 →
    same_outcome (Growable.scan st req hdrs rest) (scan fst ti hr rest) := by
  intro n
  induction n with
  | zero =>
    intro rest hn st req hdrs fst ti hr hm hb
    obtain rfl : rest = [] := List.length_eq_zero.mp (by omega)
    rw [Growable.scan.eq_def, scan.eq_def]
    exact ⟨hm, by simpa using hb⟩
  | succ n ih =>
    intro rest hn st req hdrs fst ti hr hm hb
    cases rest with
    | nil =>
      rw [Growable.scan.eq_def, scan.eq_def]
      exact ⟨hm, by simpa using hb⟩
    | cons c rest =>
      simp only [List.length_cons] at hn hb
      by_cases hc : c = 0
      · rw [Growable.scan.eq_def, scan.eq_def]
        simp only [hc, if_true]
        exact ⟨hm, by omega⟩
      · obtain ⟨rfl, hm⟩ := hm
        cases st with
        | method =>
          simp only [MAX_HTTP_METHOD_LEN] at hm
          obtain ⟨rfl, hle, hh, hu, hv, hb0⟩ := hm
          rw [Growable.scan.eq_def, scan.eq_def]
          simp only [hc, if_false, state_kind]
          by_cases h32 : c = 32
          · simp only [h32, if_true]
            apply ih rest (by omega)
            · refine ⟨rfl, ?_, ?_, ?_, hv, hb0⟩
              · exact c_string_terminated _ _ _ hh (by simp only [MAX_HTTP_METHOD_LEN]; omega)
              · simp [hu]
              · rw [hu]; exact holds_nil _
            · omega
          · simp only [h32, if_false, Growable.METHOD_MAX_LEN, MAX_HTTP_METHOD_LEN]
            by_cases hlen : req.method.length = 32
            · simp only [hlen, if_true]
              exact ⟨rfl, by simp⟩
            · simp only [hlen, if_false]
              apply ih rest (by omega)
              · refine ⟨rfl, by simp, ?_, holds_snoc _ _ _ hh hc, hu, hv, hb0⟩
                simp only [MAX_HTTP_METHOD_LEN]; omega
              · omega
        | url =>
          simp only [MAX_HTTP_METHOD_LEN] at hm
          obtain ⟨hmeth, rfl, hh, hv, hb0⟩ := hm
          rw [Growable.scan.eq_def, scan.eq_def]
          simp only [hc, if_false, state_kind]
          by_cases h32 : c = 32
          · simp only [h32, if_true]
            apply ih rest (by omega)
            · refine ⟨rfl, hmeth, ?_, ?_, by simp, ?_, hb0⟩
              · exact c_string_terminated _ _ _ hh (by simp only [MAX_HTTP_URL_LEN]; omega)
              · simp [hv]
              · rw [hv]; exact holds_nil _
            · omega
          · simp only [h32, if_false, Growable.URL_MAX_LEN, MAX_HTTP_URL_LEN]
            rw [if_neg (by omega), if_neg (by omega)]
            apply ih rest (by omega)
            · exact ⟨rfl, hmeth, by simp, holds_snoc _ _ _ hh hc, hv, hb0⟩
            · omega
        | version =>
          simp only [MAX_HTTP_METHOD_LEN, MAX_HTTP_URL_LEN, MAX_HTTP_VERSION_LEN] at hm
          obtain ⟨hmeth, hurl, rfl, hle, hh, hb0⟩ := hm
          rw [Growable.scan.eq_def, scan.eq_def]
          simp only [hc, if_false, state_kind]
          by_cases h13 : c = 13
          · simp only [h13, if_true]
            cases rest with
            | nil => exact ⟨rfl, by simp⟩
            | cons d rest1 =>
              simp only [List.length_cons] at hn hb
              by_cases h10 : d = 10
              · simp only [h10, ne_eq, not_true_eq_false, if_false]
                apply ih rest1 (by omega)
                · refine ⟨rfl, hmeth, hurl, ?_, hb0⟩
                  exact c_string_terminated _ _ _ hh (by simp only [MAX_HTTP_VERSION_LEN]; omega)
                · omega
              · simp only [h10, ne_eq, not_false_eq_true, if_true]
                exact ⟨rfl, by simp⟩
          · simp only [h13, if_false, Growable.VERSION_MAX_LEN, MAX_HTTP_VERSION_LEN]
            by_cases hlen : req.version.length = 32
            · simp only [hlen, if_true]
              exact ⟨rfl, by simp⟩
            · simp only [hlen, if_false]
              apply ih rest (by omega)
              · refine ⟨rfl, hmeth, hurl, by simp, ?_, holds_snoc _ _ _ hh hc, hb0⟩
                simp only [MAX_HTTP_VERSION_LEN]; omega
              · omega
        | headers =>
          simp only [MAX_HTTP_METHOD_LEN, MAX_HTTP_URL_LEN, MAX_HTTP_VERSION_LEN] at hm
          obtain ⟨hmeth, hurl, hver, hb0⟩ := hm
          have hkeep : ∀ (ti' : Nat) (a : CharArray),
              mirrors .headers req .HPS_HEADERS ti' { hr with headers := a } :=
            fun _ _ => ⟨rfl, hmeth, hurl, hver, hb0⟩
          rw [Growable.scan.eq_def, scan.eq_def]
          simp only [hc, if_false, state_kind]
          by_cases h13 : c = 13
          · simp only [h13, if_true]
            match rest, hn, hb with
            | [], _, _ => exact ⟨rfl, by simp⟩
            | [d], _, hb =>
              simp only [List.length_cons, List.length_nil] at hb
              by_cases h10 : d = 10
              · simp only [h10, ne_eq, not_true_eq_false, if_false]
                rw [Growable.scan.eq_def, scan.eq_def]
                simp only [show ¬ (10 : Nat) = 0 by decide, show ¬ (10 : Nat) = 13 by decide,
                  if_false, MAX_HTTP_HEADERS_LEN]
                rw [if_neg (by omega), scan.eq_def]
                exact ⟨hkeep _ _, by omega⟩
              · simp only [h10, ne_eq, not_false_eq_true, if_true]
                exact ⟨rfl, by simp⟩
            | [d, e], hn, hb =>
              simp only [List.length_cons, List.length_nil] at hn hb
              by_cases h10 : d = 10
              · simp only [h10, ne_eq, not_true_eq_false, if_false]
                rw [scan.eq_def]
                simp only [show ¬ (10 : Nat) = 0 by decide, show ¬ (10 : Nat) = 13 by decide,
                  if_false, MAX_HTTP_HEADERS_LEN]
                rw [if_neg (by omega)]
                apply ih [e] (by simp only [List.length_cons, List.length_nil]; omega)
                · exact hkeep _ _
                · simp only [List.length_cons, List.length_nil]; omega
              · simp only [h10, ne_eq, not_false_eq_true, if_true]
                exact ⟨rfl, by simp⟩
            | d :: e :: f :: rest2, hn, hb =>
              simp only [List.length_cons] at hn hb
              by_cases h10 : d = 10
              · simp only [h10, ne_eq, not_true_eq_false, if_false]
                by_cases hblank : e = 13 ∧ f = 10
                · simp only [hblank, and_self, if_true]
                  apply ih rest2 (by omega)
                  · exact ⟨rfl, hmeth, hurl, hver, by simp [hb0], by rw [hb0]; exact holds_nil _⟩
                  · omega
                · simp only [hblank, if_false]
                  rw [scan.eq_def]
                  simp only [show ¬ (10 : Nat) = 0 by decide, show ¬ (10 : Nat) = 13 by decide,
                    if_false, MAX_HTTP_HEADERS_LEN]
                  rw [if_neg (by omega)]
                  apply ih (e :: f :: rest2) (by simp only [List.length_cons]; omega)
                  · exact hkeep _ _
                  · simp only [List.length_cons]; omega
              · simp only [h10, ne_eq, not_false_eq_true, if_true]
                exact ⟨rfl, by simp⟩
          · simp only [h13, if_false, MAX_HTTP_HEADERS_LEN]
            rw [if_neg (by omega)]
            apply ih rest (by omega)
            · exact hkeep _ _
            · omega
        | body =>
          simp only [MAX_HTTP_METHOD_LEN, MAX_HTTP_URL_LEN, MAX_HTTP_VERSION_LEN] at hm
          obtain ⟨hmeth, hurl, hver, rfl, hh⟩ := hm
          rw [Growable.scan.eq_def, scan.eq_def]
          simp only [hc, if_false, state_kind, MAX_HTTP_BODY_LEN]
          rw [if_neg (by omega)]
          apply ih rest (by omega)
          · exact ⟨rfl, hmeth, hurl, hver, by simp, holds_snoc _ _ _ hh hc⟩
          · omega

end Fixed

/-! ### Claims on both variants -/

/-- C5: the method limit of 32 is exact in both variants. An input that begins with exactly
32 bytes `m` without space and NUL and then a space never gives `MethodTooLong`, whatever
follows; when what follows is well formed (target `t`, version `v`, header lines of the
pairs `ps`, body `b`, within the limits of both variants) the parse succeeds with method
`m`. An input that begins with 33 (or more) bytes `m'` without space and NUL gives
`MethodTooLong`. -/
theorem method_limit_exact (m rest t v b : Str) (ps : List (Str × Str)) (m' rest' : Str)
    (hm : m.length = 32 ∧ ∀ c ∈ m, c ≠ 0 ∧ c ≠ 32)
    (ht : t.length ≤ 1024 ∧ ∀ c ∈ t, c ≠ 0 ∧ c ≠ 32)
    (hv : v.length ≤ 32 ∧ ∀ c ∈ v, c ≠ 0 ∧ c ≠ 13)
    (hsep : ∀ p ∈ ps, ¬ [58, 32] <:+: p.1)
    (hlines : ∀ p ∈ ps, ∀ c ∈ header_text p, c ≠ 0 ∧ c ≠ 13)
    (hblock : (join_lf (ps.map header_text)).length ≤ 8192)
    (hb : b.length ≤ 8192 ∧ ∀ c ∈ b, c ≠ 0)
    (hm' : m'.length = 33 ∧ ∀ c ∈ m', c ≠ 0 ∧ c ≠ 32) :
    (Growable.parse_http_request (m ++ 32 :: rest) ≠ .unexpected .method_too_long ∧
      ∀ hr, (Fixed.parse_http_request (m ++ 32 :: rest) hr).1 ≠ .HPE_METHOD_TOO_LONG) ∧
    (∃ r, Growable.parse_http_request
        (request_text m t v (join_crlf (ps.map header_text)) b) = .value r ∧ r.method = m) ∧
    (∀ hr, ∃ hr', Fixed.parse_http_request
        (request_text m t v (join_crlf (ps.map header_text)) b) hr = (.HPE_SUCCESS, hr') ∧
      Fixed.c_string hr'.method 33 = m) ∧
    Growable.parse_http_request (m' ++ rest') = .unexpected .method_too_long ∧
    ∀ hr, (Fixed.parse_http_request (m' ++ rest') hr).1 = .HPE_METHOD_TOO_LONG := by
  have hm32 : m.length ≤ 32 ∧ ∀ c ∈ m, c ≠ 0 ∧ c ≠ 32 := ⟨by omega, hm.2⟩
  have hl : ∀ x ∈ ps.map header_text, x ≠ [] ∧ ∀ c ∈ x, c ≠ 0 ∧ c ≠ 13 := by
    intro x hx
    obtain ⟨p, hp, rfl⟩ := List.mem_map.mp hx
    exact ⟨by simp [header_text], hlines p hp⟩
  refine ⟨⟨?_, ?_⟩, ?_, ?_, ?_, ?_⟩
  · rw [Growable.parse_http_request_eq_scan,
      Growable.scan_method_token m _ hm.2 _ _
        (by simp [Growable.init, Growable.METHOD_MAX_LEN]; omega)]
    have := Growable.scan_ne_method_too_long rest.length rest le_rfl .url
      { Growable.init.req with method := Growable.init.req.method ++ m } [] (by simp)
    cases hs : Growable.scan .url
      { Growable.init.req with method := Growable.init.req.method ++ m } [] rest with
    | error e =>
      rw [hs] at this
      simp only
      intro h
      apply this
      cases h
      rfl
    | ok x =>
      obtain ⟨st, req, hdrs⟩ := x
      simp only
      cases Growable.parse_http_headers hdrs <;> simp
  · intro hr
    rw [Fixed.fixed_parse_eq_scan,
      Fixed.fixed_scan_method_token m _ hm.2 _ _ (by simp [Fixed.MAX_HTTP_METHOD_LEN]; omega)]
    cases hs : Fixed.scan .HPS_URL 0
      { hr with
        method := Fixed.CharArray.write (Fixed.CharArray.write_string hr.method 0 m)
          (0 + m.length) 0 } rest with
    | error e =>
      obtain ⟨code, hr'⟩ := e
      simp only
      intro h
      have := Fixed.fixed_scan_ne_method_too_long rest.length rest le_rfl .HPS_URL 0 _ hr'
        (by simp) (h ▸ hs)
      exact this
    | ok x =>
      obtain ⟨st, ti, hr'⟩ := x
      simp
  · obtain ⟨h, hh⟩ : ∃ h, Growable.parse_http_headers (join_crlf (ps.map header_text)) = some h :=
      ⟨_, Growable.parse_http_headers_join ps hsep hlines⟩
    refine ⟨{ method := m, url := t, version := v, headers := h, body := b }, ?_, rfl⟩
    rw [Growable.parse_http_request_eq_scan,
      Growable.scan_request_text m t v b _ hm32 ht hv hl hb.2]
    simp only [hh]
  · intro hr
    refine ⟨_, Fixed.fixed_parse_request_text m t v b _ hr hm32 ⟨by omega, ht.2⟩ hv hl hblock hb,
      ?_⟩
    exact Fixed.c_string_store hr.method m 33 (fun c hc => (hm.2 c hc).1) (by omega)
  · rw [Growable.parse_http_request_eq_scan,
      Growable.scan_method_overflow m' rest' hm'.2 _ _
        (by simp [Growable.init, Growable.METHOD_MAX_LEN])
        (by simp [Growable.init, Growable.METHOD_MAX_LEN]; omega)]
  · intro hr
    obtain ⟨hr', h⟩ := Fixed.fixed_scan_method_overflow m' rest' hm'.2 0 hr
      (by simp [Fixed.MAX_HTTP_METHOD_LEN]) (by simp [Fixed.MAX_HTTP_METHOD_LEN]; omega)
    rw [Fixed.fixed_parse_eq_scan, h]

/-- C5 at a method of 32 letters and one of 33 letters. -/
theorem method_limit_exact_witness :
    (Growable.parse_http_request (bytes "ABCDEFGHIJKLMNOPQRSTUVWXYZABCDEF" ++ 32 :: bytes "x") ≠
        .unexpected .method_too_long ∧
      ∀ hr, (Fixed.parse_http_request (bytes "ABCDEFGHIJKLMNOPQRSTUVWXYZABCDEF" ++ 32 :: bytes "x")
        hr).1 ≠ .HPE_METHOD_TOO_LONG) ∧
    (∃ r, Growable.parse_http_request
        (request_text (bytes "ABCDEFGHIJKLMNOPQRSTUVWXYZABCDEF") (bytes "/") (bytes "HTTP/1.1")
          (join_crlf ([(bytes "Host", bytes "a")].map header_text)) (bytes "body")) = .value r ∧
      r.method = bytes "ABCDEFGHIJKLMNOPQRSTUVWXYZABCDEF") ∧
    (∀ hr, ∃ hr', Fixed.parse_http_request
        (request_text (bytes "ABCDEFGHIJKLMNOPQRSTUVWXYZABCDEF") (bytes "/") (bytes "HTTP/1.1")
          (join_crlf ([(bytes "Host", bytes "a")].map header_text)) (bytes "body")) hr =
          (.HPE_SUCCESS, hr') ∧
      Fixed.c_string hr'.method 33 = bytes "ABCDEFGHIJKLMNOPQRSTUVWXYZABCDEF") ∧
    Growable.parse_http_request
      (bytes "ABCDEFGHIJKLMNOPQRSTUVWXYZABCDEFG" ++ bytes " / HTTP/1.1\r\n\r\n\r\n") =
      .unexpected .method_too_long ∧
    ∀ hr, (Fixed.parse_http_request
      (bytes "ABCDEFGHIJKLMNOPQRSTUVWXYZABCDEFG" ++ bytes " / HTTP/1.1\r\n\r\n\r\n") hr).1 =
      .HPE_METHOD_TOO_LONG :=
  method_limit_exact (bytes "ABCDEFGHIJKLMNOPQRSTUVWXYZABCDEF") (bytes "x") (bytes "/")
    (bytes "HTTP/1.1") (bytes "body") [(bytes "Host", bytes "a")]
    (bytes "ABCDEFGHIJKLMNOPQRSTUVWXYZABCDEFG") (bytes " / HTTP/1.1\r\n\r\n\r\n")
    (by decide) (by decide) (by decide) (by decide) (by decide) (by decide) (by decide)
    (by decide)

/-- C6: in both variants, when the cursor, in the version or the headers state, stands on a
`'\r'` whose next byte is not `'\n'` (another byte, or the terminator at the end of the
input), `parse_http_request` fails with the invalid-CRLF error. `m` is the machine the loop
has reached after `k` iterations. So it is on `"GET / HTTP/1.1\rX"`. -/
theorem lone_cr_is_invalid_crlf (data : Str) :
    (∀ (k : Nat) (m : Growable.Machine), Growable.loop data k Growable.init = .ok m →
      (m.state = .version ∨ m.state = .headers) →
      c_str data m.ptr = 13 → c_str data (m.ptr + 1) ≠ 10 →
      Growable.parse_http_request data = .unexpected .invalid_crlf) ∧
    (∀ (hr : Fixed.HttpRequest) (k : Nat) (m : Fixed.Machine),
      Fixed.loop data k (Fixed.init hr) = .ok m →
      (m.state = .HPS_VERSION ∨ m.state = .HPS_HEADERS) →
      c_str data m.ptr = 13 → c_str data (m.ptr + 1) ≠ 10 →
      (Fixed.parse_http_request data hr).1 = .HPE_INVALID_CRLF) :=
  ⟨fun k m h hs hcr hlf => Growable.parse_of_lone_cr data k m h hs hcr hlf,
   fun hr k m h hs hcr hlf => Fixed.fixed_parse_of_lone_cr data hr k m h hs hcr hlf⟩

/-- C6 at `"GET / HTTP/1.1\rX"`: after 14 iterations both loops stand on the `'\r'`, in the
version state, and both variants return the invalid-CRLF error. -/
theorem lone_cr_is_invalid_crlf_witness :
    Growable.parse_http_request (bytes "GET / HTTP/1.1\rX") = .unexpected .invalid_crlf ∧
    (Fixed.parse_http_request (bytes "GET / HTTP/1.1\rX") (Fixed.HttpRequest.filled 0)).1 =
      .HPE_INVALID_CRLF := by
  refine ⟨(lone_cr_is_invalid_crlf (bytes "GET / HTTP/1.1\rX")).1 14
      { state := .version, ptr := 14,
        req := { method := bytes "GET", url := bytes "/", version := bytes "HTTP/1.1",
                 headers := { entries := [] }, body := [] },
        headers := [] } (by decide) (by decide) (by decide) (by decide), ?_⟩
  exact (lone_cr_is_invalid_crlf (bytes "GET / HTTP/1.1\rX")).2 (Fixed.HttpRequest.filled 0)
    14 _ rfl (by decide) (by decide) (by decide)

/-- C10, what the code does: on the input `"GET"`, which ends while the loop is in the
method state, both variants report success; the growable one returns a `Request` with the
method `GET` and nothing else. -/
theorem end_of_input_counterexample :
    (∃ m, Growable.loop (bytes "GET") 3 Growable.init = .ok m ∧ m.state = .method ∧
      c_str (bytes "GET") m.ptr = 0) ∧
    Growable.parse_http_request (bytes "GET") =
      .value { method := bytes "GET", url := [], version := [], headers := { entries := [] },
               body := [] } ∧
    (Fixed.parse_http_request (bytes "GET") (Fixed.HttpRequest.filled 0)).1 = .HPE_SUCCESS := by
  refine ⟨⟨_, rfl, by decide, by decide⟩, by decide, by decide⟩

/-- C10, amended: the end of the input before the body state is not an error in either
variant. When the loop of the growable variant ends (on a `0` byte, the terminator at the
latest) in the method, url or version state, `parse_http_request` returns the request built
so far, with no headers and an empty body; when the loop of the fixed-capacity variant
ends, in whatever state, `parse_http_request` returns `HPE_SUCCESS`. `m` is the machine the
loop has reached after `k` iterations. -/
theorem end_of_input_is_success (data : Str) :
    (∀ (k : Nat) (m : Growable.Machine), Growable.loop data k Growable.init = .ok m →
      c_str data m.ptr = 0 →
      (m.state = .method ∨ m.state = .url ∨ m.state = .version) →
      Growable.parse_http_request data = .value m.req ∧ m.req.headers.size = 0 ∧
        m.req.body = []) ∧
    (∀ (hr : Fixed.HttpRequest) (k : Nat) (m : Fixed.Machine),
      Fixed.loop data k (Fixed.init hr) = .ok m → c_str data m.ptr = 0 →
      (Fixed.parse_http_request data hr).1 = .HPE_SUCCESS) :=
  ⟨fun k m h hz hs => Growable.parse_of_exhausted_early data k m h hz hs,
   fun hr k m h hz => Fixed.fixed_parse_of_exhausted data hr k m h hz⟩

/-- C10, amended, at `"GET / HTTP/1.1"`, which ends in the version state: after 14
iterations both loops stand on the terminator. -/
theorem end_of_input_is_success_witness :
    Growable.parse_http_request (bytes "GET / HTTP/1.1") =
      .value { method := bytes "GET", url := bytes "/", version := bytes "HTTP/1.1",
               headers := { entries := [] }, body := [] } ∧
    (Fixed.parse_http_request (bytes "GET / HTTP/1.1") (Fixed.HttpRequest.filled 0)).1 =
      .HPE_SUCCESS :=
  ⟨((end_of_input_is_success (bytes "GET / HTTP/1.1")).1 14
      { state := .version, ptr := 14,
        req := { method := bytes "GET", url := bytes "/", version := bytes "HTTP/1.1",
                 headers := { entries := [] }, body := [] },
        headers := [] } (by decide) (by decide) (by decide)).1,
   (end_of_input_is_success (bytes "GET / HTTP/1.1")).2 (Fixed.HttpRequest.filled 0) 14 _ rfl
     (by decide)⟩

theorem join_lf_no_nul : ∀ (lines : List Str), (∀ x ∈ lines, ∀ c ∈ x, c ≠ 0) →
    ∀ c ∈ join_lf lines, c ≠ 0
  | [], _ => by simp [join_lf]
  | [l], h => by simpa [join_lf] using h l (by simp)
  | l :: l' :: ls, h => by
    intro c hc
    simp only [join_lf, List.mem_append, List.mem_cons] at hc
    rcases hc with hc | rfl | hc
    · exact h l (by simp) c hc
    · decide
    · exact join_lf_no_nul (l' :: ls) (fun x hx => h x (by simp at hx ⊢; tauto)) c hc

/-- Each line break takes two bytes in the lines joined by `"\r\n"` and one byte in the lines
joined by `"\n"`. -/
theorem join_crlf_length : ∀ (l : Str) (lines : List Str),
    (join_crlf (l :: lines)).length = (join_lf (l :: lines)).length + lines.length
  | l, [] => by simp [join_crlf, join_lf]
  | l, l' :: ls => by
    simp only [join_crlf, join_lf, List.length_append, List.length_cons, join_crlf_length l' ls]
    omega

/-- C16, on the code: the header block of a request with the header lines `l :: lines` (no
line empty, none containing `'\r'` or NUL, the block joined by `"\r\n"` at most 8192 bytes)
terminated by the blank line. The growable variant copies each `"\r\n"` between two lines as
the two bytes `'\r'`, `'\n'`: its loop reaches the body state and the block passed to
`parse_http_headers` is the lines joined by `"\r\n"`. The fixed-capacity variant writes
nothing for the `'\r'` of such a line break and copies only the `'\n'`: it returns
`HPE_SUCCESS` and the C string in `headers` is the lines joined by `"\n"`, one byte shorter
for every line break; with two lines or more it is not the lines joined by `"\r\n"`. -/
theorem header_block_line_breaks (m t v b l : Str) (lines : List Str) (hr : Fixed.HttpRequest)
    (hm : m.length ≤ 32 ∧ ∀ c ∈ m, c ≠ 0 ∧ c ≠ 32)
    (ht : t.length ≤ 1024 ∧ ∀ c ∈ t, c ≠ 0 ∧ c ≠ 32)
    (hv : v.length ≤ 32 ∧ ∀ c ∈ v, c ≠ 0 ∧ c ≠ 13)
    (hlines : ∀ x ∈ l :: lines, x ≠ [] ∧ ∀ c ∈ x, c ≠ 0 ∧ c ≠ 13)
    (hblock : (join_crlf (l :: lines)).length ≤ 8192)
    (hb : b.length ≤ 8192 ∧ ∀ c ∈ b, c ≠ 0) :
    (∃ mach, Growable.loop (request_text m t v (join_crlf (l :: lines)) b)
        (request_text m t v (join_crlf (l :: lines)) b).length Growable.init = .ok mach ∧
      mach.state = .body ∧ mach.headers = join_crlf (l :: lines)) ∧
    (Fixed.parse_http_request (request_text m t v (join_crlf (l :: lines)) b) hr).1 =
      .HPE_SUCCESS ∧
    Fixed.c_string
        (Fixed.parse_http_request (request_text m t v (join_crlf (l :: lines)) b) hr).2.headers
        (Fixed.MAX_HTTP_HEADERS_LEN + 1) = join_lf (l :: lines) ∧
    (join_crlf (l :: lines)).length = (join_lf (l :: lines)).length + lines.length ∧
    (lines ≠ [] →
      Fixed.c_string
          (Fixed.parse_http_request (request_text m t v (join_crlf (l :: lines)) b) hr).2.headers
          (Fixed.MAX_HTTP_HEADERS_LEN + 1) ≠ join_crlf (l :: lines)) := by
  have hlen := join_crlf_length l lines
  have hfix := Fixed.fixed_parse_request_text m t v b (l :: lines) hr hm
    ⟨by have := ht.1; omega, ht.2⟩ hv hlines (by omega) hb
  have hstr : Fixed.c_string
      (Fixed.parse_http_request (request_text m t v (join_crlf (l :: lines)) b) hr).2.headers
      (Fixed.MAX_HTTP_HEADERS_LEN + 1) = join_lf (l :: lines) := by
    rw [hfix]
    exact Fixed.c_string_store _ _ _
      (join_lf_no_nul _ (fun x hx c hc => ((hlines x hx).2 c hc).1))
      (by simp only [Fixed.MAX_HTTP_HEADERS_LEN]; omega)
  refine ⟨?_, by rw [hfix], hstr, hlen, fun hne => ?_⟩
  · exact Growable.loop_header_block m t v b l lines hm ht hv
      (fun x hx => (hlines x hx).2) (fun x hx => (hlines x (by simp [hx])).1)
  · rw [hstr]
    intro heq
    rw [heq] at hlen
    have : 0 < lines.length := List.length_pos.mpr hne
    omega

/-- C16 at `"GET / HTTP/1.1\r\nHost: a\r\nB: c\r\n\r\nbody"`: the block of the growable
variant is `Host: a\r\nB: c`, the `headers` field of the fixed-capacity variant holds
`Host: a\nB: c`. -/
theorem header_block_line_breaks_witness :
    (∃ mach, Growable.loop (bytes "GET / HTTP/1.1\r\nHost: a\r\nB: c\r\n\r\nbody")
        (bytes "GET / HTTP/1.1\r\nHost: a\r\nB: c\r\n\r\nbody").length Growable.init = .ok mach ∧
      mach.state = .body ∧ mach.headers = bytes "Host: a\r\nB: c") ∧
    (Fixed.parse_http_request (bytes "GET / HTTP/1.1\r\nHost: a\r\nB: c\r\n\r\nbody")
      (Fixed.HttpRequest.filled 0)).1 = .HPE_SUCCESS ∧
    Fixed.c_string
        (Fixed.parse_http_request (bytes "GET / HTTP/1.1\r\nHost: a\r\nB: c\r\n\r\nbody")
          (Fixed.HttpRequest.filled 0)).2.headers
        (Fixed.MAX_HTTP_HEADERS_LEN + 1) = bytes "Host: a\nB: c" ∧
    Fixed.c_string
        (Fixed.parse_http_request (bytes "GET / HTTP/1.1\r\nHost: a\r\nB: c\r\n\r\nbody")
          (Fixed.HttpRequest.filled 0)).2.headers
        (Fixed.MAX_HTTP_HEADERS_LEN + 1) ≠ bytes "Host: a\r\nB: c" :=
  have h := header_block_line_breaks (bytes "GET") (bytes "/") (bytes "HTTP/1.1") (bytes "body")
    (bytes "Host: a") [bytes "B: c"] (Fixed.HttpRequest.filled 0) (by decide) (by decide)
    (by decide) (by decide) (by decide) (by decide)
  ⟨h.1, h.2.1, h.2.2.1, h.2.2.2.2 (by decide)⟩

/-- C13: the capacity invariant of the state machine, in both variants. In every machine
that the loop reaches (after every iteration, and so at the return) the method holds at
most 32 bytes, the version at most 32 and the target at most 1024 in the growable variant,
and so does the `Request` returned. In the fixed-capacity variant `token_index` is at most
32 in the method state, 2048 in the url state, 32 in the version state and 8192 in the
headers and in the body state; so the index of the array write of every iteration
(`step_write`, the terminating NUL included) is less than the size of its array, the limit
plus one, and so is the index of the final write to `body`; the arrays of the states passed
hold a NUL at an index that is at most their limit, and so does `body` after a successful
return. -/
theorem capacity_invariant (data : Str) (hr : Fixed.HttpRequest) :
    (∀ (k : Nat) (m : Growable.Machine), Growable.loop data k Growable.init = .ok m →
      m.req.method.length ≤ 32 ∧ m.req.url.length ≤ 1024 ∧ m.req.version.length ≤ 32) ∧
    (∀ r : Growable.Request, Growable.parse_http_request data = .value r →
      r.method.length ≤ 32 ∧ r.url.length ≤ 1024 ∧ r.version.length ≤ 32) ∧
    (∀ (k : Nat) (m : Fixed.Machine), Fixed.loop data k (Fixed.init hr) = .ok m →
      (m.state = .HPS_METHOD → m.token_index ≤ 32) ∧
      (m.state = .HPS_URL → m.token_index ≤ 2048) ∧
      (m.state = .HPS_VERSION → m.token_index ≤ 32) ∧
      (m.state = .HPS_HEADERS → m.token_index ≤ 8192) ∧
      (m.state = .HPS_BODY → m.token_index ≤ 8192) ∧
      (∀ f i v, Fixed.step_write data m = some (f, i, v) → i < f.size) ∧
      (∀ m', Fixed.step data m = .ok m' →
        m'.hr =
          match Fixed.step_write data m with
          | some (f, i, v) => m.hr.assign f i v
          | none => m.hr) ∧
      m.token_index < Fixed.Field.size .body ∧
      Fixed.earlier_fields_terminated m.state m.hr) ∧
    ((Fixed.parse_http_request data hr).1 = .HPE_SUCCESS →
      ∃ i, i ≤ Fixed.MAX_HTTP_BODY_LEN ∧ (Fixed.parse_http_request data hr).2.body i = 0) := by
  refine ⟨fun k m h => Growable.loop_lengths data k m h, ?_, ?_, ?_⟩
  · intro r h
    unfold Growable.parse_http_request at h
    cases hl : Growable.loop data data.length Growable.init with
    | error e => simp [hl] at h
    | ok m =>
      simp only [hl] at h
      cases hh : Growable.parse_http_headers m.headers with
      | none => simp [hh] at h
      | some hd =>
        simp only [hh, Growable.Outcome.value.injEq] at h
        subst h
        exact Growable.loop_lengths data _ m hl
  · intro k m h
    have hlim := Fixed.fixed_loop_limit data hr k m h
    have hle := Fixed.fixed_limit_le m.state
    refine ⟨?_, ?_, ?_, ?_, ?_, ?_, ?_, ?_, ?_⟩
    · intro hs; simpa [hs, Fixed.limit, Fixed.MAX_HTTP_METHOD_LEN] using hlim
    · intro hs; simpa [hs, Fixed.limit, Fixed.MAX_HTTP_URL_LEN] using hlim
    · intro hs; simpa [hs, Fixed.limit, Fixed.MAX_HTTP_VERSION_LEN] using hlim
    · intro hs; simpa [hs, Fixed.limit, Fixed.MAX_HTTP_HEADERS_LEN] using hlim
    · intro hs; simpa [hs, Fixed.limit, Fixed.MAX_HTTP_BODY_LEN] using hlim
    · intro f i v hw
      exact Fixed.fixed_step_write_index data m f i v hw hlim
    · intro m' hs
      exact Fixed.fixed_step_assigns data m m' hs
    · simp only [Fixed.Field.size]
      omega
    · exact Fixed.fixed_loop_terminated data hr k m h
  · intro hcode
    unfold Fixed.parse_http_request at hcode ⊢
    cases hl : Fixed.loop data data.length (Fixed.init hr) with
    | error x =>
      obtain ⟨k, m, _, _, hstep⟩ := Fixed.fixed_loop_error data x _ _ hl
      obtain ⟨code, hr'⟩ := x
      have := (Fixed.fixed_step_error_hr data m code hr' hstep).2
      rw [hl] at hcode
      exact absurd hcode this
    | ok m =>
      have hlim := Fixed.fixed_loop_limit data hr _ m hl
      have hle := Fixed.fixed_limit_le m.state
      exact ⟨m.token_index, by omega, by simp [Fixed.CharArray.write]⟩

/-- C13 at `"GET / HTTP/1.1\r\nHost: a\r\n\r\nbody"`, after 16 iterations: both loops are
in the headers state. -/
theorem capacity_invariant_witness :
    (∃ m, Growable.loop (bytes "GET / HTTP/1.1\r\nHost: a\r\n\r\nbody") 16 Growable.init = .ok m ∧
      m.req.method.length ≤ 32 ∧ m.req.url.length ≤ 1024 ∧ m.req.version.length ≤ 32) ∧
    (∃ m, Fixed.loop (bytes "GET / HTTP/1.1\r\nHost: a\r\n\r\nbody") 16
        (Fixed.init (Fixed.HttpRequest.filled 0)) = .ok m ∧
      (m.state = .HPS_HEADERS → m.token_index ≤ 8192) ∧
      (∀ f i v, Fixed.step_write (bytes "GET / HTTP/1.1\r\nHost: a\r\n\r\nbody") m =
        some (f, i, v) → i < f.size)) :=
  ⟨⟨_, rfl, (capacity_invariant (bytes "GET / HTTP/1.1\r\nHost: a\r\n\r\nbody")
      (Fixed.HttpRequest.filled 0)).1 16 _ rfl⟩,
   ⟨_, rfl,
    ((capacity_invariant (bytes "GET / HTTP/1.1\r\nHost: a\r\n\r\nbody")
      (Fixed.HttpRequest.filled 0)).2.2.1 16 _ rfl).2.2.2.1,
    ((capacity_invariant (bytes "GET / HTTP/1.1\r\nHost: a\r\n\r\nbody")
      (Fixed.HttpRequest.filled 0)).2.2.1 16 _ rfl).2.2.2.2.2.1⟩⟩

/-- C14, what the code does: the fixed-capacity variant writes into the caller's record
while it parses and restores nothing when it fails. On `"GET / HTTP/1.1\rX"` it returns
`HPE_INVALID_CRLF`, and the first byte of `method`, `7` before the call, is `G`. -/
theorem failed_parse_counterexample :
    (Fixed.parse_http_request (bytes "GET / HTTP/1.1\rX") (Fixed.HttpRequest.filled 7)).1 =
      .HPE_INVALID_CRLF ∧
    (Fixed.parse_http_request (bytes "GET / HTTP/1.1\rX") (Fixed.HttpRequest.filled 7)).2.method 0 =
      71 ∧
    (Fixed.HttpRequest.filled 7).method 0 = 7 := by
  refine ⟨by decide, by decide, by decide⟩

/-- C14, amended: a failed parse returns no `Request` as a success. The growable variant
returns only the error value. The fixed-capacity variant returns an error code, which is not
`HPE_SUCCESS`, from an iteration on a machine `m` that the loop has reached, and leaves the
caller's record as the iterations before wrote it: the record is `m.hr`, nothing is
restored, and only the fields of the states not yet entered hold their values from before
the call. -/
theorem failed_parse_result (request : Str) (hr hr' : Fixed.HttpRequest)
    (e : Fixed.HttpParseError) (h : Fixed.parse_http_request request hr = (e, hr'))
    (he : e ≠ .HPE_SUCCESS) :
    (∃ k m, Fixed.loop request k (Fixed.init hr) = .ok m ∧
      Fixed.step request m = .error (e, hr') ∧ hr' = m.hr ∧
      Fixed.later_fields_kept m.state hr hr') ∧
    (∀ (data : Str) (err : Growable.ParseError),
      Growable.parse_http_request data = .unexpected err →
      ∀ r, Growable.parse_http_request data ≠ .value r) := by
  constructor
  · unfold Fixed.parse_http_request at h
    cases hl : Fixed.loop request request.length (Fixed.init hr) with
    | ok m =>
      simp only [hl, Prod.mk.injEq] at h
      exact absurd h.1.symm he
    | error x =>
      simp only [hl] at h
      subst h
      obtain ⟨k, m, hk, _, hstep⟩ := Fixed.fixed_loop_error request (e, hr') _ _ hl
      have hhr := (Fixed.fixed_step_error_hr request m e hr' hstep).1
      refine ⟨k, m, hk, hstep, hhr, ?_⟩
      rw [hhr]
      exact Fixed.fixed_loop_later_fields request hr k m hk
  · intro data err h r
    rw [h]
    simp

/-- C14, amended, at `"GET / HTTP/1.1\rX"`. -/
theorem failed_parse_result_witness :
    ∃ k m, Fixed.loop (bytes "GET / HTTP/1.1\rX") k (Fixed.init (Fixed.HttpRequest.filled 7)) =
        .ok m ∧
      Fixed.step (bytes "GET / HTTP/1.1\rX") m =
        .error (.HPE_INVALID_CRLF,
          (Fixed.parse_http_request (bytes "GET / HTTP/1.1\rX") (Fixed.HttpRequest.filled 7)).2) ∧
      (Fixed.parse_http_request (bytes "GET / HTTP/1.1\rX") (Fixed.HttpRequest.filled 7)).2 =
        m.hr ∧
      Fixed.later_fields_kept m.state (Fixed.HttpRequest.filled 7)
        (Fixed.parse_http_request (bytes "GET / HTTP/1.1\rX") (Fixed.HttpRequest.filled 7)).2 :=
  (failed_parse_result (bytes "GET / HTTP/1.1\rX") (Fixed.HttpRequest.filled 7) _
    .HPE_INVALID_CRLF rfl (by decide)).1

/-- C18: lookahead safety, in both variants. For every machine `m` that the loop reaches,
no byte before the cursor is NUL, so the cursor is at most the length of the input; and
when the iteration on `m` runs (`*ptr != 0`), no byte before an index that it reads
(`step_reads`: the current byte and the lookahead bytes `ptr[1]`, `ptr[2]`, `ptr[3]`) is NUL,
so every read is inside the buffer or on its terminating NUL, and the cursor after the
iteration, advanced by 1, 2 or 4, is again at most the length of the input. -/
theorem lookahead_safety (data : Str) :
    (∀ (k : Nat) (m : Growable.Machine), Growable.loop data k Growable.init = .ok m →
      (∀ j, j < m.ptr → c_str data j ≠ 0) ∧ m.ptr ≤ data.length ∧
      (c_str data m.ptr ≠ 0 →
        (∀ i ∈ Growable.step_reads data m, (∀ j, j < i → c_str data j ≠ 0) ∧ i ≤ data.length) ∧
        ∀ m', Growable.step data m = .ok m' →
          m'.ptr ≤ data.length ∧
            (m'.ptr = m.ptr + 1 ∨ m'.ptr = m.ptr + 2 ∨ m'.ptr = m.ptr + 4))) ∧
    (∀ (hr : Fixed.HttpRequest) (k : Nat) (m : Fixed.Machine),
      Fixed.loop data k (Fixed.init hr) = .ok m →
      (∀ j, j < m.ptr → c_str data j ≠ 0) ∧ m.ptr ≤ data.length ∧
      (c_str data m.ptr ≠ 0 →
        (∀ i ∈ Fixed.step_reads data m, (∀ j, j < i → c_str data j ≠ 0) ∧ i ≤ data.length) ∧
        ∀ m', Fixed.step data m = .ok m' →
          m'.ptr ≤ data.length ∧
            (m'.ptr = m.ptr + 1 ∨ m'.ptr = m.ptr + 2 ∨ m'.ptr = m.ptr + 4))) := by
  constructor
  · intro k m h
    have hinv := Growable.loop_no_nul_before data k m h
    refine ⟨hinv, le_length_of_no_nul_before data _ hinv, fun h0 => ⟨fun i hi => ?_, ?_⟩⟩
    · have := Growable.step_reads_no_nul_before data m h0 hinv i hi
      exact ⟨this, le_length_of_no_nul_before data _ this⟩
    · intro m' hs
      exact Growable.step_ptr_le data m m' h0 hs
  · intro hr k m h
    have hinv := Fixed.fixed_loop_no_nul_before data hr k m h
    refine ⟨hinv, le_length_of_no_nul_before data _ hinv, fun h0 => ⟨fun i hi => ?_, ?_⟩⟩
    · have := Fixed.fixed_step_reads_no_nul_before data m h0 hinv i hi
      exact ⟨this, le_length_of_no_nul_before data _ this⟩
    · intro m' hs
      exact Fixed.fixed_step_ptr_le data m m' h0 hs

/-- C18 at `"GET / H\r\nA: b\r\n\r\n"`, after 12 iterations: both loops stand on the `'\r'`
of the blank line and read the three bytes after it, the last of them the last byte of the
input. -/
theorem lookahead_safety_witness :
    (∃ m, Growable.loop (bytes "GET / H\r\nA: b\r\n\r\n") 12 Growable.init = .ok m ∧
      Growable.step_reads (bytes "GET / H\r\nA: b\r\n\r\n") m = [13, 14, 15, 16] ∧
      ∀ i ∈ Growable.step_reads (bytes "GET / H\r\nA: b\r\n\r\n") m,
        (∀ j, j < i → c_str (bytes "GET / H\r\nA: b\r\n\r\n") j ≠ 0) ∧
          i ≤ (bytes "GET / H\r\nA: b\r\n\r\n").length) ∧
    (∃ m, Fixed.loop (bytes "GET / H\r\nA: b\r\n\r\n") 12
        (Fixed.init (Fixed.HttpRequest.filled 0)) = .ok m ∧
      Fixed.step_reads (bytes "GET / H\r\nA: b\r\n\r\n") m = [13, 14, 15, 16] ∧
      ∀ i ∈ Fixed.step_reads (bytes "GET / H\r\nA: b\r\n\r\n") m,
        (∀ j, j < i → c_str (bytes "GET / H\r\nA: b\r\n\r\n") j ≠ 0) ∧
          i ≤ (bytes "GET / H\r\nA: b\r\n\r\n").length) :=
  ⟨⟨_, rfl, by decide,
    (((lookahead_safety (bytes "GET / H\r\nA: b\r\n\r\n")).1 12 _ rfl).2.2 (by decide)).1⟩,
   ⟨_, rfl, by decide,
    (((lookahead_safety (bytes "GET / H\r\nA: b\r\n\r\n")).2 (Fixed.HttpRequest.filled 0) 12 _
      rfl).2.2 (by decide)).1⟩⟩

/-- C15: the two implementations run the same state machine. For every input of at most
1024 bytes (NUL-free or not: both loops end at the first NUL), when the loop of the growable
`parse_http_request` fails, the error is `method_too_long`, `version_too_long` or
`invalid_crlf` and the fixed-capacity `parse_http_request` returns the code of the same kind;
when it ends without an error, the fixed-capacity one returns `HPE_SUCCESS`, its loop ends
in the corresponding state, and if that is the body state, the C strings in `method`, `url`,
`version` and `body` of the record are the method, url, version and body of the growable
loop, byte for byte. -/
theorem same_state_machine (data : Str) (hr : Fixed.HttpRequest) (hlen : data.length ≤ 1024) :
    (∀ e, Growable.loop data data.length Growable.init = .error e →
      (e = .method_too_long ∨ e = .version_too_long ∨ e = .invalid_crlf) ∧
      (Fixed.parse_http_request data hr).1 = Fixed.error_kind e) ∧
    (∀ m, Growable.loop data data.length Growable.init = .ok m →
      (Fixed.parse_http_request data hr).1 = .HPE_SUCCESS ∧
      (∃ fm, Fixed.loop data data.length (Fixed.init hr) = .ok fm ∧
        fm.state = Fixed.state_kind m.state) ∧
      (m.state = .body →
        Fixed.c_string (Fixed.parse_http_request data hr).2.method
          (Fixed.MAX_HTTP_METHOD_LEN + 1) = m.req.method ∧
        Fixed.c_string (Fixed.parse_http_request data hr).2.url
          (Fixed.MAX_HTTP_URL_LEN + 1) = m.req.url ∧
        Fixed.c_string (Fixed.parse_http_request data hr).2.version
          (Fixed.MAX_HTTP_VERSION_LEN + 1) = m.req.version ∧
        Fixed.c_string (Fixed.parse_http_request data hr).2.body
          (Fixed.MAX_HTTP_BODY_LEN + 1) = m.req.body)) := by
  have hs := Fixed.scan_mirrors data.length data le_rfl .method Growable.init.req []
    .HPS_METHOD 0 hr
    ⟨rfl, rfl, by simp [Fixed.MAX_HTTP_METHOD_LEN], Fixed.holds_nil _, rfl, rfl, rfl⟩
    (by simpa using hlen)
  have hg := Growable.loop_eq_scan data data.length Growable.init (by simp [Growable.init])
  have hf := Fixed.fixed_loop_eq_scan data data.length (Fixed.init hr) (by simp [Fixed.init])
  have e1 : Growable.init.state = .method := rfl
  have e2 : Growable.init.headers = [] := rfl
  have e3 : Growable.init.ptr = 0 := rfl
  have f1 : (Fixed.init hr).state = .HPS_METHOD := rfl
  have f2 : (Fixed.init hr).token_index = 0 := rfl
  have f3 : (Fixed.init hr).ptr = 0 := rfl
  have f4 : (Fixed.init hr).hr = hr := rfl
  rw [e1, e2, e3, List.drop_zero] at hg
  rw [f1, f2, f3, f4, List.drop_zero] at hf
  rw [← hg, ← hf] at hs
  unfold Fixed.parse_http_request
  constructor
  · intro e he
    rw [he] at hs
    cases hfl : Fixed.loop data data.length (Fixed.init hr) with
    | ok fm => rw [hfl] at hs; exact hs.elim
    | error x =>
      rw [hfl] at hs
      obtain ⟨code, hr'⟩ := x
      simp only [Fixed.same_outcome] at hs
      refine ⟨?_, hs.1⟩
      cases e <;> simp at hs ⊢
  · intro m hm
    rw [hm] at hs
    cases hfl : Fixed.loop data data.length (Fixed.init hr) with
    | error x => rw [hfl] at hs; exact hs.elim
    | ok fm =>
      rw [hfl] at hs
      simp only [Fixed.same_outcome] at hs
      obtain ⟨⟨hst, hmir⟩, hti⟩ := hs
      refine ⟨rfl, ⟨fm, rfl, hst⟩, fun hbody => ?_⟩
      rw [hbody] at hmir
      obtain ⟨h1, h2, h3, h4, h5⟩ := hmir
      refine ⟨h1, h2, h3, ?_⟩
      simp only
      rw [h4]
      exact Fixed.c_string_terminated _ _ _ h5 (by simp only [Fixed.MAX_HTTP_BODY_LEN]; omega)

/-- C15 at `"GET / HTTP/1.1\r\nHost: a\r\n\r\nbody"`. -/
theorem same_state_machine_witness :
    ∃ m, Growable.loop (bytes "GET / HTTP/1.1\r\nHost: a\r\n\r\nbody")
        (bytes "GET / HTTP/1.1\r\nHost: a\r\n\r\nbody").length Growable.init = .ok m ∧
      m.req.body = bytes "body" ∧
      (Fixed.parse_http_request (bytes "GET / HTTP/1.1\r\nHost: a\r\n\r\nbody")
        (Fixed.HttpRequest.filled 7)).1 = .HPE_SUCCESS ∧
      Fixed.c_string (Fixed.parse_http_request (bytes "GET / HTTP/1.1\r\nHost: a\r\n\r\nbody")
        (Fixed.HttpRequest.filled 7)).2.body (Fixed.MAX_HTTP_BODY_LEN + 1) = m.req.body :=
  ⟨_, rfl, by decide,
    ((same_state_machine (bytes "GET / HTTP/1.1\r\nHost: a\r\n\r\nbody")
      (Fixed.HttpRequest.filled 7) (by decide)).2 _ rfl).1,
    (((same_state_machine (bytes "GET / HTTP/1.1\r\nHost: a\r\n\r\nbody")
      (Fixed.HttpRequest.filled 7) (by decide)).2 _ rfl).2.2 (by decide)).2.2.2⟩
